import Mathlib

/-!
Verification of the schema-reconciliation core of the ResumeParsingBot
(`app.py`): the three record normalizers (`_normalize_resume_fields`,
`_normalize_jd_fields`, `_normalize_match_analysis`), the duration parser
(`_parse_duration`) and the experience aggregator
(`_calculate_total_experience` / `_calculate_years_between_dates`).

The Python data domain (JSON-decoded values plus the few other values the
code produces) is embedded as `PyVal`; Python dicts are insertion-ordered
association lists with distinct keys.  A Python function that can raise an
uncaught exception is embedded as a function into `Option _`, where `none`
models the exception escaping; code paths whose exceptions the source
catches are embedded by the caught branch's fallback value.
-/

set_option maxHeartbeats 1000000
set_option maxRecDepth 100000

/-- Python dictionary keys as they occur in this code base: strings plus the
non-string (numeric / `None`) keys the spec's edge cases mention. -/
inductive PyKey where
  | str (s : String)
  | int (n : Int)
  | null
deriving DecidableEq, Repr

/-- Embedded Python/JSON values.  Python `float` is modelled as an exact
rational (the code only adds, divides and compares floats).  `int` and
`float` are kept distinct because the source distinguishes them via
`isinstance` and because `max` and arithmetic preserve the distinction. -/
inductive PyVal where
  | str (s : String)
  | int (n : Int)
  | float (q : Rat)
  | bool (b : Bool)
  | none
  | list (xs : List PyVal)
  | dict (entries : List (PyKey × PyVal))

/-- A Python dict: insertion-ordered association list. -/
abbrev PyDict := List (PyKey × PyVal)

/-- `d[k]` lookup returning the first (in Python: only) binding. -/
def getK (d : PyDict) (k : PyKey) : Option PyVal :=
  (d.find? (fun p => decide (p.1 = k))).map (·.2)

/-- `d.get(k, dflt)`. -/
def getKD (d : PyDict) (k : PyKey) (dflt : PyVal) : PyVal :=
  (getK d k).getD dflt

/-- `k in d`. -/
def hasKey (d : PyDict) (k : PyKey) : Bool :=
  d.any (fun p => decide (p.1 = k))

/-- `d[k] = v`: overwrite in place (keeping the key's position) when the key
exists, append otherwise — CPython's insertion-order semantics. -/
def setK (d : PyDict) (k : PyKey) (v : PyVal) : PyDict :=
  match d with
  | [] => [(k, v)]
  | p :: t => if p.1 = k then (k, v) :: t else p :: setK t k v

/-- `del d[k]` / `d.pop(k)`'s effect on the dict. -/
def delK (d : PyDict) (k : PyKey) : PyDict :=
  d.filter (fun p => decide (¬ p.1 = k))

/-- The keys of a dict, in order. -/
def keysOf (d : PyDict) : List PyKey := d.map (·.1)

/-- Is this key a Python string? (`isinstance`-free: Python just calls
`.lower()` and may raise `AttributeError`.) -/
def isStrKey : PyKey → Bool
  | .str _ => true
  | _ => false

/-- Python truthiness (`if not x`). -/
def truthy : PyVal → Bool
  | .str s => !s.data.isEmpty
  | .int n => decide (¬ n = 0)
  | .float q => decide (¬ q = 0)
  | .bool b => b
  | .none => false
  | .list xs => !xs.isEmpty
  | .dict d => !d.isEmpty

/-- Substring test on character lists, mirroring Python's `needle in hay`. -/
def subListIn (needle : List Char) : List Char → Bool
  | [] => needle.isEmpty
  | c :: t => needle.isPrefixOf (c :: t) || subListIn needle t

/-- Python `needle in hay` for strings. -/
def strIn (needle hay : String) : Bool :=
  subListIn needle.toList hay.toList

/-- `s.lower()`.  (A kernel-computable replacement for `String.toLower`;
the keys and tokens in play are ASCII.) -/
def pyLower (s : String) : String := String.mk (s.data.map Char.toLower)

/-- `s.strip()`: drop leading and trailing whitespace. -/
def pyTrim (s : String) : String :=
  String.mk (((s.data.dropWhile Char.isWhitespace).reverse.dropWhile
    Char.isWhitespace).reverse)

/-- Fuelled worker for `pySplit`; the fuel (initially the string length)
bounds the number of scan steps. -/
def splitAux (sep : List Char) : Nat → List Char → List Char → List (List Char)
  | _, cur, [] => [cur.reverse]
  | 0, cur, rest => [cur.reverse ++ rest]
  | fuel + 1, cur, c :: t =>
      if sep.isPrefixOf (c :: t) then
        cur.reverse :: splitAux sep fuel [] ((c :: t).drop sep.length)
      else splitAux sep fuel (c :: cur) t

/-- Python `s.split(sep)` for a non-empty separator: non-overlapping,
left-to-right, empty parts preserved. -/
def pySplit (s sep : String) : List String :=
  (splitAux sep.data s.data.length [] s.data).map String.mk

/-- Fuelled worker for `pyReplace`. -/
def replaceAux (pat rep : List Char) : Nat → List Char → List Char
  | _, [] => []
  | 0, rest => rest
  | fuel + 1, c :: t =>
      if pat.isPrefixOf (c :: t) then
        rep ++ replaceAux pat rep fuel ((c :: t).drop pat.length)
      else c :: replaceAux pat rep fuel t

/-- Python `s.replace(pat, rep)` for a non-empty pattern. -/
def pyReplace (s pat rep : String) : String :=
  if pat.data.isEmpty then s
  else String.mk (replaceAux pat.data rep.data s.data.length s.data)

/-- Digits of a char list read as a natural number (caller checks `isDigit`). -/
def digitsVal (l : List Char) : Nat :=
  l.foldl (fun a c => a * 10 + (c.toNat - 48)) 0

/-- `int(s)` on a string: strip whitespace, optional sign, all digits;
`none` models `ValueError`.  (Underscore separators are not modelled.) -/
def pyIntOfStr (s : String) : Option Int :=
  let t := pyTrim s
  match t.toList with
  | '-' :: rest =>
      if ¬ rest.isEmpty ∧ rest.all Char.isDigit then some (-(digitsVal rest : Int)) else Option.none
  | '+' :: rest =>
      if ¬ rest.isEmpty ∧ rest.all Char.isDigit then some (digitsVal rest : Int) else Option.none
  | l =>
      if ¬ l.isEmpty ∧ l.all Char.isDigit then some (digitsVal l : Int) else Option.none

/-- Parse the finite forms accepted by Python's `float(str)` after the sign:
`digits [. digits] | . digits`, with an optional `e [sign] digits` exponent.
(`inf`/`nan` spellings are not modelled; they cannot occur here.) -/
def pyFloatCore (l : List Char) : Option Rat :=
  let intPart := l.takeWhile Char.isDigit
  let rest1 := l.drop intPart.length
  let (fracPart, rest2) :=
    match rest1 with
    | '.' :: r => (r.takeWhile Char.isDigit, r.drop (r.takeWhile Char.isDigit).length)
    | _ => ([], rest1)
  if intPart.isEmpty ∧ fracPart.isEmpty then Option.none
  else
    let mantissa : Rat :=
      (digitsVal intPart : Rat) + (digitsVal fracPart : Rat) / ((10 : Rat) ^ fracPart.length)
    match rest2 with
    | [] => some mantissa
    | 'e' :: er =>
        let (esign, edigs) :=
          match er with
          | '-' :: r => (true, r)
          | '+' :: r => (false, r)
          | r => (false, r)
        if ¬ edigs.isEmpty ∧ edigs.all Char.isDigit then
          let e := digitsVal edigs
          some (if esign then mantissa / ((10 : Rat) ^ e) else mantissa * ((10 : Rat) ^ e))
        else Option.none
    | _ => Option.none

/-- `float(s)` on a string: strip whitespace, lower-case (for the exponent
marker), optional sign, then the numeric forms of `pyFloatCore`. -/
def pyFloatOfStr (s : String) : Option Rat :=
  let t := pyLower (pyTrim s)
  match t.toList with
  | '-' :: rest => (pyFloatCore rest).map (fun q => -q)
  | '+' :: rest => pyFloatCore rest
  | l => pyFloatCore l

/-- `float(x)` over the value domain; `none` models `ValueError`/`TypeError`.
Python accepts `bool` (a subclass of `int`). -/
def pyFloat : PyVal → Option Rat
  | .str s => pyFloatOfStr s
  | .int n => some (n : Rat)
  | .float q => some q
  | .bool b => some (if b then 1 else 0)
  | _ => Option.none

/-- Render a float the way `str` does for the integral values arising here
(`9.0`); non-integral rationals are rendered approximately — the results are
only ever used in membership tests against word tokens, which no float
rendering can satisfy. -/
def floatStr (q : Rat) : String :=
  if q.den = 1 then toString q.num ++ ".0"
  else toString q.num ++ "/" ++ toString q.den

/-- Python `repr` of a dict key. -/
def pyReprKey : PyKey → String
  | .str s => "'" ++ s ++ "'"
  | .int n => toString n
  | .null => "None"

mutual
/-- Python `repr` for the values in play (element rendering inside `str` of a
container).  String escaping is not modelled; it does not affect any branch
taken by the code. -/
def pyRepr : PyVal → String
  | .str s => "'" ++ s ++ "'"
  | .int n => toString n
  | .float q => floatStr q
  | .bool b => if b then "True" else "False"
  | .none => "None"
  | .list xs => "[" ++ String.intercalate ", " (pyReprList xs) ++ "]"
  | .dict d => "\x7b" ++ String.intercalate ", " (pyReprEntries d) ++ "\x7d"

def pyReprList : List PyVal → List String
  | [] => []
  | x :: t => pyRepr x :: pyReprList t

def pyReprEntries : List (PyKey × PyVal) → List String
  | [] => []
  | (k, v) :: t => (pyReprKey k ++ ": " ++ pyRepr v) :: pyReprEntries t
end

/-- Python `str(x)`. -/
def pyStr : PyVal → String
  | .str s => s
  | v => pyRepr v

/-- First run of digits in a string — `re.search` with a digits group. -/
def firstDigitRun : List Char → Option (List Char)
  | [] => Option.none
  | c :: t => if c.isDigit then some (c :: t.takeWhile Char.isDigit) else firstDigitRun t

/-! ## `_parse_duration` (app.py lines 508-556) -/

/-- The month abbreviations checked before splitting on a bare hyphen. -/
def monthAbbrevs : List String :=
  ["jan", "feb", "mar", "apr", "may", "jun", "jul", "aug", "sep", "oct", "nov", "dec"]

/-- Model of one `re.findall` step for the pattern
`(?:[a-z]{3}|\d{1,2})[- ](?:\d{2}|\d{4})` at a fixed position: returns the
match length.  Alternatives are tried in regex order; `\d{1,2}` is greedy
with backtracking; `(?:\d{2}|\d{4})` always resolves to two digits when it
matches at all (four digits would require the first two to be digits too). -/
def datePatMatchAt (cs : List Char) : Option Nat :=
  let isLower : Char → Bool := fun c => decide ('a' ≤ c) && decide (c ≤ 'z')
  let sep : Char → Bool := fun c => c == '-' || c == ' '
  let yearAt : List Char → Bool := fun l =>
    match l with
    | a :: b :: _ => a.isDigit && b.isDigit
    | _ => false
  match cs with
  | a :: b :: c :: d :: rest =>
      if isLower a ∧ isLower b ∧ isLower c ∧ sep d ∧ yearAt rest then some 6
      else if a.isDigit ∧ b.isDigit ∧ sep c ∧ yearAt (d :: rest) then some 5
      else if a.isDigit ∧ sep b ∧ yearAt (c :: d :: rest) then some 4
      else Option.none
  | _ => Option.none

/-- Fuelled scan for `datePatCount`; the fuel (initially the list length) is
an upper bound on the number of steps, each of which consumes at least one
character. -/
def datePatCountAux : Nat → List Char → Nat
  | 0, _ => 0
  | _, [] => 0
  | fuel + 1, c :: t =>
      match datePatMatchAt (c :: t) with
      | some n => 1 + datePatCountAux fuel ((c :: t).drop n)
      | Option.none => datePatCountAux fuel t

/-- Number of non-overlapping matches of the date pattern (`re.findall`):
scan left to right, on a match continue after it. -/
def datePatCount (cs : List Char) : Nat := datePatCountAux cs.length cs

/-- Model of `re.search(r'(.+) ?- ?(.+)', s)`: leftmost starting position,
greedy first group (with backtracking through the optional spaces), second
group greedy to the end of the line.  `.` does not match a newline. -/
def dashSearch (s : String) : Option (String × String) :=
  let cs := s.toList
  let n := cs.length
  let dot : Char → Bool := fun c => !(c == '\n')
  let g2At : Nat → Option (List Char) := fun p =>
    let run := (cs.drop p).takeWhile dot
    if run.isEmpty then Option.none else some run
  let tryG1 : Nat → Nat → Option (String × String) := fun start i =>
    -- group 1 is cs[start..start+i), all non-newline by construction
    let p := start + i
    let g1 := String.mk ((cs.drop start).take i)
    let afterDash : Nat → Option (String × String) := fun q =>
      -- the second ` ?`: prefer consuming a space, fall back to not doing so
      match cs.get? q with
      | some ' ' =>
          match g2At (q + 1) with
          | some g2 => some (g1, String.mk g2)
          | Option.none => (g2At q).map (fun g2 => (g1, String.mk g2))
      | _ => (g2At q).map (fun g2 => (g1, String.mk g2))
    match cs.get? p with
    | some ' ' =>
        -- the first ` ?` consumed the space; the empty alternative would
        -- need a dash at `p`, which this branch excludes
        if cs.get? (p + 1) = some '-' then afterDash (p + 2) else Option.none
    | some '-' => afterDash (p + 1)
    | _ => Option.none
  let tryStart : Nat → Option (String × String) := fun start =>
    let maxRun := ((cs.drop start).takeWhile dot).length
    (List.range maxRun).reverse.findSome? (fun j => tryG1 start (j + 1))
  (List.range n).findSome? tryStart

/-- The separator-selection logic of `_parse_duration` on an (en-dash
normalized) string: `some parts` models reaching a `parts = ...` split,
`none` models the straight-to-fallback paths. -/
def durationParts (s : String) : Option (List String) :=
  if strIn " to " s then some (pySplit s " to ")
  else if strIn " - " s then some (pySplit s " - ")
  else if strIn "-" s then
    if monthAbbrevs.all (fun m => !strIn m (pyLower s)) then some (pySplit s "-")
    else
      if 2 ≤ datePatCount (pyLower s).toList then
        match dashSearch s with
        | some (a, b) => some [pyTrim a, pyTrim b]
        | Option.none => Option.none
      else Option.none
  else Option.none

/-- The end-marker canonicalization applied to the second half of a split. -/
def canonEnd (e : String) : String :=
  if pyLower e ∈ ["present", "current", "now", "ongoing"] then "Present" else e

/-- `_parse_duration` (app.py lines 508-556).  Total: every internal
exception is caught and mapped to the raw-input fallback. -/
def parse_duration (v : PyVal) : PyVal :=
  if ¬ truthy v then
    .dict [(.str "StartDate", .str "Not specified"), (.str "EndDate", .str "Not specified")]
  else
    match v with
    | .str s0 =>
        let s := pyReplace s0 "–" "-"
        match durationParts s with
        | some [a, b] =>
            .dict [(.str "StartDate", .str (pyTrim a)), (.str "EndDate", .str (canonEnd (pyTrim b)))]
        | _ => .dict [(.str "StartDate", .str s), (.str "EndDate", .str "Not specified")]
    | _ =>
        -- non-string truthy input: `.replace` raises, the except-branch
        -- returns the raw input as StartDate
        .dict [(.str "StartDate", v), (.str "EndDate", .str "Not specified")]

/-! ## `_normalize_resume_fields` (app.py lines 309-506) -/

/-- Exact-lowercase lookup in a synonym table (Python dict membership). -/
def lookupMap (m : List (String × String)) (k : String) : Option String :=
  (m.find? (fun p => p.1 == k)).map (·.2)

/-- The resume synonym table (app.py lines 314-355), in source order. -/
def resumeFieldMappings : List (String × String) :=
  [("candidate_full_name", "CandidateFullName"),
   ("candidate_name", "CandidateFullName"),
   ("full_name", "CandidateFullName"),
   ("name", "CandidateFullName"),
   ("candidate", "CandidateFullName"),
   ("email_address", "EmailAddress"),
   ("email", "EmailAddress"),
   ("phone_number", "PhoneNumber"),
   ("phone", "PhoneNumber"),
   ("contact", "PhoneNumber"),
   ("contact_number", "PhoneNumber"),
   ("skills", "Skills"),
   ("technical_skills", "Skills"),
   ("skill_set", "Skills"),
   ("work_experience", "Experience"),
   ("experience", "Experience"),
   ("employment_history", "Experience"),
   ("work_history", "Experience"),
   ("companies", "Experience"),
   ("education_details", "Education"),
   ("education", "Education"),
   ("educational_background", "Education"),
   ("academic_background", "Education"),
   ("academic_details", "Education"),
   ("overall_stability_assessment", "StabilityAssessment"),
   ("stability_assessment", "StabilityAssessment"),
   ("stability", "StabilityAssessment")]

/-- The resume standard-field checklist (app.py lines 358-366). -/
def resumeStandardFields : List String :=
  ["CandidateFullName", "EmailAddress", "PhoneNumber", "Skills",
   "Experience", "Education", "StabilityAssessment"]

/-- One step of the top-level mapping loop (app.py lines 369-378);
`none` models the `AttributeError` of `field.lower()` on a non-string key. -/
def resumeTopStep (nd : PyDict) (kv : PyKey × PyVal) : Option PyDict :=
  match kv.1 with
  | .str field =>
      match lookupMap resumeFieldMappings (pyLower field) with
      | some std => some (setK nd (.str std) kv.2)
      | Option.none => some (setK nd (.str field) kv.2)
  | _ => Option.none

/-- The top-level mapping loop of `_normalize_resume_fields`. -/
def resumeMapTop (data : PyDict) : Option PyDict :=
  data.foldlM resumeTopStep []

/-- Normalization of an already-structured `Duration` dict (app.py lines
402-427).  The `AttributeError` for a non-string key is caught (lines
417-419), so this is total. -/
def durDictStep (acc : PyDict × Bool × Bool) (kv : PyKey × PyVal) : PyDict × Bool × Bool :=
  match kv.1 with
  | .str dk =>
      let dkl := pyLower dk
      if strIn "start" dkl then (setK acc.1 (.str "StartDate") kv.2, true, acc.2.2)
      else if strIn "end" dkl then (setK acc.1 (.str "EndDate") kv.2, acc.2.1, true)
      else (setK acc.1 kv.1 kv.2, acc.2.1, acc.2.2)
  | _ => (setK acc.1 kv.1 kv.2, acc.2.1, acc.2.2)

/-- Structured-`Duration` normalization, including the fill of missing
`StartDate`/`EndDate` keys (app.py lines 421-425). -/
def normalizeDurationDict (dv : PyDict) : PyVal :=
  let r := dv.foldl durDictStep ([], false, false)
  let d1 := if r.2.1 then r.1 else setK r.1 (.str "StartDate") (.str "Not specified")
  let d2 := if r.2.2 then d1 else setK d1 (.str "EndDate") (.str "Not specified")
  .dict d2

/-- One step of the per-experience-entry field mapping (app.py lines
390-444); `none` models `field.lower()` raising on a non-string key. -/
def expEntryStep (nd : PyDict) (kv : PyKey × PyVal) : Option PyDict :=
  match kv.1 with
  | .str field =>
      let fl := pyLower field
      if fl ∈ ["companyname", "company name", "company"] then
        some (setK nd (.str "CompanyName") kv.2)
      else if fl ∈ ["position", "role", "job_title", "title"] then
        some (setK nd (.str "Position") kv.2)
      else if fl ∈ ["duration", "period", "tenure"] then
        match kv.2 with
        | .dict dv => some (setK nd (.str "Duration") (normalizeDurationDict dv))
        | v => some (setK nd (.str "Duration") (parse_duration v))
      else if fl ∈ ["product_or_service", "company_type", "companytype", "type of company"] then
        some (setK nd (.str "CompanyType") kv.2)
      else if fl ∈ ["business_type", "businesstype", "business model"] then
        some (setK nd (.str "BusinessType") kv.2)
      else if fl ∈ ["number_of_employees", "employee_count", "size", "company size", "employees"] then
        some (setK nd (.str "NumberOfEmployees") kv.2)
      else if fl ∈ ["company_revenue", "revenue", "turnover", "annual revenue"] then
        some (setK nd (.str "CompanyRevenue") kv.2)
      else if fl ∈ ["funding_received", "funding", "investment"] then
        some (setK nd (.str "Funding") kv.2)
      else if fl ∈ ["company_location", "location"] then
        some (setK nd (.str "Location") kv.2)
      else some (setK nd kv.1 kv.2)
  | _ => Option.none

/-- Normalize one experience entry; `none` models `exp.items()` raising
`AttributeError` when the entry is not a dict (app.py line 390). -/
def normalizeExpEntry : PyVal → Option PyVal
  | .dict entries => (entries.foldlM expEntryStep []).map .dict
  | _ => Option.none

/-- The key-name candidates scanned for the experience list (app.py 382). -/
def expSearchKeys : List String :=
  ["Experience", "experience", "work_experience", "employment_history",
   "work_history", "companies"]

/-- The name a raw top-level resume key ends up under after the mapping loop
(mapped synonym or the key itself); `none` for a non-string key, where the
loop raises before producing anything. -/
def resumeMapsName (k : PyKey) : Option String :=
  match k with
  | .str s => some ((lookupMap resumeFieldMappings (pyLower s)).getD s)
  | _ => Option.none

/-- Replace the value of the last entry of `data` whose mapped name is `ek`.
This models the aliasing of CPython dicts: the list stored at
`normalized_data[experience_key]` is the very object held by that raw
entry (the mapping loop copies references, and last-write-wins), so the
in-place element assignments of app.py line 446 are visible through the
raw input dict as well. -/
def updLastMapped (data : PyDict) (ek : String) (newv : PyVal) : PyDict :=
  match data with
  | [] => []
  | kv :: t =>
      if t.any (fun kv2 => decide (resumeMapsName kv2.1 = some ek)) then
        kv :: updLastMapped t ek newv
      else if resumeMapsName kv.1 = some ek then (kv.1, newv) :: t
      else kv :: updLastMapped t ek newv

/-- The experience-list pass (app.py lines 380-450): per-entry mapping plus
the rename of a non-standard key to `Experience`.  Returns the updated
result dict together with the post-mutation state of the raw input dict
(the entry lists are rewritten in place through the shared reference). -/
def resumeExpStage (data nd : PyDict) : Option (PyDict × PyDict) :=
  match expSearchKeys.find? (fun k => hasKey nd (.str k)) with
  | Option.none => some (data, nd)
  | some ek =>
      match getK nd (.str ek) with
      | some (.list exps) => do
          let newExps ← exps.mapM normalizeExpEntry
          let data := updLastMapped data ek (.list newExps)
          let nd := setK nd (.str ek) (.list newExps)
          pure (data,
                if ek == "Experience" then nd
                else setK (delK nd (.str ek)) (.str "Experience") (.list newExps))
      | _ => some (data, nd)

/-- One step of the per-education-entry field mapping (app.py lines
462-473). -/
def eduEntryStep (nd : PyDict) (kv : PyKey × PyVal) : Option PyDict :=
  match kv.1 with
  | .str field =>
      let fl := pyLower field
      if fl ∈ ["college_university_name", "university", "college", "institution", "school"] then
        some (setK nd (.str "CollegeUniversity") kv.2)
      else if fl ∈ ["course_degree", "degree", "qualification", "course", "program"] then
        some (setK nd (.str "CourseDegree") kv.2)
      else if fl ∈ ["graduation_year", "year", "completion_year", "year_of_graduation"] then
        some (setK nd (.str "GraduationYear") kv.2)
      else some (setK nd kv.1 kv.2)
  | _ => Option.none

/-- Normalize one education entry (app.py lines 460-473). -/
def normalizeEduEntry : PyVal → Option PyVal
  | .dict entries => (entries.foldlM eduEntryStep []).map .dict
  | _ => Option.none

/-- The key-name candidates scanned for the education list (app.py 454). -/
def eduSearchKeys : List String :=
  ["Education", "education", "education_details", "educational_background",
   "academic_background", "academic_details"]

/-- The education-list pass (app.py lines 452-479), with the same
input-dict aliasing as the experience pass. -/
def resumeEduStage (data nd : PyDict) : Option (PyDict × PyDict) :=
  match eduSearchKeys.find? (fun k => hasKey nd (.str k)) with
  | Option.none => some (data, nd)
  | some ek =>
      match getK nd (.str ek) with
      | some (.list edus) => do
          let newEdus ← edus.mapM normalizeEduEntry
          let data := updLastMapped data ek (.list newEdus)
          let nd := setK nd (.str ek) (.list newEdus)
          pure (data,
                if ek == "Education" then nd
                else setK (delK nd (.str ek)) (.str "Education") (.list newEdus))
      | _ => some (data, nd)

/-- Type-appropriate default for a missing resume standard field (app.py
lines 492-499). -/
def resumeDefault (field : String) : PyVal :=
  if field == "Skills" then .list []
  else if field = "Experience" ∨ field = "Education" then .list []
  else .str "Not found"

/-- The last-chance re-scan of the raw input for one missing standard field
(app.py lines 485-490); `none` models `key.lower()` on a non-string key. -/
def rescanRaw (data : PyDict) (field : String) : Option (Option PyVal) :=
  data.foldlM
    (fun acc kv =>
      match acc with
      | some _ => some acc
      | Option.none =>
          match kv.1 with
          | .str key =>
              if lookupMap resumeFieldMappings (pyLower key) = some field then some (some kv.2)
              else some Option.none
          | _ => Option.none)
    Option.none

/-- The standard-field fill loop of `_normalize_resume_fields` (app.py lines
481-499). -/
def fillResumeStep (data : PyDict) (nd : PyDict) (field : String) : Option PyDict :=
  if hasKey nd (.str field) then some nd
  else do
    let found ← rescanRaw data field
    match found with
    | some v => pure (setK nd (.str field) v)
    | Option.none => pure (setK nd (.str field) (resumeDefault field))

/-- The standard-field fill loop of `_normalize_resume_fields` (app.py lines
481-499). -/
def fillResume (data : PyDict) (nd : PyDict) : Option PyDict :=
  resumeStandardFields.foldlM (fillResumeStep data) nd

/-- The metadata pass-through loop (app.py lines 501-504): a raw key that is
not literally a synonym-table key and not already in the result is copied
verbatim.  (`field in field_mappings.keys()` compares without lowering and
is `False` for non-string keys, so this loop never raises.) -/
def resumeMetaStep (nd : PyDict) (kv : PyKey × PyVal) : PyDict :=
  if (match kv.1 with
      | .str s => resumeFieldMappings.any (fun p => p.1 == s)
      | _ => false) then nd
  else if hasKey nd kv.1 then nd
  else setK nd kv.1 kv.2

def resumeMeta (data : PyDict) (nd : PyDict) : PyDict :=
  data.foldl resumeMetaStep nd

/-- `_normalize_resume_fields` (app.py lines 309-506); `none` models an
uncaught exception escaping the call.  Returns the result dict together
with the post-call state of the caller's input dict (whose nested
experience/education lists the code rewrites in place); the fill and
metadata loops read the input dict after that mutation. -/
def resumeNormalizeFull (data : PyDict) : Option (PyDict × PyDict) := do
  let nd ← resumeMapTop data
  let (data, nd) ← resumeExpStage data nd
  let (data, nd) ← resumeEduStage data nd
  let nd ← fillResume data nd
  pure (resumeMeta data nd, data)

/-- The returned value of `_normalize_resume_fields`. -/
def normalize_resume_fields (data : PyDict) : Option PyDict :=
  (resumeNormalizeFull data).map (·.1)

/-- The state of the caller's input dict after a successful
`_normalize_resume_fields` call (app.py line 446 and line 475 assign the
normalized entries into the lists the input still holds). -/
def mutatedInputResume (data : PyDict) : Option PyDict :=
  (resumeNormalizeFull data).map (·.2)

/-! ## `_normalize_jd_fields` (app.py lines 716-889) -/

/-- The job-description synonym table (app.py lines 721-780), in source
order.  Note that the literal key `RequiredSkills` is not in it. -/
def jdFieldMappings : List (String × String) :=
  [("company_name", "CompanyName"),
   ("company", "CompanyName"),
   ("employer", "CompanyName"),
   ("organization", "CompanyName"),
   ("job_title", "JobTitle"),
   ("Job title", "JobTitle"),
   ("title", "JobTitle"),
   ("position", "JobTitle"),
   ("role", "JobTitle"),
   ("job_location", "JobLocation"),
   ("location", "JobLocation"),
   ("work_location", "JobLocation"),
   ("office_location", "JobLocation"),
   ("workplace", "JobLocation"),
   ("Required skills", "RequiredSkills"),
   ("skills", "RequiredSkills"),
   ("required_skills", "RequiredSkills"),
   ("skill_requirements", "RequiredSkills"),
   ("technical_skills", "RequiredSkills"),
   ("Years of experience required", "YearsOfExperienceRequired"),
   ("experience", "YearsOfExperienceRequired"),
   ("experience_required", "YearsOfExperienceRequired"),
   ("years_of_experience", "YearsOfExperienceRequired"),
   ("Education requirements", "EducationRequirements"),
   ("education", "EducationRequirements"),
   ("education_requirements", "EducationRequirements"),
   ("qualification", "EducationRequirements"),
   ("Company type preference", "CompanyTypePreference"),
   ("company_type", "CompanyTypePreference"),
   ("company_type_preference", "CompanyTypePreference"),
   ("Business type preference", "BusinessTypePreference"),
   ("business_type", "BusinessTypePreference"),
   ("business_type_preference", "BusinessTypePreference"),
   ("Preferred stability", "PreferredStability"),
   ("stability", "PreferredStability"),
   ("preferred_stability", "PreferredStability"),
   ("Other important requirements", "OtherImportantRequirements"),
   ("other_requirements", "OtherImportantRequirements"),
   ("additional_requirements", "OtherImportantRequirements"),
   ("other", "OtherImportantRequirements")]

/-- The JD standard-field checklist (app.py lines 783-794). -/
def jdStandardFields : List String :=
  ["CompanyName", "JobTitle", "JobLocation", "RequiredSkills",
   "YearsOfExperienceRequired", "EducationRequirements",
   "CompanyTypePreference", "BusinessTypePreference", "PreferredStability",
   "OtherImportantRequirements"]

/-- The JD key-matching loop (app.py lines 801-805): first synonym matching
either exactly or case-insensitively. -/
def jdMapsTo (field : String) : Option String :=
  (jdFieldMappings.find?
      (fun p => field == p.1 || pyLower field == pyLower p.1)).map (·.2)

/-- The fixed technical-indicator keyword list (app.py lines 827-831 and
849-853, identical in both branches). -/
def technicalIndicators : List String :=
  ["python", "java", "c++", "machine learning", "data", "cloud",
   "database", "sql", "nosql", "tensorflow", "pytorch", "docker",
   "kubernetes", "aws", "gcp", "azure", "programming", "coding",
   "development", "algorithm", "deep learning", "nlp", "computer vision",
   "mlops", "devops", "framework"]

/-- Classify a flattened skills list into the technical/soft buckets (app.py
lines 824-838 / 847-860); `none` models `skill.lower()` raising on a
non-string item. -/
def classifySkills (skills : List PyVal) : Option PyVal := do
  let r ← skills.foldlM
    (fun (acc : List PyVal × List PyVal) sk =>
      match sk with
      | .str s =>
          if technicalIndicators.any (fun ind => strIn ind (pyLower s)) then
            some (acc.1 ++ [PyVal.str s], acc.2)
          else some (acc.1, acc.2 ++ [PyVal.str s])
      | _ => Option.none)
    ([], [])
  pure (.dict [(.str "technical", .list r.1), (.str "soft", .list r.2)])

/-- Flatten a pre-bucketed skills dict (app.py lines 811-816): list buckets
are concatenated, string buckets appended, anything else dropped. -/
def flattenSkillBuckets (entries : PyDict) : List PyVal :=
  entries.foldl
    (fun acc kv =>
      match kv.2 with
      | .list xs => acc ++ xs
      | .str s => acc ++ [PyVal.str s]
      | _ => acc)
    []

/-- One step of the JD top-level mapping loop (app.py lines 797-865);
`none` models `field.lower()` (line 798) raising on a non-string key or a
non-string skill item in the classification. -/
def jdTopStep (nd : PyDict) (kv : PyKey × PyVal) : Option PyDict :=
  match kv.1 with
  | .str field =>
      match jdMapsTo field with
      | some nf =>
          if nf == "RequiredSkills" then
            match kv.2 with
            | .dict b => (classifySkills (flattenSkillBuckets b)).map (setK nd (.str nf))
            | .list xs => (classifySkills xs).map (setK nd (.str nf))
            | v => some (setK nd (.str nf) v)
          else some (setK nd (.str nf) kv.2)
      | Option.none => some (setK nd (.str field) kv.2)
  | _ => Option.none

/-- Default for a missing JD standard field (app.py lines 870-882): the
two-bucket skills dict, the empty requirements list, `None` otherwise (the
separate `CompanyName`/`JobLocation` arms of the source assign the same
`None`). -/
def jdDefault (field : String) : PyVal :=
  if field == "RequiredSkills" then
    .dict [(.str "technical", .list []), (.str "soft", .list [])]
  else if field == "OtherImportantRequirements" then .list []
  else if field == "CompanyName" then .none
  else if field == "JobLocation" then .none
  else .none

def fillJdStep (nd : PyDict) (field : String) : PyDict :=
  if hasKey nd (.str field) then nd else setK nd (.str field) (jdDefault field)

/-- The standard-field fill of `_normalize_jd_fields` (app.py lines
867-882), one field at a time. -/
def fillJd (nd : PyDict) : PyDict :=
  jdStandardFields.foldl fillJdStep nd

/-- One step of the JD metadata pass-through (app.py lines 885-887). -/
def jdMetaStep (nd : PyDict) (kv : PyKey × PyVal) : Option PyDict :=
  match kv.1 with
  | .str field =>
      if jdFieldMappings.any (fun p => pyLower p.1 == pyLower field) then some nd
      else if hasKey nd kv.1 then some nd
      else some (setK nd kv.1 kv.2)
  | _ => Option.none

/-- The JD metadata pass-through (app.py lines 884-887): comparison is on
lowered keys on both sides. -/
def jdMeta (data : PyDict) (nd : PyDict) : Option PyDict :=
  data.foldlM jdMetaStep nd

/-- `_normalize_jd_fields` (app.py lines 716-889); `none` models an
uncaught exception escaping the call. -/
def normalize_jd_fields (data : PyDict) : Option PyDict := do
  let nd ← data.foldlM jdTopStep []
  jdMeta data (fillJd nd)

/-! ## `_normalize_match_analysis` (app.py lines 1082-1333) -/

/-- The match-analysis synonym table (app.py lines 1087-1170), in source
order; the rating synonyms all map to the consolidated `AIRating`. -/
def matchFieldMappings : List (String × String) :=
  [("1. Suggested role for the candidate", "SuggestedRole"),
   ("Suggested role", "SuggestedRole"),
   ("Role suggestion", "SuggestedRole"),
   ("Best role", "SuggestedRole"),
   ("1. Suggested role", "SuggestedRole"),
   ("suggested_role", "SuggestedRole"),
   ("2. Match score", "AIRating"),
   ("Match score", "AIRating"),
   ("Score", "AIRating"),
   ("2. Score", "AIRating"),
   ("match_score", "AIRating"),
   ("3. Whether the candidate should be shortlisted", "ShouldBeShortlisted"),
   ("Should be shortlisted", "ShouldBeShortlisted"),
   ("Shortlist", "ShouldBeShortlisted"),
   ("3. Shortlist recommendation", "ShouldBeShortlisted"),
   ("shortlist_recommendation", "ShouldBeShortlisted"),
   ("4. Company type match", "CompanyTypeMatch"),
   ("Company type match", "CompanyTypeMatch"),
   ("Company match", "CompanyTypeMatch"),
   ("4. Company match", "CompanyTypeMatch"),
   ("company_type_match", "CompanyTypeMatch"),
   ("5. Business type match", "BusinessTypeMatch"),
   ("Business type match", "BusinessTypeMatch"),
   ("Business match", "BusinessTypeMatch"),
   ("5. Business match", "BusinessTypeMatch"),
   ("business_type_match", "BusinessTypeMatch"),
   ("6. Stability assessment", "StabilityAssessment"),
   ("Stability assessment", "StabilityAssessment"),
   ("Stability", "StabilityAssessment"),
   ("6. Stability", "StabilityAssessment"),
   ("stability_assessment", "StabilityAssessment"),
   ("7. Analysis of each company in the candidate's resume", "CompanyAnalysis"),
   ("Company analysis", "CompanyAnalysis"),
   ("Analysis of companies", "CompanyAnalysis"),
   ("7. Company analysis", "CompanyAnalysis"),
   ("company_analysis", "CompanyAnalysis"),
   ("8. Education assessment", "EducationAssessment"),
   ("Education assessment", "EducationAssessment"),
   ("Education", "EducationAssessment"),
   ("8. Education", "EducationAssessment"),
   ("education_assessment", "EducationAssessment"),
   ("9. Overall rating", "AIRating"),
   ("Overall rating", "AIRating"),
   ("Rating", "AIRating"),
   ("9. Rating", "AIRating"),
   ("overall_rating", "AIRating"),
   ("10. Anything missing as per expectations in the JD", "MissingExpectations"),
   ("Anything missing", "MissingExpectations"),
   ("Missing skills", "MissingExpectations"),
   ("10. Missing skills", "MissingExpectations"),
   ("missing_expectations", "MissingExpectations"),
   ("11. Overall recommendation", "OverallRecommendation"),
   ("Overall recommendation", "OverallRecommendation"),
   ("Recommendation", "OverallRecommendation"),
   ("11. Recommendation", "OverallRecommendation"),
   ("overall_recommendation", "OverallRecommendation"),
   ("AIRating", "AIRating"),
   ("AI Rating", "AIRating"),
   ("AI rating", "AIRating")]

/-- The match-analysis standard-field checklist (app.py lines 1173-1189). -/
def matchStandardFields : List String :=
  ["SuggestedRole", "AIRating", "ShouldBeShortlisted", "CompanyTypeMatch",
   "BusinessTypeMatch", "StabilityAssessment", "CompanyAnalysis",
   "EducationAssessment", "MissingExpectations", "OverallRecommendation",
   "AIShortlisted", "InternalShortlisted", "InterviewInProcess",
   "FinalResult", "CandidateJoined"]

/-- The match-analysis key-matching loop (app.py lines 1194-1198). -/
def matchMapsTo (field : String) : Option String :=
  (matchFieldMappings.find?
      (fun p => field == p.1 || pyLower field == pyLower p.1)).map (·.2)

/-- Numeric payload of an `int`/`float` value (the only shapes reaching the
rating comparison). -/
def numQ : PyVal → Rat
  | .int n => (n : Rat)
  | .float q => q
  | .bool b => if b then 1 else 0
  | _ => 0

/-- One side of the rating consolidation:
`float(x) if x is not None else 0` — `None` becomes the integer `0`,
anything else goes through `float` (whose failure propagates as `none`). -/
def ratingCoerceSide (x : PyVal) : Option PyVal :=
  match x with
  | .none => some (.int 0)
  | w => (pyFloat w).map .float

/-- Rating-conflict resolution (app.py lines 1202-1215): coerce both sides
with `float` (`None` counts as `0`), keep the larger (a Python `max`, which
returns its first argument on ties); `none` models the caught
`ValueError`/`TypeError`, after which the existing value is left alone. -/
def mergeAIRating (existing v : PyVal) : Option PyVal :=
  match ratingCoerceSide existing, ratingCoerceSide v with
  | some a, some b => some (if numQ a < numQ b then b else a)
  | _, _ => Option.none

/-- One step of the match-analysis top-level loop (app.py lines 1192-1222);
`none` models `field.lower()` raising on a non-string key.  Raw keys
spelled (case-insensitively) `MatchScore`/`OverallRating` are dropped. -/
def matchTopStep (nd : PyDict) (kv : PyKey × PyVal) : Option PyDict :=
  match kv.1 with
  | .str field =>
      match matchMapsTo field with
      | some nf =>
          if nf == "AIRating" ∧ hasKey nd (.str "AIRating") then
            match mergeAIRating (getKD nd (.str "AIRating") .none) kv.2 with
            | some merged => some (setK nd (.str "AIRating") merged)
            | Option.none => some nd
          else some (setK nd (.str nf) kv.2)
      | Option.none =>
          if pyLower field ∈ ["matchscore", "overallrating"] then some nd
          else some (setK nd (.str field) kv.2)
  | _ => Option.none

/-- One step of the company-analysis entry mapping (app.py lines
1234-1249). -/
def companyEntryStep (nd : PyDict) (kv : PyKey × PyVal) : Option PyDict :=
  match kv.1 with
  | .str field =>
      let fl := pyLower field
      if fl ∈ ["companyname", "company name", "company", "name"] then
        some (setK nd (.str "CompanyName") kv.2)
      else if fl ∈ ["company type", "type"] then
        some (setK nd (.str "CompanyType") kv.2)
      else if fl ∈ ["industry sector", "industry", "sector"] then
        some (setK nd (.str "IndustrySector") kv.2)
      else if fl ∈ ["business model", "business", "model"] then
        some (setK nd (.str "BusinessModel") kv.2)
      else if fl ∈ ["notable achievements", "achievements", "accomplishments"] then
        some (setK nd (.str "NotableAchievements") kv.2)
      else some (setK nd kv.1 kv.2)
  | _ => Option.none

/-- Normalize one company-analysis entry; `none` models `company.items()`
raising when the entry is not a dict (app.py line 1234). -/
def normalizeCompanyEntry : PyVal → Option PyVal
  | .dict entries => (entries.foldlM companyEntryStep []).map .dict
  | _ => Option.none

/-- The company-analysis pass (app.py lines 1224-1251). -/
def matchCompanyStage (nd : PyDict) : Option PyDict :=
  if hasKey nd (.str "CompanyAnalysis") then
    match getK nd (.str "CompanyAnalysis") with
    | some (.list xs) => do
        let ys ← xs.mapM normalizeCompanyEntry
        pure (setK nd (.str "CompanyAnalysis") (.list ys))
    | _ => some nd
  else some nd

/-- One step of the education-assessment field mapping (app.py lines
1262-1271); `none` models `field.lower()` raising on a non-string key. -/
def eduAssessStep (nd : PyDict) (kv : PyKey × PyVal) : Option PyDict :=
  match kv.1 with
  | .str field =>
      let fl := pyLower field
      if fl ∈ ["college/university assessment", "university assessment", "college assessment"] then
        some (setK nd (.str "UniversityAssessment") kv.2)
      else if fl ∈ ["course relevance", "degree relevance", "education relevance"] then
        some (setK nd (.str "CourseRelevance") kv.2)
      else some (setK nd kv.1 kv.2)
  | _ => Option.none

/-- The education-assessment pass (app.py lines 1253-1273). -/
def matchEduStage (nd : PyDict) : Option PyDict :=
  if hasKey nd (.str "EducationAssessment") then
    match getK nd (.str "EducationAssessment") with
    | some (.dict es) =>
        (es.foldlM eduAssessStep []).map
          (fun d => setK nd (.str "EducationAssessment") (.dict d))
    | _ => some nd
  else some nd

/-- Default value for a missing match-analysis standard field (app.py lines
1276-1292).  In particular all five pipeline-status fields fall into the
final `"Not provided"` case. -/
def matchDefault (field : String) : PyVal :=
  if field == "AIRating" then .int 0
  else if field == "ShouldBeShortlisted" then .str "No"
  else if field == "CompanyAnalysis" then .list []
  else if field == "EducationAssessment" then
    .dict [(.str "UniversityAssessment", .str "Not provided"),
           (.str "CourseRelevance", .str "Not provided")]
  else if field == "MissingExpectations" then .list []
  else .str "Not provided"

/-- The standard-field fill of `_normalize_match_analysis` (app.py lines
1275-1292). -/
def fillMatchStep (nd : PyDict) (f : String) : PyDict :=
  if hasKey nd (.str f) then nd else setK nd (.str f) (matchDefault f)

/-- The standard-field fill of `_normalize_match_analysis` (app.py lines
1275-1292), one field of the checklist at a time. -/
def fillMatch (nd : PyDict) : PyDict :=
  matchStandardFields.foldl fillMatchStep nd

/-- `isinstance(x, (int, float))`; Python `bool` is a subclass of `int`. -/
def isIntFloat : PyVal → Bool
  | .int _ => true
  | .float _ => true
  | .bool _ => true
  | _ => false

/-- `int(x)` for the non-`int`/`float` values reaching the rating coercion;
`none` models `ValueError`/`TypeError`. -/
def pyIntNonNumeric : PyVal → Option Int
  | .str s => pyIntOfStr s
  | _ => Option.none

/-- The rating coercion for a non-numeric `AIRating` (app.py lines
1295-1308): try `int(x)`; on failure extract the first digit run from
`str(x)`; else default to `0`.  Total: every exception is caught. -/
def coerceRatingValue (v : PyVal) : PyVal :=
  match pyIntNonNumeric v with
  | some n => .int n
  | Option.none =>
      match firstDigitRun (pyStr v).toList with
      | some ds => .int (digitsVal ds : Int)
      | Option.none => .int 0

/-- The numeric-rating stage (app.py lines 1294-1308). -/
def coerceAIRatingStage (nd : PyDict) : PyDict :=
  if hasKey nd (.str "AIRating") ∧ ¬ isIntFloat (getKD nd (.str "AIRating") .none) then
    setK nd (.str "AIRating") (coerceRatingValue (getKD nd (.str "AIRating") .none))
  else nd

/-- Legacy-key deletion (app.py lines 1310-1315). -/
def delLegacyStage (nd : PyDict) : PyDict :=
  let nd1 := if hasKey nd (.str "MatchScore") then delK nd (.str "MatchScore") else nd
  if hasKey nd1 (.str "OverallRating") then delK nd1 (.str "OverallRating") else nd1

/-- One step of the match-analysis metadata pass-through (app.py lines
1318-1322). -/
def matchMetaStep (nd : PyDict) (kv : PyKey × PyVal) : Option PyDict :=
  match kv.1 with
  | .str field =>
      if matchFieldMappings.any (fun p => pyLower p.1 == pyLower field) then some nd
      else if hasKey nd kv.1 then some nd
      else if pyLower field ∈ ["matchscore", "overallrating"] then some nd
      else some (setK nd kv.1 kv.2)
  | _ => Option.none

/-- The match-analysis metadata pass-through (app.py lines 1317-1322),
again skipping `MatchScore`/`OverallRating` spellings. -/
def matchMeta (data : PyDict) (nd : PyDict) : Option PyDict :=
  data.foldlM matchMetaStep nd

/-- The truthy tokens of the shortlist canonicalization (app.py line 1327). -/
def sbsTruthyTokens : List String :=
  ["yes", "true", "1", "y", "recommended", "strongly recommended"]

/-- The falsy tokens of the shortlist canonicalization (app.py line 1329). -/
def sbsFalsyTokens : List String := ["no", "false", "0", "n", "not recommended"]

/-- The token dispatch of the shortlist canonicalization (app.py lines
1327-1331) on the lowered rendering of the current value. -/
def sbsApply (nd : PyDict) (s : String) : PyDict :=
  if s ∈ sbsTruthyTokens then setK nd (.str "ShouldBeShortlisted") (.str "Yes")
  else if s ∈ sbsFalsyTokens then setK nd (.str "ShouldBeShortlisted") (.str "No")
  else nd

/-- The shortlist canonicalization (app.py lines 1324-1331): anything not
in either token set is left untouched. -/
def sbsStage (nd : PyDict) : PyDict :=
  if hasKey nd (.str "ShouldBeShortlisted") then
    sbsApply nd (pyLower (pyStr (getKD nd (.str "ShouldBeShortlisted") .none)))
  else nd

/-- `_normalize_match_analysis` (app.py lines 1082-1333); `none` models an
uncaught exception escaping the call. -/
def normalize_match_analysis (data : PyDict) : Option PyDict := do
  let nd ← data.foldlM matchTopStep []
  let nd ← matchCompanyStage nd
  let nd ← matchEduStage nd
  let nd ← matchMeta data (delLegacyStage (coerceAIRatingStage (fillMatch nd)))
  pure (sbsStage nd)

/-- The status-default patch-up in `analyze_match` after normalization
(app.py lines 1481-1509).  The rating comparisons are embedded through
`numQ`; they are only reached when the corresponding key is absent, which
normalization prevents. -/
def applyStatusDefaults (analysis : PyDict) : PyDict :=
  let a := if hasKey analysis (.str "AIRating") then analysis
           else setK analysis (.str "AIRating") (.int 0)
  let rating := numQ (getKD a (.str "AIRating") (.int 0))
  let a := if hasKey a (.str "AIShortlisted") then a
           else setK a (.str "AIShortlisted") (.str (if 7 ≤ rating then "Yes" else "No"))
  let a := if hasKey a (.str "InternalShortlisted") then a
           else setK a (.str "InternalShortlisted") (getKD a (.str "ShouldBeShortlisted") (.str "No"))
  let a := if hasKey a (.str "InterviewInProcess") then a
           else setK a (.str "InterviewInProcess") (getKD a (.str "ShouldBeShortlisted") (.str "No"))
  let a := if hasKey a (.str "FinalResult") then a
           else setK a (.str "FinalResult")
             (.str (if 8 ≤ rating then "Selected" else if rating ≤ 4 then "Rejected" else "Pending"))
  if hasKey a (.str "CandidateJoined") then a
  else setK a (.str "CandidateJoined") (.str "Unknown")

/-! ## `_calculate_total_experience` / `_calculate_years_between_dates`
(app.py lines 1683-1780) -/

/-- Lower-case month abbreviations recognised by `%b`. -/
def monthAbbrevNames : List String :=
  ["jan", "feb", "mar", "apr", "may", "jun", "jul", "aug", "sep", "oct", "nov", "dec"]

/-- Lower-case full month names recognised by `%B`. -/
def monthFullNames : List String :=
  ["january", "february", "march", "april", "may", "june", "july",
   "august", "september", "october", "november", "december"]

/-- Leap-year rule of the proleptic Gregorian calendar (what `datetime`
uses). -/
def isLeapYear (y : Nat) : Bool :=
  y % 4 == 0 && (y % 100 != 0 || y % 400 == 0)

/-- Days in a month, as validated by the `datetime` constructor. -/
def daysInMonth (y m : Nat) : Nat :=
  if m = 2 then (if isLeapYear y then 29 else 28)
  else if m ∈ [4, 6, 9, 11] then 30 else 31

/-- Tokens of the `strptime` format strings used by the code.  A literal
space in a format matches a run of whitespace (CPython's `_strptime`
compiles it to `\s+`); everything is matched case-insensitively. -/
inductive FmtTok where
  | lit (c : Char)
  | ws
  | b
  | bFull
  | m
  | d
  | Y

/-- Partially collected date fields during a format match. -/
structure PartialDate where
  y : Option Nat
  m : Option Nat
  d : Option Nat

/-- Case-insensitive month-name prefix match: returns the month number and
consumed length.  The month names of one list are pairwise non-prefixes of
each other, so at most one matches. -/
def monthPrefix (names : List String) (cs : List Char) : Option (Nat × Nat) :=
  (List.range names.length).findSome? (fun i =>
    let nm := (names.getD i "").toList
    if nm = (cs.take nm.length).map Char.toLower then some (i + 1, nm.length)
    else Option.none)

/-- The alternatives of `_strptime`'s `%m` regex `(1[0-2]|0[1-9]|[1-9])`,
in preference order, as (value, consumed length) pairs. -/
def mAlts (cs : List Char) : List (Nat × Nat) :=
  let two :=
    match cs with
    | a :: b :: _ =>
        if a = '1' ∧ '0' ≤ b ∧ b ≤ '2' then [(10 + (b.toNat - 48), 2)]
        else if a = '0' ∧ '1' ≤ b ∧ b ≤ '9' then [(b.toNat - 48, 2)]
        else []
    | _ => []
  let one :=
    match cs with
    | a :: _ => if '1' ≤ a ∧ a ≤ '9' then [(a.toNat - 48, 1)] else []
    | _ => []
  two ++ one

/-- The alternatives of `_strptime`'s `%d` regex
`(3[01]|[12]\d|0[1-9]|[1-9])`, in preference order. -/
def dAlts (cs : List Char) : List (Nat × Nat) :=
  let two :=
    match cs with
    | a :: b :: _ =>
        if a = '3' ∧ (b = '0' ∨ b = '1') then [(30 + (b.toNat - 48), 2)]
        else if (a = '1' ∨ a = '2') ∧ b.isDigit then
          [((a.toNat - 48) * 10 + (b.toNat - 48), 2)]
        else if a = '0' ∧ '1' ≤ b ∧ b ≤ '9' then [(b.toNat - 48, 2)]
        else []
    | _ => []
  let one :=
    match cs with
    | a :: _ => if '1' ≤ a ∧ a ≤ '9' then [(a.toNat - 48, 1)] else []
    | _ => []
  two ++ one

/-- Match a token list against the remaining input with the regex engine's
backtracking through the numeric alternatives; the whole input must be
consumed (`strptime` raises on unconverted data). -/
def matchToks : List FmtTok → PartialDate → List Char → Option PartialDate
  | [], pd, cs => if cs.isEmpty then some pd else Option.none
  | .lit c :: ts, pd, cs =>
      match cs with
      | x :: rest => if x.toLower = c.toLower then matchToks ts pd rest else Option.none
      | [] => Option.none
  | .ws :: ts, pd, cs =>
      match cs with
      | x :: rest =>
          if x.isWhitespace then matchToks ts pd (rest.dropWhile Char.isWhitespace)
          else Option.none
      | [] => Option.none
  | .b :: ts, pd, cs =>
      match monthPrefix monthAbbrevNames cs with
      | some (mi, len) => matchToks ts { pd with m := some mi } (cs.drop len)
      | Option.none => Option.none
  | .bFull :: ts, pd, cs =>
      match monthPrefix monthFullNames cs with
      | some (mi, len) => matchToks ts { pd with m := some mi } (cs.drop len)
      | Option.none => Option.none
  | .m :: ts, pd, cs =>
      (mAlts cs).findSome? (fun a => matchToks ts { pd with m := some a.1 } (cs.drop a.2))
  | .d :: ts, pd, cs =>
      (dAlts cs).findSome? (fun a => matchToks ts { pd with d := some a.1 } (cs.drop a.2))
  | .Y :: ts, pd, cs =>
      let ds := cs.take 4
      if ds.length = 4 ∧ ds.all Char.isDigit then
        matchToks ts { pd with y := some (digitsVal ds) } (cs.drop 4)
      else Option.none

/-- The 13 formats of `date_formats` (app.py lines 1721-1735), in order. -/
def dateFormats : List (List FmtTok) :=
  [[.b, .ws, .Y],                          -- "%b %Y"
   [.bFull, .ws, .Y],                      -- "%B %Y"
   [.m, .lit '/', .Y],                     -- "%m/%Y"
   [.m, .lit '-', .Y],                     -- "%m-%Y"
   [.Y, .lit '-', .m],                     -- "%Y-%m"
   [.Y],                                   -- "%Y"
   [.m, .lit '/', .d, .lit '/', .Y],       -- "%m/%d/%Y"
   [.d, .lit '/', .m, .lit '/', .Y],       -- "%d/%m/%Y"
   [.Y, .lit '-', .m, .lit '-', .d],       -- "%Y-%m-%d"
   [.b, .ws, .d, .lit ',', .ws, .Y],       -- "%b %d, %Y"
   [.bFull, .ws, .d, .lit ',', .ws, .Y],   -- "%B %d, %Y"
   [.d, .ws, .b, .ws, .Y],                 -- "%d %b %Y"
   [.d, .ws, .bFull, .ws, .Y]]             -- "%d %B %Y"

/-- `datetime.strptime(s, fmt)` for one format: pattern match plus the
`datetime` constructor's validation (year at least `MINYEAR`, day within
the month).  Defaults: year 1900, month 1, day 1. -/
def strptimeFmt (toks : List FmtTok) (s : String) : Option (Nat × Nat × Nat) := do
  let pd ← matchToks toks ⟨Option.none, Option.none, Option.none⟩ s.toList
  let y := pd.y.getD 1900
  let mo := pd.m.getD 1
  let dy := pd.d.getD 1
  if 1 ≤ y ∧ dy ≤ daysInMonth y mo then some (y, mo, dy) else Option.none

/-- The first format in `date_formats` that parses the value; non-strings
make every `strptime` attempt raise, which the per-format `except` catches
(app.py lines 1739-1753). -/
def strptimeAnyPy : PyVal → Option (Nat × Nat × Nat)
  | .str s => dateFormats.findSome? (fun f => strptimeFmt f s)
  | _ => Option.none

/-- Cumulative days before each month in a non-leap year. -/
def daysBeforeMonth (y m : Nat) : Nat :=
  ([0, 31, 59, 90, 120, 151, 181, 212, 243, 273, 304, 334].getD (m - 1) 0)
    + (if 3 ≤ m ∧ isLeapYear y then 1 else 0)

/-- Proleptic Gregorian day number (Rata Die); differences give
`(end - start).days`. -/
def rataDie (ymd : Nat × Nat × Nat) : Int :=
  let y := ymd.1
  let mo := ymd.2.1
  let dy := ymd.2.2
  365 * ((y : Int) - 1) + ((y : Int) - 1) / 4 - ((y : Int) - 1) / 100
    + ((y : Int) - 1) / 400 + (daysBeforeMonth y mo : Int) + (dy : Int)

/-- `int(''.join(filter(str.isdigit, s)))` on a value: all digit characters
concatenated; `none` models the caught exception (no digits, or a
non-string input making `filter` raise). -/
def pyDigitsInt : PyVal → Option Int
  | .str s =>
      let ds := s.toList.filter Char.isDigit
      if ds.isEmpty then Option.none else some (digitsVal ds : Int)
  | _ => Option.none

/-- `_calculate_years_between_dates` (app.py lines 1718-1780).  Total: all
internal exceptions are caught.  Note that on the digit-extraction fallback
the `end_year - start_year` difference is returned without the `max(0, _)`
floor applied on the `strptime` path, and that inside the
`1900 <= year <= 2100` guard the `< 100` two-digit corrections can never
fire. -/
def calculate_years_between_dates (sdv edv : PyVal) : Rat :=
  match strptimeAnyPy sdv, strptimeAnyPy edv with
  | some sd, some ed =>
      max 0 ((((rataDie ed - rataDie sd) : Int) : Rat) / ((1461 : Rat) / 4))
  | _, _ =>
      match pyDigitsInt sdv, pyDigitsInt edv with
      | some sy, some ey =>
          if 1900 ≤ sy ∧ sy ≤ 2100 ∧ 1900 ≤ ey ∧ ey ≤ 2100 then
            let sy2 := if ey < sy ∧ sy < 100 then sy + 2000 else sy
            let ey2 := if ey < sy ∧ ey < 100 then ey + 2000 else ey
            ((ey2 - sy2 : Int) : Rat)
          else 0
      | _, _ => 0

/-- Round-half-to-even at integer precision, on exact rationals.  (Python's
`round` applies banker's rounding to the binary float; the binary
representation artifacts are not modelled.) -/
def roundHalfEven (q : Rat) : Int :=
  let f := q.floor
  let r : Rat := q - (f : Rat)
  if r < 1 / 2 then f
  else if (1 / 2 : Rat) < r then f + 1
  else if f % 2 = 0 then f else f + 1

/-- `round(x, 1)`. -/
def round1 (q : Rat) : Rat := ((roundHalfEven (q * 10) : Rat)) / 10

/-- The markers resolved to the current date (app.py line 1704). -/
def presentMarkers : List String := ["present", "current", "now", "ongoing"]

/-- Per-entry contribution inside `_calculate_total_experience` (app.py
lines 1690-1713).  `nowStr` stands for
`datetime.datetime.now().strftime("%b %Y")`, the only real-time input.
`none` models the two uncaught raises: `exp.get` on a non-dict entry and
`end_date.lower()` on a truthy non-string end date. -/
def expItemYears (nowStr : String) (exp : PyVal) : Option Rat :=
  match exp with
  | .dict ed =>
      let dur := getKD ed (.str "Duration") (.dict [])
      match dur with
      | .dict _ =>
          if ¬ truthy dur then some 0
          else
            let sd := getKD (match dur with | .dict l => l | _ => []) (.str "StartDate") (.str "")
            let en := getKD (match dur with | .dict l => l | _ => []) (.str "EndDate") (.str "")
            if ¬ truthy sd ∨ ¬ truthy en then some 0
            else
              match en with
              | .str es =>
                  let endv := if pyLower es ∈ presentMarkers then PyVal.str nowStr else .str es
                  some (calculate_years_between_dates sd endv)
              | _ => Option.none
      | _ => some 0
  | _ => Option.none

/-- `_calculate_total_experience` (app.py lines 1683-1716), parametrized by
the formatted current date. -/
def calculate_total_experience (nowStr : String) (v : PyVal) : Option PyVal :=
  match v with
  | .list exps =>
      if exps.isEmpty then some (.float 0)
      else do
        let total ← exps.foldlM (fun t e => (expItemYears nowStr e).map (t + ·)) (0 : Rat)
        pure (.float (round1 total))
  | _ => some (.float 0)

/-! ## Canonical (already-normalized) record shapes

Structured families of records in the exact shape the three normalizers
emit: every key canonical, no synonym spellings, every standard field
present.  Payloads are arbitrary `PyVal`s. -/

/-- An already-normalized structured `Duration` value. -/
structure NormDuration where
  sd : PyVal
  ed : PyVal

def NormDuration.toVal (d : NormDuration) : PyVal :=
  .dict [(.str "StartDate", d.sd), (.str "EndDate", d.ed)]

/-- An already-normalized experience entry (all canonical entry keys). -/
structure NormExp where
  companyName : PyVal
  position : PyVal
  duration : NormDuration
  companyType : PyVal
  businessType : PyVal
  numberOfEmployees : PyVal
  companyRevenue : PyVal
  funding : PyVal
  location : PyVal

def NormExp.toVal (e : NormExp) : PyVal :=
  .dict [(.str "CompanyName", e.companyName),
         (.str "Position", e.position),
         (.str "Duration", NormDuration.toVal e.duration),
         (.str "CompanyType", e.companyType),
         (.str "BusinessType", e.businessType),
         (.str "NumberOfEmployees", e.numberOfEmployees),
         (.str "CompanyRevenue", e.companyRevenue),
         (.str "Funding", e.funding),
         (.str "Location", e.location)]

/-- An already-normalized education entry. -/
structure NormEdu where
  collegeUniversity : PyVal
  courseDegree : PyVal
  graduationYear : PyVal

def NormEdu.toVal (e : NormEdu) : PyVal :=
  .dict [(.str "CollegeUniversity", e.collegeUniversity),
         (.str "CourseDegree", e.courseDegree),
         (.str "GraduationYear", e.graduationYear)]

/-- An already-normalized resume record. -/
structure NormResume where
  name : PyVal
  email : PyVal
  phone : PyVal
  skills : PyVal
  exps : List NormExp
  edus : List NormEdu
  stability : PyVal

def NormResume.toDict (r : NormResume) : PyDict :=
  [(.str "CandidateFullName", r.name),
   (.str "EmailAddress", r.email),
   (.str "PhoneNumber", r.phone),
   (.str "Skills", r.skills),
   (.str "Experience", .list (r.exps.map NormExp.toVal)),
   (.str "Education", .list (r.edus.map NormEdu.toVal)),
   (.str "StabilityAssessment", r.stability)]

/-- An already-normalized job-description record. -/
structure NormJD where
  companyName : PyVal
  jobTitle : PyVal
  jobLocation : PyVal
  tech : List PyVal
  soft : List PyVal
  yearsRequired : PyVal
  eduRequirements : PyVal
  companyTypePref : PyVal
  businessTypePref : PyVal
  preferredStability : PyVal
  otherRequirements : List PyVal

def NormJD.toDict (j : NormJD) : PyDict :=
  [(.str "CompanyName", j.companyName),
   (.str "JobTitle", j.jobTitle),
   (.str "JobLocation", j.jobLocation),
   (.str "RequiredSkills",
     .dict [(.str "technical", .list j.tech), (.str "soft", .list j.soft)]),
   (.str "YearsOfExperienceRequired", j.yearsRequired),
   (.str "EducationRequirements", j.eduRequirements),
   (.str "CompanyTypePreference", j.companyTypePref),
   (.str "BusinessTypePreference", j.businessTypePref),
   (.str "PreferredStability", j.preferredStability),
   (.str "OtherImportantRequirements", .list j.otherRequirements)]

/-- An already-normalized company-analysis entry. -/
structure NormCompany where
  companyName : PyVal
  companyType : PyVal
  industrySector : PyVal
  businessModel : PyVal
  notableAchievements : PyVal

def NormCompany.toVal (c : NormCompany) : PyVal :=
  .dict [(.str "CompanyName", c.companyName),
         (.str "CompanyType", c.companyType),
         (.str "IndustrySector", c.industrySector),
         (.str "BusinessModel", c.businessModel),
         (.str "NotableAchievements", c.notableAchievements)]

/-- An already-normalized match-analysis record. -/
structure NormMatch where
  suggestedRole : PyVal
  aiRating : PyVal
  sbs : PyVal
  companyTypeMatch : PyVal
  businessTypeMatch : PyVal
  stabilityAssessment : PyVal
  companies : List NormCompany
  universityAssessment : PyVal
  courseRelevance : PyVal
  missingExpectations : List PyVal
  overallRecommendation : PyVal
  aiShortlisted : PyVal
  internalShortlisted : PyVal
  interviewInProcess : PyVal
  finalResult : PyVal
  candidateJoined : PyVal

def NormMatch.toDict (m : NormMatch) : PyDict :=
  [(.str "SuggestedRole", m.suggestedRole),
   (.str "AIRating", m.aiRating),
   (.str "ShouldBeShortlisted", m.sbs),
   (.str "CompanyTypeMatch", m.companyTypeMatch),
   (.str "BusinessTypeMatch", m.businessTypeMatch),
   (.str "StabilityAssessment", m.stabilityAssessment),
   (.str "CompanyAnalysis", .list (m.companies.map NormCompany.toVal)),
   (.str "EducationAssessment",
     .dict [(.str "UniversityAssessment", m.universityAssessment),
            (.str "CourseRelevance", m.courseRelevance)]),
   (.str "MissingExpectations", .list m.missingExpectations),
   (.str "OverallRecommendation", m.overallRecommendation),
   (.str "AIShortlisted", m.aiShortlisted),
   (.str "InternalShortlisted", m.internalShortlisted),
   (.str "InterviewInProcess", m.interviewInProcess),
   (.str "FinalResult", m.finalResult),
   (.str "CandidateJoined", m.candidateJoined)]

/-! ## Well-typedness guards for the totality analysis -/

/-- Is this value a Python string? -/
def isStrVal : PyVal → Bool
  | .str _ => true
  | _ => false

/-- A list element a per-entry normalizer can iterate: a dict whose keys
are all strings. -/
def entryOK : PyVal → Bool
  | .dict e => e.all (fun q => isStrKey q.1)
  | _ => false

/-- A value that survives an entry-list pass: a non-list (skipped), or a
list of iterable entries. -/
def entryListOK : PyVal → Bool
  | .list xs => xs.all entryOK
  | _ => true

/-- A skills value the classifier can process: string items only. -/
def skillsOK : PyVal → Bool
  | .list xs => xs.all isStrVal
  | .dict b => (flattenSkillBuckets b).all isStrVal
  | _ => true

/-- A value whose dict form has only string keys (non-dicts are skipped). -/
def dictKeysOK : PyVal → Bool
  | .dict es => es.all (fun q => isStrKey q.1)
  | _ => true

/-- The synonym target of a JD key, if any. -/
def jdSynName (k : PyKey) : Option String :=
  match k with
  | .str s => jdMapsTo s
  | _ => Option.none

/-- The name a match-analysis key lands under after the mapping loop. -/
def matchMapsName (k : PyKey) : Option String :=
  match k with
  | .str s => some ((matchMapsTo s).getD s)
  | _ => Option.none

/-- Well-typedness of one raw resume binding: string key, and an
entry-iterable value if the key lands on an experience/education name. -/
def resumeArgOK (p : PyKey × PyVal) : Bool :=
  isStrKey p.1 &&
    ((expSearchKeys ++ eduSearchKeys).all
        (fun ek => !(resumeMapsName p.1 == some ek))
      || entryListOK p.2)

/-- Well-typedness of one raw JD binding: string key, and string skill
items if the key is a `RequiredSkills` synonym. -/
def jdArgOK (p : PyKey × PyVal) : Bool :=
  isStrKey p.1 && (!(jdSynName p.1 == some "RequiredSkills") || skillsOK p.2)

/-- Well-typedness of one raw match-analysis binding. -/
def matchArgOK (p : PyKey × PyVal) : Bool :=
  (isStrKey p.1 &&
    (!(matchMapsName p.1 == some "CompanyAnalysis") || entryListOK p.2)) &&
    (!(matchMapsName p.1 == some "EducationAssessment") || dictKeysOK p.2)

/-! ## Association-list toolkit -/

theorem ne_of_repr {a b : PyVal} (h : pyRepr a ≠ pyRepr b) : a ≠ b :=
  fun hab => h (hab ▸ rfl)

@[simp] theorem hasKey_nil (k : PyKey) : hasKey [] k = false := rfl

@[simp] theorem hasKey_cons (p : PyKey × PyVal) (d : PyDict) (k : PyKey) :
    hasKey (p :: d) k = (decide (p.1 = k) || hasKey d k) := rfl

@[simp] theorem getK_nil (k : PyKey) : getK [] k = Option.none := rfl

theorem getK_cons (p : PyKey × PyVal) (d : PyDict) (k : PyKey) :
    getK (p :: d) k = if p.1 = k then some p.2 else getK d k := by
  by_cases h : p.1 = k <;> simp [getK, List.find?, h]

theorem keysOf_cons (p : PyKey × PyVal) (d : PyDict) :
    keysOf (p :: d) = p.1 :: keysOf d := rfl

theorem hasKey_iff_mem (d : PyDict) (k : PyKey) :
    hasKey d k = true ↔ k ∈ keysOf d := by
  induction d with
  | nil => simp [keysOf]
  | cons p t ih =>
      simp only [hasKey_cons, keysOf_cons, List.mem_cons, Bool.or_eq_true,
        decide_eq_true_eq, ih]
      exact or_congr ⟨Eq.symm, Eq.symm⟩ Iff.rfl

@[simp] theorem getK_setK_self (d : PyDict) (k : PyKey) (v : PyVal) :
    getK (setK d k v) k = some v := by
  induction d with
  | nil => simp [setK, getK_cons]
  | cons p t ih => by_cases h : p.1 = k <;> simp [setK, h, getK_cons, ih]

theorem getK_setK_ne (d : PyDict) {k k' : PyKey} (v : PyVal) (h : k' ≠ k) :
    getK (setK d k v) k' = getK d k' := by
  have hkk : ¬ (k = k') := fun hh => h hh.symm
  induction d with
  | nil => simp [setK, getK_cons, hkk]
  | cons p t ih =>
      by_cases hp : p.1 = k
      · simp [setK, hp, getK_cons, hkk]
      · simp [setK, hp, getK_cons, ih]

theorem hasKey_setK (d : PyDict) (k k' : PyKey) (v : PyVal) :
    hasKey (setK d k v) k' = (hasKey d k' || decide (k = k')) := by
  induction d with
  | nil => simp [setK]
  | cons p t ih =>
      by_cases hp : p.1 = k
      · simp only [setK, if_pos hp, hasKey_cons, hp]
        cases hke : decide (k = k') <;> simp [hke]
      · simp only [setK, if_neg hp, hasKey_cons, ih, Bool.or_assoc]

theorem hasKey_of_getK {d : PyDict} {k : PyKey} {v : PyVal} (h : getK d k = some v) :
    hasKey d k = true := by
  induction d with
  | nil => simp [getK] at h
  | cons p t ih =>
      rw [getK_cons] at h
      by_cases hp : p.1 = k
      · simp [hp]
      · simp only [hp, if_false] at h
        simp [hp, ih h]

theorem getK_of_hasKey {d : PyDict} {k : PyKey} (h : hasKey d k = true) :
    ∃ v, getK d k = some v := by
  induction d with
  | nil => simp at h
  | cons p t ih =>
      by_cases hp : p.1 = k
      · exact ⟨p.2, by simp [getK_cons, hp]⟩
      · have h2 : hasKey t k = true := by
          simp only [hasKey_cons, Bool.or_eq_true, decide_eq_true_eq] at h
          exact h.resolve_left hp
        obtain ⟨v, hv⟩ := ih h2
        exact ⟨v, by simp [getK_cons, hp, hv]⟩

theorem hasKey_delK (d : PyDict) (k k' : PyKey) :
    hasKey (delK d k) k' = (hasKey d k' && decide (¬ k' = k)) := by
  induction d with
  | nil => simp [delK]
  | cons p t ih =>
      by_cases hp : p.1 = k
      · have hf : decide (¬ p.1 = k) = false := by simp [hp]
        simp only [delK, List.filter_cons, hf, Bool.false_eq_true, if_false,
          hasKey_cons] at ih ⊢
        rw [ih]
        by_cases hk : k' = k
        · simp [hk]
        · have hpk : decide (p.1 = k') = false := by
            simp only [decide_eq_false_iff_not]
            intro hh
            exact hk (by rw [← hh, hp])
          simp [hk, hpk]
      · have hf : decide (¬ p.1 = k) = true := by simp [hp]
        simp only [delK, List.filter_cons, hf, if_true, hasKey_cons] at ih ⊢
        rw [ih]
        by_cases hk : k' = k
        · have hpk : decide (p.1 = k') = false := by
            simp only [decide_eq_false_iff_not]
            intro hh
            exact hp (by rw [hh, hk])
          simp [hk, hpk, hp]
        · simp [hk, Bool.or_and_distrib_right]

/-- A fold in the `Option` monad that never fails computes the pure fold. -/
theorem foldlM_eq_foldl {α β : Type} (f : β → α → Option β) (g : β → α → β)
    (l : List α) (init : β) (h : ∀ b, ∀ a ∈ l, f b a = some (g b a)) :
    l.foldlM f init = some (l.foldl g init) := by
  induction l generalizing init with
  | nil => rfl
  | cons a t ih =>
      have ha := h init a (by simp)
      have hrest : ∀ b, ∀ x ∈ t, f b x = some (g b x) :=
        fun b x hx => h b x (List.mem_cons_of_mem _ hx)
      calc (a :: t).foldlM f init = f init a >>= fun b => t.foldlM f b := by
            simp [List.foldlM]
        _ = t.foldlM f (g init a) := by rw [ha]; rfl
        _ = some (t.foldl g (g init a)) := ih _ hrest
        _ = some ((a :: t).foldl g init) := by rw [List.foldl_cons]

/-- A fold in the `Option` monad fails if some element always fails. -/
theorem foldlM_none {α β : Type} (f : β → α → Option β) (l : List α) (init : β)
    (h : ∃ a ∈ l, ∀ b, f b a = Option.none) :
    l.foldlM f init = Option.none := by
  induction l generalizing init with
  | nil => simp at h
  | cons a t ih =>
      obtain ⟨x, hx, hfail⟩ := h
      rcases List.mem_cons.mp hx with hx1 | hx1
      · subst hx1
        simp [List.foldlM, hfail init]
      · simp only [List.foldlM]
        cases hfa : f init a with
        | none => rfl
        | some b => exact ih b ⟨x, hx1, hfail⟩

/-- Invariants propagate through pure folds. -/
theorem foldl_invariant {α β : Type} (g : β → α → β) (P : β → Prop) (l : List α)
    (init : β) (h0 : P init) (hstep : ∀ b, ∀ a ∈ l, P b → P (g b a)) :
    P (l.foldl g init) := by
  induction l generalizing init with
  | nil => exact h0
  | cons a t ih =>
      exact ih _ (hstep init a (List.mem_cons_self _ _) h0)
        (fun b x hx => hstep b x (List.mem_cons_of_mem _ hx))

theorem getK_delK_ne (d : PyDict) {k k' : PyKey} (h : k' ≠ k) :
    getK (delK d k) k' = getK d k' := by
  induction d with
  | nil => rfl
  | cons p t ih =>
      simp only [delK] at ih ⊢
      rw [List.filter_cons]
      by_cases hp : p.1 = k
      · have hf : decide (¬ p.1 = k) = false := by simp [hp]
        have hpk : ¬ p.1 = k' := by rw [hp]; exact fun hh => h hh.symm
        rw [hf]
        simp only [Bool.false_eq_true, if_false]
        rw [getK_cons, if_neg hpk]
        exact ih
      · have hf : decide (¬ p.1 = k) = true := by simp [hp]
        rw [hf]
        simp only [if_true]
        rw [getK_cons, getK_cons]
        by_cases hk : p.1 = k'
        · simp [hk]
        · simp only [hk, if_false]
          exact ih

/-- Invariants propagate through successful folds in the `Option` monad. -/
theorem foldlM_invariant {α β : Type} (f : β → α → Option β) (P : β → Prop)
    (l : List α) (init res : β) (h : l.foldlM f init = some res) (h0 : P init)
    (hstep : ∀ b b' a, a ∈ l → f b a = some b' → P b → P b') : P res := by
  induction l generalizing init with
  | nil => cases h; exact h0
  | cons a t ih =>
      rw [show (a :: t).foldlM f init = f init a >>= fun b => t.foldlM f b by
        simp [List.foldlM]] at h
      cases hfa : f init a with
      | none => rw [hfa] at h; cases h
      | some b1 =>
          rw [hfa] at h
          exact ih b1 (by exact h)
            (hstep init b1 a (List.mem_cons_self _ _) hfa h0)
            (fun b b' x hx hf hp => hstep b b' x (List.mem_cons_of_mem _ hx) hf hp)

/-- `roundHalfEven` is the identity on integers. -/
theorem roundHalfEven_intCast (n : Int) : roundHalfEven ((n : Rat)) = n := by
  unfold roundHalfEven
  have hf : Rat.floor ((n : Rat)) = n := by
    rw [Rat.floor_def']
    simp
  rw [hf]
  norm_num

/-- C7: `_parse_duration` always returns a two-key `{StartDate, EndDate}`
structure and never raises; on the three reference inputs it returns exactly
the specified dictionaries; on any 2-way split both halves are
whitespace-trimmed and an end value among present/current/now/ongoing
(case-insensitively) is canonicalized to the literal `"Present"`, all other
end values being kept as trimmed. -/
theorem parse_duration_spec :
    (parse_duration (.str "Jan 2020 - Present") =
      .dict [(.str "StartDate", .str "Jan 2020"), (.str "EndDate", .str "Present")]) ∧
    (parse_duration (.str "2018-2020") =
      .dict [(.str "StartDate", .str "2018"), (.str "EndDate", .str "2020")]) ∧
    (parse_duration (.str "") =
      .dict [(.str "StartDate", .str "Not specified"), (.str "EndDate", .str "Not specified")]) ∧
    (∀ v : PyVal, ∃ s e : PyVal, parse_duration v =
      .dict [(.str "StartDate", s), (.str "EndDate", e)]) ∧
    (∀ s a b : String, durationParts (pyReplace s "–" "-") = some [a, b] →
      parse_duration (.str s) =
        .dict [(.str "StartDate", .str (pyTrim a)),
               (.str "EndDate", .str (canonEnd (pyTrim b)))]) ∧
    (∀ e : String, pyLower e ∈ ["present", "current", "now", "ongoing"] →
      canonEnd e = "Present") ∧
    (∀ e : String, pyLower e ∉ ["present", "current", "now", "ongoing"] →
      canonEnd e = e) := by
  refine ⟨rfl, rfl, rfl, ?_, ?_, ?_, ?_⟩
  · intro v
    unfold parse_duration
    split
    · exact ⟨_, _, rfl⟩
    · cases v with
      | str s =>
          dsimp only
          split
          · exact ⟨_, _, rfl⟩
          · exact ⟨_, _, rfl⟩
      | int n => exact ⟨_, _, rfl⟩
      | float q => exact ⟨_, _, rfl⟩
      | bool b => exact ⟨_, _, rfl⟩
      | none => exact ⟨_, _, rfl⟩
      | list xs => exact ⟨_, _, rfl⟩
      | dict d => exact ⟨_, _, rfl⟩
  · intro s a b hdp
    have hs : ¬ s.data.isEmpty := by
      intro he
      have hs0 : s = "" := by
        cases s with
        | mk l => cases l with
          | nil => rfl
          | cons c t => simp [List.isEmpty] at he
      rw [hs0] at hdp
      rw [show pyReplace "" "–" "-" = "" from rfl] at hdp
      rw [show durationParts "" = Option.none from rfl] at hdp
      cases hdp
    have ht : truthy (.str s) = true := by
      simp only [Bool.not_eq_true] at hs
      simp [truthy, hs]
    unfold parse_duration
    rw [if_neg (by simp [ht])]
    dsimp only
    rw [hdp]
  · intro e he
    simp [canonEnd, he]
  · intro e he
    simp [canonEnd, he]

/-- Witness for `parse_duration_spec`: the universally quantified parts
applied at concrete inputs. -/
theorem parse_duration_spec_witness :
    parse_duration (.str " 2018 - 2020 ") =
      .dict [(.str "StartDate", .str "2018"), (.str "EndDate", .str "2020")] ∧
    parse_duration (.str "2019 to CURRENT") =
      .dict [(.str "StartDate", .str "2019"), (.str "EndDate", .str "Present")] ∧
    canonEnd "Now" = "Present" ∧ canonEnd "2020" = "2020" :=
  ⟨parse_duration_spec.2.2.2.2.1 " 2018 - 2020 " " 2018" "2020 " (by rfl),
   parse_duration_spec.2.2.2.2.1 "2019 to CURRENT" "2019" "CURRENT" (by rfl),
   parse_duration_spec.2.2.2.2.2.1 "Now" (by decide),
   parse_duration_spec.2.2.2.2.2.2 "2020" (by decide)⟩

/-- C4: evaluating `_calculate_total_experience` at the failing input — one
entry whose dates defeat every `strptime` format but whose digit runs give
years 2020 and 2018 — returns `-2.0`: the digit-extraction fallback of
`_calculate_years_between_dates` returns `end_year - start_year` without
the non-negativity floor, contradicting the documented "never negative"
contract. -/
theorem calculate_total_experience_negative :
    calculate_total_experience "Oct 2026"
      (.list [.dict [(.str "Duration",
        .dict [(.str "StartDate", .str "year 2020"),
               (.str "EndDate", .str "year 2018")])]])
      = some (.float (-2)) ∧ (-2 : Rat) < 0 := by
  constructor
  · have h1 : calculate_total_experience "Oct 2026"
        (.list [.dict [(.str "Duration",
          .dict [(.str "StartDate", .str "year 2020"),
                 (.str "EndDate", .str "year 2018")])]])
        = some (.float (round1 ((0 : Rat) + ((-2 : Int) : Rat)))) := rfl
    rw [h1]
    have h2 : round1 ((0 : Rat) + ((-2 : Int) : Rat)) = -2 := by
      rw [round1]
      have h3 : ((0 : Rat) + ((-2 : Int) : Rat)) * 10 = (((-20 : Int)) : Rat) := by
        push_cast
        ring
      rw [h3, roundHalfEven_intCast]
      push_cast
      norm_num
    rw [h2]
  · norm_num

/-- C6: on `{"Match score": 6, "Overall rating": 9}` the normalized result
has a single consolidated `AIRating` equal to `9` (a float, as `max` of the
two `float`-coerced values) and neither a `MatchScore` nor an
`OverallRating` key; in general a later-processed rating synonym merges as
`max(existing, new)` after `float`-coercion of both sides, and the existing
value is left unchanged if either side fails the coercion. -/
theorem ratingCoerceSide_ne_none {x : PyVal} (hx : x ≠ PyVal.none) :
    ratingCoerceSide x = (pyFloat x).map .float := by
  cases x <;> first | rfl | exact absurd rfl hx

theorem rating_consolidation_spec :
    ((normalize_match_analysis
        [(.str "Match score", .int 6), (.str "Overall rating", .int 9)]).map
        (fun d => (getK d (.str "AIRating"), hasKey d (.str "MatchScore"),
          hasKey d (.str "OverallRating")))
      = some (some (.float 9), false, false)) ∧
    (∀ e v : PyVal, ∀ qe qv : Rat, e ≠ PyVal.none → v ≠ PyVal.none →
      pyFloat e = some qe → pyFloat v = some qv →
      mergeAIRating e v = some (.float (max qe qv))) ∧
    (∀ e v : PyVal, e ≠ PyVal.none → v ≠ PyVal.none →
      (pyFloat e = Option.none ∨ pyFloat v = Option.none) →
      mergeAIRating e v = Option.none) ∧
    (∀ (nd : PyDict) (field : String) (v : PyVal),
      matchMapsTo field = some "AIRating" → hasKey nd (.str "AIRating") = true →
      (∀ m, mergeAIRating (getKD nd (.str "AIRating") .none) v = some m →
        matchTopStep nd (.str field, v) = some (setK nd (.str "AIRating") m)) ∧
      (mergeAIRating (getKD nd (.str "AIRating") .none) v = Option.none →
        matchTopStep nd (.str field, v) = some nd)) := by
  refine ⟨rfl, ?_, ?_, ?_⟩
  · intro e v qe qv he hv hqe hqv
    unfold mergeAIRating
    rw [ratingCoerceSide_ne_none he, ratingCoerceSide_ne_none hv, hqe, hqv]
    simp only [Option.map_some']
    rcases lt_or_le qe qv with h | h
    · simp only [numQ, if_pos h, max_eq_right h.le]
    · simp only [numQ, if_neg (not_lt.mpr h), max_eq_left h]
  · intro e v he hv hfail
    unfold mergeAIRating
    rw [ratingCoerceSide_ne_none he, ratingCoerceSide_ne_none hv]
    rcases hfail with h | h
    · rw [h]
      rcases pyFloat v with _ | q <;> rfl
    · rw [h]
      rcases pyFloat e with _ | q <;> rfl
  · intro nd field v hmap hhas
    constructor
    · intro m hm
      unfold matchTopStep
      dsimp only
      rw [hmap]
      dsimp only
      rw [if_pos ⟨rfl, hhas⟩, hm]
    · intro hm
      unfold matchTopStep
      dsimp only
      rw [hmap]
      dsimp only
      rw [if_pos ⟨rfl, hhas⟩, hm]

/-- Witness for `rating_consolidation_spec` at concrete inputs. -/
theorem rating_consolidation_spec_witness :
    mergeAIRating (.int 6) (.int 9)
      = some (.float (max (((6 : Int)) : Rat) (((9 : Int)) : Rat))) ∧
    mergeAIRating (.int 6) (.str "n/a") = Option.none ∧
    matchTopStep [(.str "AIRating", .int 6)] (.str "Overall rating", .int 9)
      = some (setK [(.str "AIRating", .int 6)] (.str "AIRating") (.float 9)) :=
  ⟨rating_consolidation_spec.2.1 (.int 6) (.int 9) _ _
      (fun h => PyVal.noConfusion h) (fun h => PyVal.noConfusion h) rfl rfl,
   rating_consolidation_spec.2.2.1 (.int 6) (.str "n/a")
      (fun h => PyVal.noConfusion h) (fun h => PyVal.noConfusion h) (Or.inr rfl),
   (rating_consolidation_spec.2.2.2 [(.str "AIRating", .int 6)]
      "Overall rating" (.int 9) rfl rfl).1 (.float 9) (by rfl)⟩

theorem find_syn_none (m : List (String × String)) (bad : String)
    (hm : ∀ p ∈ m, pyLower p.1 ≠ bad) (k : String) (hk : pyLower k = bad) :
    (m.find? (fun p => k == p.1 || pyLower k == pyLower p.1)) = Option.none := by
  rw [List.find?_eq_none]
  intro p hp
  simp only [Bool.or_eq_true, beq_iff_eq, not_or]
  refine ⟨fun he => hm p hp (he ▸ hk), fun he => hm p hp (he.symm.trans hk)⟩

theorem hasKey_str_false_of_not_mem {d : PyDict} {k : String}
    (h : PyKey.str k ∉ keysOf d) : hasKey d (.str k) = false := by
  cases hh : hasKey d (.str k)
  · rfl
  · exact absurd ((hasKey_iff_mem d (.str k)).mp hh) h


/-- Value supplied only under a literal `MatchScore`/`OverallRating` key (any
letter case) is dropped entirely: the key is skipped by the mapping loop and
the metadata loop, so the output has the default `AIRating = 0`, carries no
such key, and no key of the output lowers to either spelling. -/
theorem hasKey_eq_isSome (d : PyDict) (k : PyKey) :
    hasKey d k = (getK d k).isSome := by
  induction d with
  | nil => rfl
  | cons p t ih =>
      rw [hasKey_cons, getK_cons]
      by_cases hp : p.1 = k <;> simp [hp, ih]

/-- A conditional default-fill step preserves present bindings. -/
theorem getK_condSet_presv {nd : PyDict} {k : PyKey} {w : PyVal} (key : PyKey)
    (v : PyVal) (h : getK nd k = some w) :
    getK (if hasKey nd key then nd else setK nd key v) k = some w := by
  by_cases hk : hasKey nd key = true
  · rw [if_pos hk]; exact h
  · rw [if_neg hk]
    have hne : k ≠ key := by
      intro he
      exact hk (he ▸ hasKey_of_getK h)
    rw [getK_setK_ne _ _ hne]
    exact h

/-- Default-fill folds (`fillMatch`, `fillJd` shape) preserve present
bindings. -/
theorem foldl_condSet_presv (fields : List String) (dflt : String → PyVal)
    {nd : PyDict} {k : PyKey} {w : PyVal} (h : getK nd k = some w) :
    getK (fields.foldl
      (fun nd f => if hasKey nd (.str f) then nd else setK nd (.str f) (dflt f)) nd)
      k = some w := by
  induction fields generalizing nd with
  | nil => exact h
  | cons f t ih => exact ih (getK_condSet_presv (.str f) (dflt f) h)

/-- After a default-fill fold every listed field is present. -/
theorem foldl_condSet_hasKey (fields : List String) (dflt : String → PyVal)
    (nd : PyDict) (f : String) (hf : f ∈ fields) :
    hasKey (fields.foldl
      (fun nd g => if hasKey nd (.str g) then nd else setK nd (.str g) (dflt g)) nd)
      (.str f) = true := by
  induction fields generalizing nd with
  | nil => cases hf
  | cons g t ih =>
      rw [List.foldl_cons]
      rcases List.mem_cons.mp hf with hgf | hft
      · subst hgf
        have hstep : hasKey
            (if hasKey nd (.str f) then nd else setK nd (.str f) (dflt f))
            (.str f) = true := by
          by_cases hk : hasKey nd (.str f) = true
          · rw [if_pos hk]; exact hk
          · rw [if_neg hk, hasKey_setK]
            simp
        obtain ⟨w, hw⟩ := getK_of_hasKey hstep
        have := foldl_condSet_presv t dflt hw
        rw [hasKey_eq_isSome, this]
        rfl
      · exact ih _ hft

/-- A field absent before a default-fill fold receives exactly its default. -/
theorem foldl_condSet_getK_absent (fields : List String) (dflt : String → PyVal)
    (nd : PyDict) (f : String) (hf : f ∈ fields)
    (habs : hasKey nd (.str f) = false) :
    getK (fields.foldl
      (fun nd g => if hasKey nd (.str g) then nd else setK nd (.str g) (dflt g)) nd)
      (.str f) = some (dflt f) := by
  induction fields generalizing nd with
  | nil => cases hf
  | cons g t ih =>
      rw [List.foldl_cons]
      by_cases hgf : g = f
      · subst hgf
        rw [show (if hasKey nd (.str g) then nd else setK nd (.str g) (dflt g))
            = setK nd (.str g) (dflt g) by rw [if_neg (by simp [habs])]]
        exact foldl_condSet_presv t dflt (getK_setK_self _ _ _)
      · have hstep : hasKey
            (if hasKey nd (.str g) then nd else setK nd (.str g) (dflt g))
            (.str f) = false := by
          by_cases hk : hasKey nd (.str g) = true
          · rw [if_pos hk]; exact habs
          · rw [if_neg hk, hasKey_setK, habs]
            simp [hgf]
        rcases List.mem_cons.mp hf with hfg | hft
        · exact absurd hfg.symm hgf
        · exact ih _ hft hstep

theorem matchMapsTo_target_mem {field nf : String} (h : matchMapsTo field = some nf) :
    ∃ p ∈ matchFieldMappings, p.2 = nf := by
  unfold matchMapsTo at h
  cases hf : matchFieldMappings.find?
      (fun p => field == p.1 || pyLower field == pyLower p.1) with
  | none => rw [hf] at h; cases h
  | some p =>
      rw [hf] at h
      have hp2 : p.2 = nf := by injection h
      exact ⟨p, List.mem_of_find?_eq_some hf, hp2⟩

theorem matchCompanyStage_frame {nd nd' : PyDict}
    (h : matchCompanyStage nd = some nd') {k : PyKey}
    (hk : k ≠ .str "CompanyAnalysis") : getK nd' k = getK nd k := by
  unfold matchCompanyStage at h
  by_cases hc : hasKey nd (.str "CompanyAnalysis") = true
  · rw [if_pos hc] at h
    cases hg : getK nd (.str "CompanyAnalysis") with
    | none => rw [hg] at h; cases h; rfl
    | some v =>
        rw [hg] at h
        cases v with
        | list xs =>
            dsimp only at h
            rcases hmm : xs.mapM normalizeCompanyEntry with _ | ys
            · rw [hmm] at h; cases h
            · rw [hmm] at h
              have h2 : some (setK nd (.str "CompanyAnalysis") (.list ys)) = some nd' := h
              have h3 : nd' = setK nd (.str "CompanyAnalysis") (.list ys) := by
                injection h2 with hh
                exact hh.symm
              rw [h3, getK_setK_ne _ _ hk]
        | str s => cases h; rfl
        | int n => cases h; rfl
        | float q => cases h; rfl
        | bool b => cases h; rfl
        | none => cases h; rfl
        | dict es => cases h; rfl
  · rw [if_neg hc] at h
    cases h
    rfl

theorem matchEduStage_frame {nd nd' : PyDict}
    (h : matchEduStage nd = some nd') {k : PyKey}
    (hk : k ≠ .str "EducationAssessment") : getK nd' k = getK nd k := by
  unfold matchEduStage at h
  by_cases hc : hasKey nd (.str "EducationAssessment") = true
  · rw [if_pos hc] at h
    cases hg : getK nd (.str "EducationAssessment") with
    | none => rw [hg] at h; cases h; rfl
    | some v =>
        rw [hg] at h
        cases v with
        | dict es =>
            dsimp only at h
            rcases hmm : es.foldlM eduAssessStep [] with _ | ys
            · rw [hmm] at h; cases h
            · rw [hmm] at h
              have h2 : some (setK nd (.str "EducationAssessment") (.dict ys)) = some nd' := h
              have h3 : nd' = setK nd (.str "EducationAssessment") (.dict ys) := by
                injection h2 with hh
                exact hh.symm
              rw [h3, getK_setK_ne _ _ hk]
        | str s => cases h; rfl
        | int n => cases h; rfl
        | float q => cases h; rfl
        | bool b => cases h; rfl
        | none => cases h; rfl
        | list xs => cases h; rfl
  · rw [if_neg hc] at h
    cases h
    rfl

theorem coerceAIRatingStage_frame (nd : PyDict) {k : PyKey}
    (hk : k ≠ .str "AIRating") :
    getK (coerceAIRatingStage nd) k = getK nd k := by
  unfold coerceAIRatingStage
  split
  · exact getK_setK_ne _ _ hk
  · rfl

theorem delLegacyStage_frame (nd : PyDict) {k : PyKey}
    (hk1 : k ≠ .str "MatchScore") (hk2 : k ≠ .str "OverallRating") :
    getK (delLegacyStage nd) k = getK nd k := by
  unfold delLegacyStage
  have h1 : ∀ m : PyDict,
      getK (if hasKey m (.str "OverallRating") then delK m (.str "OverallRating") else m) k
        = getK m k := by
    intro m
    split
    · exact getK_delK_ne _ hk2
    · rfl
  rw [h1]
  split
  · exact getK_delK_ne _ hk1
  · rfl

theorem matchMeta_presv {d nd nd' : PyDict} (h : matchMeta d nd = some nd')
    {k : PyKey} {w : PyVal} (hw : getK nd k = some w) : getK nd' k = some w := by
  unfold matchMeta at h
  refine foldlM_invariant _ (fun b => getK b k = some w) _ _ _ h hw ?_
  intro b b' a ha hstep hP
  obtain ⟨k0, v0⟩ := a
  cases k0 with
  | str field =>
      unfold matchMetaStep at hstep
      dsimp only at hstep
      by_cases h1 : (matchFieldMappings.any (fun p => pyLower p.1 == pyLower field)) = true
      · rw [if_pos h1] at hstep; cases hstep; exact hP
      · rw [if_neg h1] at hstep
        by_cases h2 : hasKey b (.str field) = true
        · rw [if_pos h2] at hstep; cases hstep; exact hP
        · rw [if_neg h2] at hstep
          by_cases h3 : pyLower field ∈ (["matchscore", "overallrating"] : List String)
          · rw [if_pos h3] at hstep; cases hstep; exact hP
          · rw [if_neg h3] at hstep
            cases hstep
            have hne : k ≠ PyKey.str field := by
              intro he
              rw [← he] at h2
              exact h2 (hasKey_of_getK hP)
            rw [getK_setK_ne _ _ hne]
            exact hP
  | int n => cases hstep
  | null => cases hstep

theorem sbsStage_frame (nd : PyDict) {k : PyKey}
    (hk : k ≠ .str "ShouldBeShortlisted") :
    getK (sbsStage nd) k = getK nd k := by
  unfold sbsStage sbsApply
  split
  · split
    · exact getK_setK_ne _ _ hk
    · split
      · exact getK_setK_ne _ _ hk
      · rfl
  · rfl

theorem matchTop_keys_false {d nd1 : PyDict}
    (h : d.foldlM matchTopStep [] = some nd1) (F : String)
    (hne : PyKey.str F ∉ keysOf d)
    (htar : ∀ p ∈ matchFieldMappings, p.2 ≠ F) (hair : F ≠ "AIRating") :
    hasKey nd1 (.str F) = false := by
  refine foldlM_invariant _ (fun b => hasKey b (.str F) = false) _ _ _ h rfl ?_
  intro b b' a ha hstep hP
  obtain ⟨k0, v0⟩ := a
  cases k0 with
  | str field =>
      unfold matchTopStep at hstep
      dsimp only at hstep
      cases hmt : matchMapsTo field with
      | some nf =>
          rw [hmt] at hstep
          dsimp only at hstep
          have hnfF : PyKey.str nf ≠ PyKey.str F := by
            obtain ⟨p, hp, hp2⟩ := matchMapsTo_target_mem hmt
            intro he
            injection he with he'
            exact htar p hp (hp2.trans he')
          by_cases hcond : (nf == "AIRating") = true ∧ hasKey b (.str "AIRating") = true
          · rw [if_pos hcond] at hstep
            cases hmg : mergeAIRating (getKD b (.str "AIRating") PyVal.none) v0 with
            | some m =>
                rw [hmg] at hstep
                cases hstep
                rw [hasKey_setK, hP]
                simp only [Bool.false_or, decide_eq_false_iff_not]
                intro he
                injection he with he'
                exact hair he'.symm
            | none => rw [hmg] at hstep; cases hstep; exact hP
          · rw [if_neg hcond] at hstep
            cases hstep
            rw [hasKey_setK, hP]
            simp only [Bool.false_or, decide_eq_false_iff_not]
            exact fun he => hnfF he
      | none =>
          rw [hmt] at hstep
          dsimp only at hstep
          by_cases h3 : pyLower field ∈ (["matchscore", "overallrating"] : List String)
          · rw [if_pos h3] at hstep; cases hstep; exact hP
          · rw [if_neg h3] at hstep
            cases hstep
            rw [hasKey_setK, hP]
            simp only [Bool.false_or, decide_eq_false_iff_not]
            intro he
            injection he with he'
            exact hne (he' ▸ List.mem_map_of_mem (·.1) ha)
  | int n => cases hstep
  | null => cases hstep

/-- C2 counterexample: on the empty match-analysis input the consolidated
rating is the default `0` (below every threshold of the claim), yet the
normalized `AIShortlisted` is the literal `"Not provided"`, not the
rating-derived `"No"`; the patch-up in `analyze_match` leaves the record
unchanged, so the composed pipeline also yields `"Not provided"` for every
status field — never `"No"`, `"Yes"`, `"Unknown"` or `"Pending"`. -/
theorem status_fields_counterexample :
    (normalize_match_analysis []).map (fun nd =>
      (getK nd (.str "AIRating"), getK nd (.str "AIShortlisted"),
       getK nd (.str "InternalShortlisted"), getK nd (.str "InterviewInProcess"),
       getK nd (.str "FinalResult"), getK nd (.str "CandidateJoined")))
      = some (some (.int 0), some (.str "Not provided"), some (.str "Not provided"),
          some (.str "Not provided"), some (.str "Not provided"),
          some (.str "Not provided")) ∧
    (normalize_match_analysis []).map applyStatusDefaults = normalize_match_analysis [] ∧
    PyVal.str "Not provided" ≠ .str "No" ∧ PyVal.str "Not provided" ≠ .str "Yes" ∧
    PyVal.str "Not provided" ≠ .str "Unknown" ∧ PyVal.str "Not provided" ≠ .str "Pending" :=
  ⟨rfl, rfl, ne_of_repr (by decide), ne_of_repr (by decide),
   ne_of_repr (by decide), ne_of_repr (by decide)⟩

/-- C2 as amended: when a pipeline-status key is absent from the input, the
normalizer fills it with the literal `"Not provided"` (the generic default
of the checklist fill), and the rating-derived defaulting in
`analyze_match` is dead code: normalization leaves no status key absent, so
`applyStatusDefaults` is the identity on every normalized record. -/
theorem status_fields_not_provided :
    ∀ (d nd : PyDict), normalize_match_analysis d = some nd →
      ((PyKey.str "AIShortlisted" ∉ keysOf d →
          getK nd (.str "AIShortlisted") = some (.str "Not provided")) ∧
       (PyKey.str "InternalShortlisted" ∉ keysOf d →
          getK nd (.str "InternalShortlisted") = some (.str "Not provided")) ∧
       (PyKey.str "InterviewInProcess" ∉ keysOf d →
          getK nd (.str "InterviewInProcess") = some (.str "Not provided")) ∧
       (PyKey.str "FinalResult" ∉ keysOf d →
          getK nd (.str "FinalResult") = some (.str "Not provided")) ∧
       (PyKey.str "CandidateJoined" ∉ keysOf d →
          getK nd (.str "CandidateJoined") = some (.str "Not provided"))) ∧
      applyStatusDefaults nd = nd := by
  intro d nd h
  unfold normalize_match_analysis at h
  rcases h1 : d.foldlM matchTopStep [] with _ | nd1
  · rw [h1] at h; cases h
  rw [h1] at h
  have h' : (matchCompanyStage nd1 >>= fun nd => matchEduStage nd >>=
      fun nd => matchMeta d (delLegacyStage (coerceAIRatingStage (fillMatch nd))) >>=
      fun nd => some (sbsStage nd)) = some nd := h
  rcases h2 : matchCompanyStage nd1 with _ | nd2
  · rw [h2] at h'; cases h'
  rw [h2] at h'
  have h'' : (matchEduStage nd2 >>=
      fun nd => matchMeta d (delLegacyStage (coerceAIRatingStage (fillMatch nd))) >>=
      fun nd => some (sbsStage nd)) = some nd := h'
  rcases h3 : matchEduStage nd2 with _ | nd3
  · rw [h3] at h''; cases h''
  rw [h3] at h''
  have h3' : (matchMeta d (delLegacyStage (coerceAIRatingStage (fillMatch nd3))) >>=
      fun nd => some (sbsStage nd)) = some nd := h''
  rcases h4 : matchMeta d (delLegacyStage (coerceAIRatingStage (fillMatch nd3))) with _ | nd7
  · rw [h4] at h3'; cases h3'
  rw [h4] at h3'
  have hfin : nd = sbsStage nd7 := by
    have h5 : some (sbsStage nd7) = some nd := h3'
    injection h5 with hh
    exact hh.symm
  have core : ∀ F : String, PyKey.str F ∉ keysOf d →
      (∀ p ∈ matchFieldMappings, p.2 ≠ F) → F ≠ "AIRating" →
      PyKey.str F ≠ .str "CompanyAnalysis" →
      PyKey.str F ≠ .str "EducationAssessment" →
      PyKey.str F ≠ .str "AIRating" →
      PyKey.str F ≠ .str "MatchScore" →
      PyKey.str F ≠ .str "OverallRating" →
      PyKey.str F ≠ .str "ShouldBeShortlisted" →
      F ∈ matchStandardFields → matchDefault F = .str "Not provided" →
      getK nd (.str F) = some (.str "Not provided") := by
    intro F hne htar hair hca hea hairk hms hor hsbs hstd hdef
    have k1 : hasKey nd1 (.str F) = false := matchTop_keys_false h1 F hne htar hair
    have k3 : hasKey nd3 (.str F) = false := by
      rw [hasKey_eq_isSome, matchEduStage_frame h3 hea, matchCompanyStage_frame h2 hca,
        ← hasKey_eq_isSome]
      exact k1
    have g4 : getK (fillMatch nd3) (.str F) = some (matchDefault F) :=
      foldl_condSet_getK_absent matchStandardFields matchDefault nd3 F hstd k3
    have g6 : getK (delLegacyStage (coerceAIRatingStage (fillMatch nd3))) (.str F)
        = some (matchDefault F) := by
      rw [delLegacyStage_frame _ hms hor, coerceAIRatingStage_frame _ hairk]
      exact g4
    have g7 : getK nd7 (.str F) = some (matchDefault F) := matchMeta_presv h4 g6
    rw [hfin, sbsStage_frame _ hsbs, g7, hdef]
  have hkeep : ∀ f, f ∈ matchStandardFields → hasKey nd (.str f) = true := by
    intro f hf
    have hside : ∀ x ∈ matchStandardFields,
        PyKey.str x ≠ PyKey.str "MatchScore" ∧ PyKey.str x ≠ PyKey.str "OverallRating" := by
      decide
    have h4k : hasKey (fillMatch nd3) (.str f) = true :=
      foldl_condSet_hasKey matchStandardFields matchDefault nd3 f hf
    have h5 : hasKey (coerceAIRatingStage (fillMatch nd3)) (.str f) = true := by
      unfold coerceAIRatingStage
      split
      · rw [hasKey_setK, h4k]; rfl
      · exact h4k
    have h6 : hasKey (delLegacyStage (coerceAIRatingStage (fillMatch nd3))) (.str f)
        = true := by
      rw [hasKey_eq_isSome, delLegacyStage_frame _ (hside f hf).1 (hside f hf).2,
        ← hasKey_eq_isSome]
      exact h5
    obtain ⟨w, hw⟩ := getK_of_hasKey h6
    have h7 : getK nd7 (.str f) = some w := matchMeta_presv h4 hw
    have h7k : hasKey nd7 (.str f) = true := by
      rw [hasKey_eq_isSome, h7]; rfl
    have h8 : hasKey (sbsStage nd7) (.str f) = true := by
      unfold sbsStage sbsApply
      split
      · split
        · rw [hasKey_setK, h7k]; rfl
        · split
          · rw [hasKey_setK, h7k]; rfl
          · exact h7k
      · exact h7k
    rw [hfin]
    exact h8
  constructor
  · refine ⟨?_, ?_, ?_, ?_, ?_⟩
    · intro hne
      exact core "AIShortlisted" hne (by decide) (by decide) (by decide) (by decide)
        (by decide) (by decide) (by decide) (by decide) (by decide) rfl
    · intro hne
      exact core "InternalShortlisted" hne (by decide) (by decide) (by decide) (by decide)
        (by decide) (by decide) (by decide) (by decide) (by decide) rfl
    · intro hne
      exact core "InterviewInProcess" hne (by decide) (by decide) (by decide) (by decide)
        (by decide) (by decide) (by decide) (by decide) (by decide) rfl
    · intro hne
      exact core "FinalResult" hne (by decide) (by decide) (by decide) (by decide)
        (by decide) (by decide) (by decide) (by decide) (by decide) rfl
    · intro hne
      exact core "CandidateJoined" hne (by decide) (by decide) (by decide) (by decide)
        (by decide) (by decide) (by decide) (by decide) (by decide) rfl
  · have hA := hkeep "AIRating" (by decide)
    have hAS := hkeep "AIShortlisted" (by decide)
    have hIS := hkeep "InternalShortlisted" (by decide)
    have hIP := hkeep "InterviewInProcess" (by decide)
    have hFR := hkeep "FinalResult" (by decide)
    have hCJ := hkeep "CandidateJoined" (by decide)
    unfold applyStatusDefaults
    simp only [hA, hAS, hIS, hIP, hFR, hCJ, if_true]

/-- Witness for `status_fields_not_provided` at the empty input. -/
theorem status_fields_not_provided_witness :
    ∃ nd, normalize_match_analysis [] = some nd ∧
      getK nd (.str "AIShortlisted") = some (.str "Not provided") ∧
      getK nd (.str "CandidateJoined") = some (.str "Not provided") ∧
      applyStatusDefaults nd = nd := by
  have h := status_fields_not_provided [] (fillMatch []) rfl
  exact ⟨fillMatch [], rfl, h.1.1 (by decide), h.1.2.2.2.2 (by decide), h.2⟩

/-- Is this value a Python dict? -/
def isDictVal : PyVal → Bool
  | .dict _ => true
  | _ => false

/-- Is this value a Python list? -/
def isListVal : PyVal → Bool
  | .list _ => true
  | _ => false

/-- Does this key lower-case to the given spelling? -/
def keyLowerIs (k : PyKey) (t : String) : Bool :=
  match k with
  | .str s => pyLower s == t
  | _ => false

/-- Does this key reach the canonical `RequiredSkills` field through the JD
synonym table? -/
def jdKeyMapsToRS (k : PyKey) : Bool :=
  match k with
  | .str s => jdMapsTo s == some "RequiredSkills"
  | _ => false

theorem classifySkills_shape {xs : List PyVal} {c : PyVal}
    (h : classifySkills xs = some c) :
    ∃ tech soft : List PyVal,
      c = .dict [(.str "technical", .list tech), (.str "soft", .list soft)] := by
  unfold classifySkills at h
  rcases hf : xs.foldlM
      (fun (acc : List PyVal × List PyVal) sk =>
        match sk with
        | .str s =>
            if technicalIndicators.any (fun ind => strIn ind (pyLower s)) then
              some (acc.1 ++ [PyVal.str s], acc.2)
            else some (acc.1, acc.2 ++ [PyVal.str s])
        | _ => Option.none)
      ([], []) with _ | r
  · rw [hf] at h; cases h
  · rw [hf] at h
    have h2 : some (PyVal.dict [(.str "technical", .list r.1), (.str "soft", .list r.2)])
        = some c := h
    have h3 : c = PyVal.dict [(.str "technical", .list r.1), (.str "soft", .list r.2)] := by
      injection h2 with hh
      exact hh.symm
    exact ⟨r.1, r.2, h3⟩

theorem jdMeta_presv {d nd nd' : PyDict} (h : jdMeta d nd = some nd')
    {k : PyKey} {w : PyVal} (hw : getK nd k = some w) : getK nd' k = some w := by
  unfold jdMeta at h
  refine foldlM_invariant _ (fun b => getK b k = some w) _ _ _ h hw ?_
  intro b b' a ha hstep hP
  obtain ⟨k0, v0⟩ := a
  cases k0 with
  | str field =>
      unfold jdMetaStep at hstep
      dsimp only at hstep
      by_cases h1 : (jdFieldMappings.any (fun p => pyLower p.1 == pyLower field)) = true
      · rw [if_pos h1] at hstep; cases hstep; exact hP
      · rw [if_neg h1] at hstep
        by_cases h2 : hasKey b (.str field) = true
        · rw [if_pos h2] at hstep; cases hstep; exact hP
        · rw [if_neg h2] at hstep
          cases hstep
          have hne : k ≠ PyKey.str field := by
            intro he
            rw [← he] at h2
            exact h2 (hasKey_of_getK hP)
          rw [getK_setK_ne _ _ hne]
          exact hP
  | int n => cases hstep
  | null => cases hstep


/-- C3 counterexample: a flat skills list supplied under the exact key
`RequiredSkills` — a spelling absent from the JD synonym table — passes
through the mapping loop verbatim, so the output's `RequiredSkills` is the
flat list itself, not a technical/soft dict. -/
theorem required_skills_counterexample :
    (normalize_jd_fields [(.str "RequiredSkills", .list [.str "Python"])]).map
      (fun nd => getK nd (.str "RequiredSkills"))
      = some (some (.list [.str "Python"])) ∧
    isDictVal (.list [.str "Python"]) = false ∧
    isListVal (.list [.str "Python"]) = true :=
  ⟨rfl, rfl, rfl⟩

/-- C3 as amended: the two-bucket invariant holds whenever the skills value
arrives under a recognized synonym spelling with a list or dict value, or
not at all; the literal key `RequiredSkills` (not in the synonym table) and
scalar skills values are excluded, as the counterexample forces. -/
theorem required_skills_two_buckets :
    ∀ (d nd : PyDict), normalize_jd_fields d = some nd →
      (∀ p ∈ d, keyLowerIs p.1 "requiredskills" = false) →
      (∀ p ∈ d, jdKeyMapsToRS p.1 = true → isListVal p.2 = true ∨ isDictVal p.2 = true) →
      ∃ tech soft : List PyVal,
        getK nd (.str "RequiredSkills")
          = some (.dict [(.str "technical", .list tech), (.str "soft", .list soft)]) := by
  intro d nd h h1 h2
  unfold normalize_jd_fields at h
  rcases hf : d.foldlM jdTopStep [] with _ | nd1
  · rw [hf] at h; cases h
  rw [hf] at h
  have hmeta : jdMeta d (fillJd nd1) = some nd := h
  have hinv : getK nd1 (.str "RequiredSkills") = Option.none ∨
      ∃ tech soft : List PyVal, getK nd1 (.str "RequiredSkills")
        = some (.dict [(.str "technical", .list tech), (.str "soft", .list soft)]) := by
    refine foldlM_invariant _ (fun b => getK b (.str "RequiredSkills") = Option.none ∨
      ∃ tech soft : List PyVal, getK b (.str "RequiredSkills")
        = some (.dict [(.str "technical", .list tech), (.str "soft", .list soft)])) _ _ _
      hf (Or.inl rfl) ?_
    intro b b' a ha hstep hP
    obtain ⟨k0, v0⟩ := a
    cases k0 with
    | str field =>
        unfold jdTopStep at hstep
        dsimp only at hstep
        cases hmt : jdMapsTo field with
        | some nf =>
            rw [hmt] at hstep
            dsimp only at hstep
            by_cases hrs : (nf == "RequiredSkills") = true
            · rw [if_pos hrs] at hstep
              have hnf : nf = "RequiredSkills" := eq_of_beq hrs
              cases v0 with
              | dict b0 =>
                  have hstep' : (classifySkills (flattenSkillBuckets b0)).map
                      (setK b (.str nf)) = some b' := hstep
                  rcases hcl : classifySkills (flattenSkillBuckets b0) with _ | c
                  · rw [hcl] at hstep'; cases hstep'
                  · rw [hcl] at hstep'
                    have hb' : b' = setK b (.str nf) c := by
                      have h9 : some (setK b (.str nf) c) = some b' := hstep'
                      injection h9 with hh
                      exact hh.symm
                    obtain ⟨t, s, hc⟩ := classifySkills_shape hcl
                    right
                    rw [hb', hnf, hc]
                    exact ⟨t, s, getK_setK_self _ _ _⟩
              | list xs =>
                  have hstep' : (classifySkills xs).map (setK b (.str nf)) = some b' := hstep
                  rcases hcl : classifySkills xs with _ | c
                  · rw [hcl] at hstep'; cases hstep'
                  · rw [hcl] at hstep'
                    have hb' : b' = setK b (.str nf) c := by
                      have h9 : some (setK b (.str nf) c) = some b' := hstep'
                      injection h9 with hh
                      exact hh.symm
                    obtain ⟨t, s, hc⟩ := classifySkills_shape hcl
                    right
                    rw [hb', hnf, hc]
                    exact ⟨t, s, getK_setK_self _ _ _⟩
              | str s0 =>
                  exfalso
                  have := h2 _ ha (by simp [jdKeyMapsToRS, hmt, hnf])
                  simp [isListVal, isDictVal] at this
              | int n =>
                  exfalso
                  have := h2 _ ha (by simp [jdKeyMapsToRS, hmt, hnf])
                  simp [isListVal, isDictVal] at this
              | float q =>
                  exfalso
                  have := h2 _ ha (by simp [jdKeyMapsToRS, hmt, hnf])
                  simp [isListVal, isDictVal] at this
              | bool bb =>
                  exfalso
                  have := h2 _ ha (by simp [jdKeyMapsToRS, hmt, hnf])
                  simp [isListVal, isDictVal] at this
              | none =>
                  exfalso
                  have := h2 _ ha (by simp [jdKeyMapsToRS, hmt, hnf])
                  simp [isListVal, isDictVal] at this
            · rw [if_neg hrs] at hstep
              have hb' : b' = setK b (.str nf) v0 := by
                have : some (setK b (.str nf) v0) = some b' := hstep
                injection this with hh
                exact hh.symm
              have hne : PyKey.str "RequiredSkills" ≠ PyKey.str nf := by
                intro he
                injection he with he'
                exact hrs (by rw [← he']; rfl)
              rw [hb', getK_setK_ne _ _ hne]
              exact hP
        | none =>
            rw [hmt] at hstep
            dsimp only at hstep
            have hb' : b' = setK b (.str field) v0 := by
              have : some (setK b (.str field) v0) = some b' := hstep
              injection this with hh
              exact hh.symm
            have hne : PyKey.str "RequiredSkills" ≠ PyKey.str field := by
              intro he
              injection he with he'
              have := h1 _ ha
              rw [← he'] at this
              simp [keyLowerIs] at this
              exact this (by decide)
            rw [hb', getK_setK_ne _ _ hne]
            exact hP
    | int n => cases hstep
    | null => cases hstep
  rcases hinv with habs | ⟨t, s, hsome⟩
  · have hk : hasKey nd1 (.str "RequiredSkills") = false := by
      rw [hasKey_eq_isSome, habs]
      rfl
    have hfil : getK (fillJd nd1) (.str "RequiredSkills")
        = some (jdDefault "RequiredSkills") :=
      foldl_condSet_getK_absent jdStandardFields jdDefault nd1 "RequiredSkills"
        (by decide) hk
    exact ⟨[], [], jdMeta_presv hmeta hfil⟩
  · have hfil : getK (fillJd nd1) (.str "RequiredSkills")
        = some (.dict [(.str "technical", .list t), (.str "soft", .list s)]) :=
      foldl_condSet_presv jdStandardFields jdDefault hsome
    exact ⟨t, s, jdMeta_presv hmeta hfil⟩

/-- Witness for `required_skills_two_buckets` on a recognized synonym key
with a flat list value. -/
theorem required_skills_two_buckets_witness :
    ∃ nd, normalize_jd_fields
        [(.str "skills", .list [.str "Python", .str "Communication"])] = some nd ∧
      ∃ tech soft : List PyVal,
        getK nd (.str "RequiredSkills")
          = some (.dict [(.str "technical", .list tech), (.str "soft", .list soft)]) := by
  obtain ⟨nd, hnd⟩ : ∃ nd, normalize_jd_fields
      [(.str "skills", .list [.str "Python", .str "Communication"])] = some nd := ⟨_, rfl⟩
  exact ⟨nd, hnd, required_skills_two_buckets _ nd hnd (by decide) (by decide)⟩
theorem durDictStep_nonstr {st : PyDict × Bool × Bool} {k : PyKey} {v : PyVal}
    (hk : isStrKey k = false) :
    durDictStep st (k, v) = (setK st.1 k v, st.2.1, st.2.2) := by
  cases k with
  | str s => simp [isStrKey] at hk
  | int n => rfl
  | null => rfl

theorem durDictStep_presv {st : PyDict × Bool × Bool} {q : PyKey × PyVal}
    {k : PyKey} {w : PyVal} (hk : isStrKey k = false) (hq : q.1 ≠ k)
    (hP : getK st.1 k = some w) : getK (durDictStep st q).1 k = some w := by
  have hstrne : ∀ s : String, PyKey.str s ≠ k := by
    intro s he
    rw [← he] at hk
    simp [isStrKey] at hk
  obtain ⟨k0, v0⟩ := q
  cases k0 with
  | str s =>
      unfold durDictStep
      dsimp only
      by_cases c1 : strIn "start" (pyLower s) = true
      · rw [if_pos c1]
        dsimp only
        rw [getK_setK_ne _ _ (Ne.symm (hstrne "StartDate"))]
        exact hP
      · rw [if_neg c1]
        by_cases c2 : strIn "end" (pyLower s) = true
        · rw [if_pos c2]
          dsimp only
          rw [getK_setK_ne _ _ (Ne.symm (hstrne "EndDate"))]
          exact hP
        · rw [if_neg c2]
          dsimp only
          rw [getK_setK_ne _ _ (Ne.symm (hstrne s))]
          exact hP
  | int n =>
      rw [durDictStep_nonstr (by rfl)]
      dsimp only
      rw [getK_setK_ne _ _ (Ne.symm hq)]
      exact hP
  | null =>
      rw [durDictStep_nonstr (by rfl)]
      dsimp only
      rw [getK_setK_ne _ _ (Ne.symm hq)]
      exact hP

/-- A conditional `StartDate`/`EndDate` fill does not touch a non-string key. -/
theorem getK_fillIf {d : PyDict} {k : PyKey} {w : PyVal} {b : Bool} {s : String}
    {u : PyVal} (hk : isStrKey k = false) (h : getK d k = some w) :
    getK (if b then d else setK d (.str s) u) k = some w := by
  cases b with
  | false =>
      rw [if_neg (by simp)]
      have hne : k ≠ PyKey.str s := by
        intro he
        rw [he] at hk
        simp [isStrKey] at hk
      rw [getK_setK_ne _ _ hne]
      exact h
  | true => rwa [if_pos rfl]

/-- Inside a structured `Duration` dict, a non-string key that occurs once
is kept unmodified by `normalizeDurationDict` (the `except AttributeError`
of app.py lines 417-419). -/
theorem normalizeDurationDict_keeps_nonstr {dv : PyDict} {k : PyKey} {v : PyVal}
    (hk : isStrKey k = false) (hmem : (k, v) ∈ dv) (hnodup : (keysOf dv).Nodup) :
    ∃ nd, normalizeDurationDict dv = PyVal.dict nd ∧ getK nd k = some v := by
  obtain ⟨l1, l2, hsplit⟩ := List.append_of_mem hmem
  subst hsplit
  have hkeys : keysOf (l1 ++ (k, v) :: l2) = keysOf l1 ++ k :: keysOf l2 := by
    simp [keysOf]
  rw [hkeys] at hnodup
  have hk2 : k ∉ keysOf l2 := by
    have hsub : (k :: keysOf l2).Nodup :=
      (List.sublist_append_right (keysOf l1) (k :: keysOf l2)).nodup hnodup
    exact (List.nodup_cons.mp hsub).1
  have hmain : getK ((l1 ++ (k, v) :: l2).foldl durDictStep ([], false, false)).1 k
      = some v := by
    rw [List.foldl_append, List.foldl_cons]
    refine foldl_invariant durDictStep (fun st => getK st.1 k = some v) l2 _ ?_ ?_
    · rw [durDictStep_nonstr hk]
      exact getK_setK_self _ _ _
    · intro b a ha hb
      refine durDictStep_presv hk ?_ hb
      intro he
      exact hk2 (he ▸ List.mem_map_of_mem (·.1) ha)
  refine ⟨_, rfl, ?_⟩
  exact getK_fillIf hk (getK_fillIf hk hmain)

/-- On a record with some non-string top-level key, the top-level mapping
loop of `_normalize_resume_fields` raises (`field.lower()`, app.py line 370
with no `try`). -/
theorem resumeMapTop_nonstr_none {d : PyDict} {p : PyKey × PyVal} (hp : p ∈ d)
    (hpk : isStrKey p.1 = false) : resumeMapTop d = Option.none := by
  refine foldlM_none _ _ _ ⟨p, hp, fun b => ?_⟩
  obtain ⟨k, v⟩ := p
  cases k with
  | str s => simp [isStrKey] at hpk
  | int n => rfl
  | null => rfl

theorem normalize_resume_fields_nonstr_none {d : PyDict} {p : PyKey × PyVal}
    (hp : p ∈ d) (hpk : isStrKey p.1 = false) :
    normalize_resume_fields d = Option.none := by
  have h0 : resumeMapTop d = Option.none := resumeMapTop_nonstr_none hp hpk
  have hfull : resumeNormalizeFull d = Option.none := by
    unfold resumeNormalizeFull
    rw [h0]
    rfl
  unfold normalize_resume_fields
  rw [hfull]
  rfl

theorem normalize_jd_fields_nonstr_none {d : PyDict} {p : PyKey × PyVal}
    (hp : p ∈ d) (hpk : isStrKey p.1 = false) :
    normalize_jd_fields d = Option.none := by
  have h0 : d.foldlM jdTopStep [] = Option.none := by
    refine foldlM_none _ _ _ ⟨p, hp, fun b => ?_⟩
    obtain ⟨k, v⟩ := p
    cases k with
    | str s => simp [isStrKey] at hpk
    | int n => rfl
    | null => rfl
  unfold normalize_jd_fields
  rw [h0]
  rfl

theorem normalize_match_analysis_nonstr_none {d : PyDict} {p : PyKey × PyVal}
    (hp : p ∈ d) (hpk : isStrKey p.1 = false) :
    normalize_match_analysis d = Option.none := by
  have h0 : d.foldlM matchTopStep [] = Option.none := by
    refine foldlM_none _ _ _ ⟨p, hp, fun b => ?_⟩
    obtain ⟨k, v⟩ := p
    cases k with
    | str s => simp [isStrKey] at hpk
    | int n => rfl
    | null => rfl
  unfold normalize_match_analysis
  rw [h0]
  rfl

/-- **C9, counterexample.**  A non-string key at the *top level* of a record
is not kept: `field.lower()` (app.py line 370, no `try` around it) raises
`AttributeError` and the whole normalization pass fails, for all three
normalizers alike. -/
theorem nonstring_key_counterexample :
    normalize_resume_fields [(PyKey.int 1, PyVal.str "x")] = Option.none ∧
    normalize_jd_fields [(PyKey.int 1, PyVal.str "x")] = Option.none ∧
    normalize_match_analysis [(PyKey.int 1, PyVal.str "x")] = Option.none :=
  ⟨rfl, rfl, rfl⟩

/-- **C9 (amended).**  Graceful degradation on non-string keys holds only
inside a structured `Duration` mapping, where the `try/except
AttributeError` of app.py lines 407-419 keeps the pair unmodified; at the
top level of any of the three records a non-string key makes the whole
normalization pass raise (modeled as `none`). -/
theorem nonstring_key_handling
    {dv : PyDict} {k : PyKey} {v : PyVal}
    (hk : isStrKey k = false) (hmem : (k, v) ∈ dv) (hnodup : (keysOf dv).Nodup)
    {d : PyDict} {p : PyKey × PyVal} (hp : p ∈ d) (hpk : isStrKey p.1 = false) :
    (∃ nd, normalizeDurationDict dv = PyVal.dict nd ∧ getK nd k = some v) ∧
    normalize_resume_fields d = Option.none ∧
    normalize_jd_fields d = Option.none ∧
    normalize_match_analysis d = Option.none :=
  ⟨normalizeDurationDict_keeps_nonstr hk hmem hnodup,
   normalize_resume_fields_nonstr_none hp hpk,
   normalize_jd_fields_nonstr_none hp hpk,
   normalize_match_analysis_nonstr_none hp hpk⟩

/-- Witness for `nonstring_key_handling` at concrete inputs. -/
theorem nonstring_key_handling_witness :
    (∃ nd, normalizeDurationDict [(PyKey.int 3, PyVal.str "x")] = PyVal.dict nd ∧
      getK nd (PyKey.int 3) = some (PyVal.str "x")) ∧
    normalize_resume_fields [(PyKey.null, PyVal.str "y")] = Option.none ∧
    normalize_jd_fields [(PyKey.null, PyVal.str "y")] = Option.none ∧
    normalize_match_analysis [(PyKey.null, PyVal.str "y")] = Option.none :=
  @nonstring_key_handling [(PyKey.int 3, PyVal.str "x")] (PyKey.int 3)
    (PyVal.str "x") rfl (List.mem_singleton.mpr rfl) (by simp [keysOf])
    [(PyKey.null, PyVal.str "y")] (PyKey.null, PyVal.str "y")
    (List.mem_singleton.mpr rfl) rfl

/-- A fold in the `Option` monad succeeds when every step succeeds. -/
theorem foldlM_some {α β : Type} (f : β → α → Option β) (l : List α) (init : β)
    (h : ∀ b, ∀ a ∈ l, ∃ b', f b a = some b') :
    ∃ res, l.foldlM f init = some res := by
  induction l generalizing init with
  | nil => exact ⟨init, rfl⟩
  | cons a t ih =>
      obtain ⟨b1, hb1⟩ := h init a (List.mem_cons_self _ _)
      obtain ⟨res, hres⟩ := ih b1 (fun b x hx => h b x (List.mem_cons_of_mem _ hx))
      refine ⟨res, ?_⟩
      rw [show (a :: t).foldlM f init = f init a >>= fun b => t.foldlM f b by
        simp [List.foldlM], hb1]
      exact hres

/-- On all-string-key input the top-level resume mapping loop succeeds. -/
theorem resumeMapTop_some {d : PyDict} (hstr : ∀ p ∈ d, isStrKey p.1 = true) :
    ∃ nd, resumeMapTop d = some nd := by
  unfold resumeMapTop
  refine foldlM_some _ _ _ ?_
  intro b a ha
  have hk := hstr a ha
  obtain ⟨k, v⟩ := a
  cases k with
  | str s =>
      unfold resumeTopStep
      dsimp only
      cases hlk : lookupMap resumeFieldMappings (pyLower s) with
      | none => exact ⟨_, rfl⟩
      | some std => exact ⟨_, rfl⟩
  | int n => simp [isStrKey] at hk
  | null => simp [isStrKey] at hk

/-- Every key present after the top-level resume mapping loop is the mapped
name of some raw input key. -/
theorem resumeMapTop_keys {d nd : PyDict} (h : resumeMapTop d = some nd)
    {s : String} (hk : hasKey nd (.str s) = true) :
    ∃ p ∈ d, resumeMapsName p.1 = some s := by
  refine foldlM_invariant resumeTopStep
    (fun b => hasKey b (.str s) = true → ∃ p ∈ d, resumeMapsName p.1 = some s)
    d [] nd h (fun hh => by simp [hasKey] at hh) ?_ hk
  intro b b' a ha hf hb hkb'
  obtain ⟨k, v⟩ := a
  cases k with
  | str fld =>
      unfold resumeTopStep at hf
      dsimp only at hf
      cases hlk : lookupMap resumeFieldMappings (pyLower fld) with
      | none =>
          rw [hlk] at hf
          injection hf with hf1
          rw [← hf1, hasKey_setK] at hkb'
          rcases Bool.or_eq_true _ _ |>.mp hkb' with hc | hc
          · exact hb hc
          · have he : PyKey.str fld = PyKey.str s := of_decide_eq_true hc
            injection he with he1
            subst he1
            exact ⟨(.str fld, v), ha, by simp [resumeMapsName, hlk]⟩
      | some std =>
          rw [hlk] at hf
          injection hf with hf1
          rw [← hf1, hasKey_setK] at hkb'
          rcases Bool.or_eq_true _ _ |>.mp hkb' with hc | hc
          · exact hb hc
          · have he : PyKey.str std = PyKey.str s := of_decide_eq_true hc
            injection he with he1
            subst he1
            exact ⟨(.str fld, v), ha, by simp [resumeMapsName, hlk]⟩
  | int n => exact absurd hf (by simp [resumeTopStep])
  | null => exact absurd hf (by simp [resumeTopStep])

/-- The experience pass is a no-op when no search key is present. -/
theorem resumeExpStage_noop {data nd : PyDict}
    (h : ∀ ek ∈ expSearchKeys, hasKey nd (.str ek) = false) :
    resumeExpStage data nd = some (data, nd) := by
  unfold resumeExpStage
  rw [List.find?_eq_none.mpr (fun a ha => by simp [h a ha])]

/-- The education pass is a no-op when no search key is present. -/
theorem resumeEduStage_noop {data nd : PyDict}
    (h : ∀ ek ∈ eduSearchKeys, hasKey nd (.str ek) = false) :
    resumeEduStage data nd = some (data, nd) := by
  unfold resumeEduStage
  rw [List.find?_eq_none.mpr (fun a ha => by simp [h a ha])]

/-- On all-string-key input the raw re-scan never raises. -/
theorem rescanRaw_some {data : PyDict} (hstr : ∀ p ∈ data, isStrKey p.1 = true)
    (field : String) : ∃ r, rescanRaw data field = some r := by
  unfold rescanRaw
  refine foldlM_some _ _ _ ?_
  intro b a ha
  have hk := hstr a ha
  obtain ⟨k, v⟩ := a
  cases k with
  | str s =>
      cases b with
      | some x => exact ⟨some x, rfl⟩
      | none =>
          dsimp only
          by_cases hc : lookupMap resumeFieldMappings (pyLower s) = some field
          · rw [if_pos hc]
            exact ⟨some v, rfl⟩
          · rw [if_neg hc]
            exact ⟨Option.none, rfl⟩
  | int n => simp [isStrKey] at hk
  | null => simp [isStrKey] at hk

/-- On all-string-key input the standard-field fill loop succeeds. -/
theorem fillResume_some {data nd : PyDict}
    (hstr : ∀ p ∈ data, isStrKey p.1 = true) :
    ∃ ndf, fillResume data nd = some ndf := by
  unfold fillResume
  refine foldlM_some _ _ _ ?_
  intro b f hf
  unfold fillResumeStep
  by_cases hb : hasKey b (.str f) = true
  · rw [if_pos hb]
    exact ⟨b, rfl⟩
  · rw [if_neg hb]
    obtain ⟨r, hr⟩ := rescanRaw_some hstr f
    rw [hr]
    cases r with
    | some v => exact ⟨_, rfl⟩
    | none => exact ⟨_, rfl⟩

/-- **C8, counterexample.**  `_normalize_resume_fields` rewrites the
caller's experience list in place (app.py line 446): after the call on
`\x7b"Experience": [\x7b"company": "X"\x7d]\x7d` the input dict holds the
normalized entry `\x7b"CompanyName": "X"\x7d`, a different object than
before the call. -/
theorem input_mutation_counterexample :
    mutatedInputResume
        [(.str "Experience", .list [.dict [(.str "company", .str "X")]])]
      = some [(.str "Experience", .list [.dict [(.str "CompanyName", .str "X")]])] ∧
    PyVal.dict [(.str "company", .str "X")]
      ≠ PyVal.dict [(.str "CompanyName", .str "X")] :=
  ⟨rfl, ne_of_repr (by decide)⟩

/-- **C8 (amended).**  `_normalize_resume_fields` does mutate its input
whenever an experience or education list is present (the per-entry
normalization is written back through the shared list reference, app.py
lines 446 and 475).  A sufficient condition for the input to come back
unchanged: every key is a string and no key maps to one of the
experience/education search names.  (Not necessary: e.g. a non-list value
under a mapped key also escapes the write-back, line 387.) -/
theorem no_input_mutation {d : PyDict}
    (hstr : d.all (fun p => isStrKey p.1) = true)
    (hno : d.all (fun p => (expSearchKeys ++ eduSearchKeys).all
        (fun ek => !(resumeMapsName p.1 == some ek))) = true) :
    mutatedInputResume d = some d := by
  have hstr' : ∀ p ∈ d, isStrKey p.1 = true := fun p hp =>
    List.all_eq_true.mp hstr p hp
  have hno' : ∀ p ∈ d, ∀ ek ∈ expSearchKeys ++ eduSearchKeys,
      resumeMapsName p.1 ≠ some ek := by
    intro p hp ek hek he
    have h1 := List.all_eq_true.mp (List.all_eq_true.mp hno p hp) ek hek
    rw [he] at h1
    simp at h1
  obtain ⟨nd, hnd⟩ := resumeMapTop_some hstr'
  have hexp : ∀ ek ∈ expSearchKeys, hasKey nd (.str ek) = false := by
    intro ek hek
    cases hh : hasKey nd (.str ek)
    · rfl
    · obtain ⟨p, hp, hm⟩ := resumeMapTop_keys hnd hh
      exact absurd hm (hno' p hp ek (List.mem_append_left _ hek))
  have hedu : ∀ ek ∈ eduSearchKeys, hasKey nd (.str ek) = false := by
    intro ek hek
    cases hh : hasKey nd (.str ek)
    · rfl
    · obtain ⟨p, hp, hm⟩ := resumeMapTop_keys hnd hh
      exact absurd hm (hno' p hp ek (List.mem_append_right _ hek))
  have hexps : resumeExpStage d nd = some (d, nd) := resumeExpStage_noop hexp
  have hedus : resumeEduStage d nd = some (d, nd) := resumeEduStage_noop hedu
  obtain ⟨nd', hnd'⟩ : ∃ x, fillResume d nd = some x := fillResume_some hstr'
  have hfull : resumeNormalizeFull d = some (resumeMeta d nd', d) := by
    unfold resumeNormalizeFull
    rw [hnd]
    show resumeExpStage d nd >>= _ = _
    rw [hexps]
    show resumeEduStage d nd >>= _ = _
    rw [hedus]
    show fillResume d nd >>= _ = _
    rw [hnd']
    rfl
  unfold mutatedInputResume
  rw [hfull]
  rfl

/-- Witness for `no_input_mutation` at a concrete input. -/
theorem no_input_mutation_witness :
    mutatedInputResume [(.str "Name", .str "John")]
      = some [(.str "Name", .str "John")] :=
  no_input_mutation (by rfl) (by rfl)

theorem normalizeExpEntry_toVal (e : NormExp) :
    normalizeExpEntry (NormExp.toVal e) = some (NormExp.toVal e) := rfl

theorem normalizeEduEntry_toVal (e : NormEdu) :
    normalizeEduEntry (NormEdu.toVal e) = some (NormEdu.toVal e) := rfl

theorem normalizeCompanyEntry_toVal (c : NormCompany) :
    normalizeCompanyEntry (NormCompany.toVal c) = some (NormCompany.toVal c) := rfl

theorem mapM_normalizeExpEntry (l : List NormExp) :
    (l.map NormExp.toVal).mapM normalizeExpEntry = some (l.map NormExp.toVal) := by
  induction l with
  | nil => rfl
  | cons e t ih =>
      rw [List.map_cons, List.mapM_cons, normalizeExpEntry_toVal e, ih]
      rfl

theorem mapM_normalizeEduEntry (l : List NormEdu) :
    (l.map NormEdu.toVal).mapM normalizeEduEntry = some (l.map NormEdu.toVal) := by
  induction l with
  | nil => rfl
  | cons e t ih =>
      rw [List.map_cons, List.mapM_cons, normalizeEduEntry_toVal e, ih]
      rfl

theorem mapM_normalizeCompanyEntry (l : List NormCompany) :
    (l.map NormCompany.toVal).mapM normalizeCompanyEntry
      = some (l.map NormCompany.toVal) := by
  induction l with
  | nil => rfl
  | cons e t ih =>
      rw [List.map_cons, List.mapM_cons, normalizeCompanyEntry_toVal e, ih]
      rfl

/-- Writing back a value that is already the key's binding changes nothing. -/
theorem setK_getK_same {d : PyDict} {k : PyKey} {v : PyVal}
    (h : getK d k = some v) : setK d k v = d := by
  induction d with
  | nil => simp [getK] at h
  | cons p t ih =>
      by_cases hp : p.1 = k
      · have hv : p.2 = v := by
          unfold getK at h
          rw [List.find?_cons_of_pos _ (by simp [hp])] at h
          simpa using h
        subst hv
        unfold setK
        rw [if_pos hp, ← hp]
      · unfold setK
        rw [if_neg hp]
        unfold getK at h
        rw [List.find?_cons_of_neg _ (by simp [hp])] at h
        rw [ih h]

/-- The numeric-rating stage leaves an `int`/`float` rating alone. -/
theorem coerceAIRatingStage_intfloat {nd : PyDict}
    (h : isIntFloat (getKD nd (.str "AIRating") .none) = true) :
    coerceAIRatingStage nd = nd := by
  unfold coerceAIRatingStage
  rw [if_neg (fun hc => hc.2 h)]

/-- The shortlist canonicalization is the identity on its own outputs. -/
theorem sbsStage_fix {nd : PyDict} {v : PyVal}
    (hhas : hasKey nd (.str "ShouldBeShortlisted") = true)
    (hget : getK nd (.str "ShouldBeShortlisted") = some v)
    (h1 : pyLower (pyStr v) ∈ sbsTruthyTokens → v = .str "Yes")
    (h2 : pyLower (pyStr v) ∈ sbsFalsyTokens → v = .str "No") :
    sbsStage nd = nd := by
  unfold sbsStage
  rw [if_pos hhas]
  have hg : getKD nd (.str "ShouldBeShortlisted") .none = v := by
    unfold getKD
    rw [hget]
    rfl
  rw [hg]
  unfold sbsApply
  by_cases c1 : pyLower (pyStr v) ∈ sbsTruthyTokens
  · rw [if_pos c1]
    exact setK_getK_same (h1 c1 ▸ hget)
  · rw [if_neg c1]
    by_cases c2 : pyLower (pyStr v) ∈ sbsFalsyTokens
    · rw [if_pos c2]
      exact setK_getK_same (h2 c2 ▸ hget)
    · rw [if_neg c2]

theorem opt_bind_congr {α β : Type} {o : Option α} {a : α} {f : α → Option β}
    (h : o = some a) : o >>= f = f a := by
  rw [h]
  rfl

theorem foldl_skip_all {α β : Type} (g : β → α → β) (l : List α) (b : β)
    (h : ∀ a ∈ l, g b a = b) : l.foldl g b = b := by
  induction l with
  | nil => rfl
  | cons a t ih =>
      rw [List.foldl_cons, h a (List.mem_cons_self _ _)]
      exact ih (fun x hx => h x (List.mem_cons_of_mem _ hx))

theorem foldlM_skip_all {α β : Type} (f : β → α → Option β) (l : List α) (b : β)
    (h : ∀ a ∈ l, f b a = some b) : l.foldlM f b = some b := by
  induction l with
  | nil => rfl
  | cons a t ih =>
      rw [show (a :: t).foldlM f b = f b a >>= fun x => t.foldlM f x by
        simp [List.foldlM], h a (List.mem_cons_self _ _)]
      exact ih (fun x hx => h x (List.mem_cons_of_mem _ hx))

/-- **C5.**  Idempotence: on an already-normalized record of any of the
three entity types (all keys canonical, no synonym keys, all standard
fields present, the rating already numeric and the shortlist value already
canonical — exactly the shape the normalizers emit), running the
corresponding normalizer again returns the same record unchanged. -/
theorem normalization_idempotent (r : NormResume) (j : NormJD) (m : NormMatch)
    (hR : isIntFloat m.aiRating = true)
    (h1 : pyLower (pyStr m.sbs) ∈ sbsTruthyTokens → m.sbs = PyVal.str "Yes")
    (h2 : pyLower (pyStr m.sbs) ∈ sbsFalsyTokens → m.sbs = PyVal.str "No") :
    normalize_resume_fields (NormResume.toDict r) = some (NormResume.toDict r) ∧
    normalize_jd_fields (NormJD.toDict j) = some (NormJD.toDict j) ∧
    normalize_match_analysis (NormMatch.toDict m) = some (NormMatch.toDict m) := by
  refine ⟨?_, ?_, ?_⟩
  · have hmt : resumeMapTop (NormResume.toDict r) = some (NormResume.toDict r) := rfl
    have hexpS : resumeExpStage (NormResume.toDict r) (NormResume.toDict r)
        = some (NormResume.toDict r, NormResume.toDict r) := by
      show (r.exps.map NormExp.toVal).mapM normalizeExpEntry >>= _
          = some (NormResume.toDict r, NormResume.toDict r)
      refine (opt_bind_congr (mapM_normalizeExpEntry r.exps)).trans ?_
      rfl
    have heduS : resumeEduStage (NormResume.toDict r) (NormResume.toDict r)
        = some (NormResume.toDict r, NormResume.toDict r) := by
      show (r.edus.map NormEdu.toVal).mapM normalizeEduEntry >>= _
          = some (NormResume.toDict r, NormResume.toDict r)
      refine (opt_bind_congr (mapM_normalizeEduEntry r.edus)).trans ?_
      rfl
    have hfillR : fillResume (NormResume.toDict r) (NormResume.toDict r)
        = some (NormResume.toDict r) := rfl
    have hmetaR : resumeMeta (NormResume.toDict r) (NormResume.toDict r)
        = NormResume.toDict r := rfl
    have hfull : resumeNormalizeFull (NormResume.toDict r)
        = some (NormResume.toDict r, NormResume.toDict r) := by
      unfold resumeNormalizeFull
      refine (opt_bind_congr hmt).trans ?_
      show resumeExpStage (NormResume.toDict r) (NormResume.toDict r) >>= _
          = some (NormResume.toDict r, NormResume.toDict r)
      refine (opt_bind_congr hexpS).trans ?_
      show resumeEduStage (NormResume.toDict r) (NormResume.toDict r) >>= _
          = some (NormResume.toDict r, NormResume.toDict r)
      refine (opt_bind_congr heduS).trans ?_
      show fillResume (NormResume.toDict r) (NormResume.toDict r) >>= _
          = some (NormResume.toDict r, NormResume.toDict r)
      refine (opt_bind_congr hfillR).trans ?_
      show some (resumeMeta (NormResume.toDict r) (NormResume.toDict r),
          NormResume.toDict r)
          = some (NormResume.toDict r, NormResume.toDict r)
      rw [hmetaR]
    unfold normalize_resume_fields
    rw [hfull]
    rfl
  · have ht : (NormJD.toDict j).foldlM jdTopStep [] = some (NormJD.toDict j) := rfl
    have hf : fillJd (NormJD.toDict j) = NormJD.toDict j := by
      unfold fillJd
      refine foldl_skip_all _ _ _ ?_
      intro f hf
      fin_cases hf <;> rfl
    have hm : jdMeta (NormJD.toDict j) (NormJD.toDict j) = some (NormJD.toDict j) := by
      unfold jdMeta
      refine foldlM_skip_all _ _ _ ?_
      intro a ha
      fin_cases ha <;> rfl
    unfold normalize_jd_fields
    refine (opt_bind_congr ht).trans ?_
    show jdMeta (NormJD.toDict j) (fillJd (NormJD.toDict j)) = some (NormJD.toDict j)
    exact (congrArg (jdMeta (NormJD.toDict j)) hf).trans hm
  · have ht : (NormMatch.toDict m).foldlM matchTopStep []
        = some (NormMatch.toDict m) := rfl
    have hcs : matchCompanyStage (NormMatch.toDict m) = some (NormMatch.toDict m) := by
      show (m.companies.map NormCompany.toVal).mapM normalizeCompanyEntry >>= _
          = some (NormMatch.toDict m)
      refine (opt_bind_congr (mapM_normalizeCompanyEntry m.companies)).trans ?_
      rfl
    have hes : matchEduStage (NormMatch.toDict m) = some (NormMatch.toDict m) := by
      unfold matchEduStage
      rw [if_pos (show hasKey (NormMatch.toDict m) (.str "EducationAssessment") = true
            from rfl)]
      rw [show getK (NormMatch.toDict m) (.str "EducationAssessment")
          = some (.dict [(PyKey.str "UniversityAssessment", m.universityAssessment),
                         (PyKey.str "CourseRelevance", m.courseRelevance)]) from rfl]
      show ([(PyKey.str "UniversityAssessment", m.universityAssessment),
             (PyKey.str "CourseRelevance", m.courseRelevance)].foldlM
               eduAssessStep []).map _
          = some (NormMatch.toDict m)
      rw [show [(PyKey.str "UniversityAssessment", m.universityAssessment),
                (PyKey.str "CourseRelevance", m.courseRelevance)].foldlM
                  eduAssessStep []
          = some [(PyKey.str "UniversityAssessment", m.universityAssessment),
                  (PyKey.str "CourseRelevance", m.courseRelevance)] from rfl]
      rfl
    have hfm : fillMatch (NormMatch.toDict m) = NormMatch.toDict m := by
      unfold fillMatch
      refine foldl_skip_all _ _ _ ?_
      intro f hf
      fin_cases hf <;> rfl
    have hco : coerceAIRatingStage (NormMatch.toDict m) = NormMatch.toDict m :=
      coerceAIRatingStage_intfloat hR
    have hdl : delLegacyStage (NormMatch.toDict m) = NormMatch.toDict m := rfl
    have hmm : matchMeta (NormMatch.toDict m) (NormMatch.toDict m)
        = some (NormMatch.toDict m) := by
      unfold matchMeta
      refine foldlM_skip_all _ _ _ ?_
      intro a ha
      fin_cases ha <;> rfl
    have hsb : sbsStage (NormMatch.toDict m) = NormMatch.toDict m :=
      sbsStage_fix rfl rfl h1 h2
    unfold normalize_match_analysis
    refine (opt_bind_congr ht).trans ?_
    show matchCompanyStage (NormMatch.toDict m) >>= _ = some (NormMatch.toDict m)
    refine (opt_bind_congr hcs).trans ?_
    show matchEduStage (NormMatch.toDict m) >>= _ = some (NormMatch.toDict m)
    refine (opt_bind_congr hes).trans ?_
    show matchMeta (NormMatch.toDict m)
        (delLegacyStage (coerceAIRatingStage (fillMatch (NormMatch.toDict m)))) >>= _
        = some (NormMatch.toDict m)
    rw [hfm, hco, hdl]
    refine (opt_bind_congr hmm).trans ?_
    show some (sbsStage (NormMatch.toDict m)) = some (NormMatch.toDict m)
    rw [hsb]

/-- Witness for `normalization_idempotent` at concrete records. -/
theorem normalization_idempotent_witness :
    normalize_resume_fields (NormResume.toDict
        ⟨.str "Ada", .str "ada@x.io", .str "1", .list [], [], [], .str "ok"⟩)
      = some (NormResume.toDict
        ⟨.str "Ada", .str "ada@x.io", .str "1", .list [], [], [], .str "ok"⟩) ∧
    normalize_jd_fields (NormJD.toDict
        ⟨.str "Acme", .str "Dev", .str "NY", [], [], .str "5", .str "BS",
         .str "p", .str "b", .str "s", []⟩)
      = some (NormJD.toDict
        ⟨.str "Acme", .str "Dev", .str "NY", [], [], .str "5", .str "BS",
         .str "p", .str "b", .str "s", []⟩) ∧
    normalize_match_analysis (NormMatch.toDict
        ⟨.str "Dev", .int 8, .str "Yes", .str "m", .str "m", .str "s", [],
         .str "u", .str "c", [], .str "o", .str "Yes", .str "No", .str "No",
         .str "Pending", .str "Unknown"⟩)
      = some (NormMatch.toDict
        ⟨.str "Dev", .int 8, .str "Yes", .str "m", .str "m", .str "s", [],
         .str "u", .str "c", [], .str "o", .str "Yes", .str "No", .str "No",
         .str "Pending", .str "Unknown"⟩) :=
  normalization_idempotent
    ⟨.str "Ada", .str "ada@x.io", .str "1", .list [], [], [], .str "ok"⟩
    ⟨.str "Acme", .str "Dev", .str "NY", [], [], .str "5", .str "BS",
     .str "p", .str "b", .str "s", []⟩
    ⟨.str "Dev", .int 8, .str "Yes", .str "m", .str "m", .str "s", [],
     .str "u", .str "c", [], .str "o", .str "Yes", .str "No", .str "No",
     .str "Pending", .str "Unknown"⟩
    rfl (fun _ => rfl) (fun h => absurd h (by decide))

theorem mem_setK {d : PyDict} {k : PyKey} {v : PyVal} {q : PyKey × PyVal}
    (hq : q ∈ setK d k v) : q = (k, v) ∨ q ∈ d := by
  induction d with
  | nil => simpa [setK] using hq
  | cons p t ih =>
      unfold setK at hq
      by_cases hp : p.1 = k
      · rw [if_pos hp] at hq
        rcases List.mem_cons.mp hq with rfl | hq2
        · exact Or.inl rfl
        · exact Or.inr (List.mem_cons_of_mem _ hq2)
      · rw [if_neg hp] at hq
        rcases List.mem_cons.mp hq with rfl | hq2
        · exact Or.inr (List.mem_cons_self _ _)
        · rcases ih hq2 with h1 | h1
          · exact Or.inl h1
          · exact Or.inr (List.mem_cons_of_mem _ h1)

theorem getK_mem {d : PyDict} {k : PyKey} {v : PyVal} (h : getK d k = some v) :
    (k, v) ∈ d := by
  induction d with
  | nil => cases h
  | cons p t ih =>
      unfold getK at h
      by_cases hp : p.1 = k
      · rw [List.find?_cons_of_pos _ (by simp [hp])] at h
        simp only [Option.map_some'] at h
        have : (k, v) = p := by
          obtain ⟨p1, p2⟩ := p
          simp only at hp h
          injection h with hv
          rw [hp, ← hv]
        rw [this]
        exact List.mem_cons_self _ _
      · rw [List.find?_cons_of_neg _ (by simp [hp])] at h
        exact List.mem_cons_of_mem _ (ih h)

theorem mapM_some {α β : Type} (f : α → Option β) (l : List α)
    (h : ∀ x ∈ l, ∃ y, f x = some y) : ∃ ys, l.mapM f = some ys := by
  induction l with
  | nil => exact ⟨[], rfl⟩
  | cons a t ih =>
      obtain ⟨y, hy⟩ := h a (List.mem_cons_self _ _)
      obtain ⟨ys, hys⟩ := ih (fun x hx => h x (List.mem_cons_of_mem _ hx))
      refine ⟨y :: ys, ?_⟩
      rw [List.mapM_cons, hy, hys]
      rfl

theorem expEntryStep_some (nd : PyDict) {k : PyKey} (v : PyVal)
    (hk : isStrKey k = true) : ∃ nd', expEntryStep nd (k, v) = some nd' := by
  cases k with
  | str s =>
      unfold expEntryStep
      dsimp only
      repeat' split
      all_goals exact ⟨_, rfl⟩
  | int n => simp [isStrKey] at hk
  | null => simp [isStrKey] at hk

theorem normalizeExpEntry_some {x : PyVal} (hx : entryOK x = true) :
    ∃ y, normalizeExpEntry x = some y := by
  cases x with
  | dict e =>
      obtain ⟨nd, hnd⟩ := foldlM_some expEntryStep e []
        (fun b q hq => expEntryStep_some b q.2
          (List.all_eq_true.mp
            (show e.all (fun r => isStrKey r.1) = true from hx) q hq))
      refine ⟨.dict nd, ?_⟩
      show Option.map PyVal.dict (List.foldlM expEntryStep [] e) = some (PyVal.dict nd)
      rw [hnd]
      rfl
  | str s => simp [entryOK] at hx
  | int n => simp [entryOK] at hx
  | float q => simp [entryOK] at hx
  | bool b => simp [entryOK] at hx
  | none => simp [entryOK] at hx
  | list l => simp [entryOK] at hx

theorem eduEntryStep_some (nd : PyDict) {k : PyKey} (v : PyVal)
    (hk : isStrKey k = true) : ∃ nd', eduEntryStep nd (k, v) = some nd' := by
  cases k with
  | str s =>
      unfold eduEntryStep
      dsimp only
      repeat' split
      all_goals exact ⟨_, rfl⟩
  | int n => simp [isStrKey] at hk
  | null => simp [isStrKey] at hk

theorem normalizeEduEntry_some {x : PyVal} (hx : entryOK x = true) :
    ∃ y, normalizeEduEntry x = some y := by
  cases x with
  | dict e =>
      obtain ⟨nd, hnd⟩ := foldlM_some eduEntryStep e []
        (fun b q hq => eduEntryStep_some b q.2
          (List.all_eq_true.mp
            (show e.all (fun r => isStrKey r.1) = true from hx) q hq))
      refine ⟨.dict nd, ?_⟩
      show Option.map PyVal.dict (List.foldlM eduEntryStep [] e) = some (PyVal.dict nd)
      rw [hnd]
      rfl
  | str s => simp [entryOK] at hx
  | int n => simp [entryOK] at hx
  | float q => simp [entryOK] at hx
  | bool b => simp [entryOK] at hx
  | none => simp [entryOK] at hx
  | list l => simp [entryOK] at hx

theorem companyEntryStep_some (nd : PyDict) {k : PyKey} (v : PyVal)
    (hk : isStrKey k = true) : ∃ nd', companyEntryStep nd (k, v) = some nd' := by
  cases k with
  | str s =>
      unfold companyEntryStep
      dsimp only
      repeat' split
      all_goals exact ⟨_, rfl⟩
  | int n => simp [isStrKey] at hk
  | null => simp [isStrKey] at hk

theorem normalizeCompanyEntry_some {x : PyVal} (hx : entryOK x = true) :
    ∃ y, normalizeCompanyEntry x = some y := by
  cases x with
  | dict e =>
      obtain ⟨nd, hnd⟩ := foldlM_some companyEntryStep e []
        (fun b q hq => companyEntryStep_some b q.2
          (List.all_eq_true.mp
            (show e.all (fun r => isStrKey r.1) = true from hx) q hq))
      refine ⟨.dict nd, ?_⟩
      show Option.map PyVal.dict (List.foldlM companyEntryStep [] e) = some (PyVal.dict nd)
      rw [hnd]
      rfl
  | str s => simp [entryOK] at hx
  | int n => simp [entryOK] at hx
  | float q => simp [entryOK] at hx
  | bool b => simp [entryOK] at hx
  | none => simp [entryOK] at hx
  | list l => simp [entryOK] at hx

theorem eduAssessStep_some (nd : PyDict) {k : PyKey} (v : PyVal)
    (hk : isStrKey k = true) : ∃ nd', eduAssessStep nd (k, v) = some nd' := by
  cases k with
  | str s =>
      unfold eduAssessStep
      dsimp only
      repeat' split
      all_goals exact ⟨_, rfl⟩
  | int n => simp [isStrKey] at hk
  | null => simp [isStrKey] at hk

theorem classifySkills_some {xs : List PyVal}
    (hxs : xs.all isStrVal = true) : ∃ y, classifySkills xs = some y := by
  obtain ⟨r, hr⟩ := foldlM_some
    (fun (acc : List PyVal × List PyVal) sk =>
      match sk with
      | .str s =>
          if technicalIndicators.any (fun ind => strIn ind (pyLower s)) then
            some (acc.1 ++ [PyVal.str s], acc.2)
          else some (acc.1, acc.2 ++ [PyVal.str s])
      | _ => Option.none)
    xs ([], [])
    (by
      intro b x hx
      have hs := List.all_eq_true.mp hxs x hx
      cases x with
      | str s =>
          dsimp only
          split
          · exact ⟨_, rfl⟩
          · exact ⟨_, rfl⟩
      | int n => simp [isStrVal] at hs
      | float q => simp [isStrVal] at hs
      | bool c => simp [isStrVal] at hs
      | none => simp [isStrVal] at hs
      | list l => simp [isStrVal] at hs
      | dict e => simp [isStrVal] at hs)
  exact ⟨_, (opt_bind_congr hr).trans rfl⟩

theorem resumeMapTop_entries {d nd : PyDict} (h : resumeMapTop d = some nd) :
    ∀ q ∈ nd, ∃ p ∈ d, ∃ s, q.1 = .str s ∧ resumeMapsName p.1 = some s ∧
      q.2 = p.2 := by
  refine foldlM_invariant _ (fun b => ∀ q ∈ b, ∃ p ∈ d, ∃ s,
      q.1 = .str s ∧ resumeMapsName p.1 = some s ∧ q.2 = p.2) _ _ _ h ?_ ?_
  · intro q hq
    cases hq
  · intro b b' a ha hstep hP q hq
    obtain ⟨k, v⟩ := a
    cases k with
    | str s =>
        unfold resumeTopStep at hstep
        dsimp only at hstep
        cases hlk : lookupMap resumeFieldMappings (pyLower s) with
        | some std =>
            rw [hlk] at hstep
            injection hstep with hb'
            rcases mem_setK (hb'.symm ▸ hq) with rfl | hq2
            · exact ⟨(.str s, v), ha, std, rfl, by simp [resumeMapsName, hlk], rfl⟩
            · exact hP q hq2
        | none =>
            rw [hlk] at hstep
            injection hstep with hb'
            rcases mem_setK (hb'.symm ▸ hq) with rfl | hq2
            · exact ⟨(.str s, v), ha, s, rfl, by simp [resumeMapsName, hlk], rfl⟩
            · exact hP q hq2
    | int n => cases hstep
    | null => cases hstep

theorem map_float_shape {o : Option Rat} {y : PyVal}
    (h : o.map PyVal.float = some y) : ∃ q, y = PyVal.float q := by
  cases o with
  | none => cases h
  | some q =>
      injection h with h1
      exact ⟨q, h1.symm⟩

theorem ratingCoerceSide_shape {x y : PyVal} (h : ratingCoerceSide x = some y) :
    (∃ n, y = PyVal.int n) ∨ (∃ q, y = PyVal.float q) := by
  unfold ratingCoerceSide at h
  cases x with
  | none =>
      injection h with h1
      exact Or.inl ⟨0, h1.symm⟩
  | str s => exact Or.inr (map_float_shape h)
  | int n => exact Or.inr (map_float_shape h)
  | float q => exact Or.inr (map_float_shape h)
  | bool c => exact Or.inr (map_float_shape h)
  | list l => exact Or.inr (map_float_shape h)
  | dict e => exact Or.inr (map_float_shape h)

theorem mergeAIRating_shape {e v w : PyVal} (h : mergeAIRating e v = some w) :
    (∃ n, w = PyVal.int n) ∨ (∃ q, w = PyVal.float q) := by
  unfold mergeAIRating at h
  cases ha : ratingCoerceSide e with
  | none => rw [ha] at h; cases h
  | some a =>
      cases hb : ratingCoerceSide v with
      | none => rw [ha, hb] at h; cases h
      | some b =>
          rw [ha, hb] at h
          injection h with hw
          by_cases hc : numQ a < numQ b
          · rw [if_pos hc] at hw
            exact hw ▸ ratingCoerceSide_shape hb
          · rw [if_neg hc] at hw
            exact hw ▸ ratingCoerceSide_shape ha

theorem matchTopStep_some (nd : PyDict) {k : PyKey} (v : PyVal)
    (hk : isStrKey k = true) : ∃ nd', matchTopStep nd (k, v) = some nd' := by
  cases k with
  | str s =>
      unfold matchTopStep
      dsimp only
      repeat' split
      all_goals exact ⟨_, rfl⟩
  | int n => simp [isStrKey] at hk
  | null => simp [isStrKey] at hk

theorem matchTop_entries {d nd : PyDict}
    (h : d.foldlM matchTopStep [] = some nd) :
    ∀ q ∈ nd, ((∃ xs, q.2 = PyVal.list xs) ∨ (∃ es, q.2 = PyVal.dict es)) →
      ∃ p ∈ d, ∃ s, q.1 = .str s ∧ matchMapsName p.1 = some s ∧ q.2 = p.2 := by
  refine foldlM_invariant _ (fun b => ∀ q ∈ b,
      ((∃ xs, q.2 = PyVal.list xs) ∨ (∃ es, q.2 = PyVal.dict es)) →
      ∃ p ∈ d, ∃ s, q.1 = .str s ∧ matchMapsName p.1 = some s ∧ q.2 = p.2)
    _ _ _ h ?_ ?_
  · intro q hq
    cases hq
  · intro b b' a ha hstep hP q hq hshape
    obtain ⟨k, v⟩ := a
    cases k with
    | str s =>
        unfold matchTopStep at hstep
        dsimp only at hstep
        cases hlk : matchMapsTo s with
        | some nf =>
            rw [hlk] at hstep
            dsimp only at hstep
            by_cases hcond : (nf == "AIRating") = true ∧
                hasKey b (.str "AIRating") = true
            · rw [if_pos hcond] at hstep
              cases hmg : mergeAIRating (getKD b (.str "AIRating") .none) v with
              | some merged =>
                  rw [hmg] at hstep
                  injection hstep with hb'
                  rcases mem_setK (hb'.symm ▸ hq) with rfl | hq2
                  · rcases mergeAIRating_shape hmg with ⟨n, hn⟩ | ⟨qq, hqq⟩
                    · rcases hshape with ⟨xs, hxs⟩ | ⟨es, hes⟩
                      · rw [hn] at hxs; cases hxs
                      · rw [hn] at hes; cases hes
                    · rcases hshape with ⟨xs, hxs⟩ | ⟨es, hes⟩
                      · rw [hqq] at hxs; cases hxs
                      · rw [hqq] at hes; cases hes
                  · exact hP q hq2 hshape
              | none =>
                  rw [hmg] at hstep
                  injection hstep with hb'
                  exact hP q (hb'.symm ▸ hq) hshape
            · rw [if_neg hcond] at hstep
              injection hstep with hb'
              rcases mem_setK (hb'.symm ▸ hq) with rfl | hq2
              · exact ⟨(.str s, v), ha, nf, rfl, by simp [matchMapsName, hlk], rfl⟩
              · exact hP q hq2 hshape
        | none =>
            rw [hlk] at hstep
            dsimp only at hstep
            by_cases hleg : pyLower s ∈ (["matchscore", "overallrating"] : List String)
            · rw [if_pos hleg] at hstep
              injection hstep with hb'
              exact hP q (hb'.symm ▸ hq) hshape
            · rw [if_neg hleg] at hstep
              injection hstep with hb'
              rcases mem_setK (hb'.symm ▸ hq) with rfl | hq2
              · exact ⟨(.str s, v), ha, s, rfl, by simp [matchMapsName, hlk], rfl⟩
              · exact hP q hq2 hshape
    | int n => cases hstep
    | null => cases hstep

theorem jdTopStep_some (nd : PyDict) {k : PyKey} {v : PyVal}
    (hk : isStrKey k = true)
    (hs : jdSynName k = some "RequiredSkills" → skillsOK v = true) :
    ∃ nd', jdTopStep nd (k, v) = some nd' := by
  cases k with
  | str s =>
      unfold jdTopStep
      dsimp only
      cases hlk : jdMapsTo s with
      | none => exact ⟨_, rfl⟩
      | some nf =>
          dsimp only
          by_cases hnf : (nf == "RequiredSkills") = true
          · rw [if_pos hnf]
            have hnf' : nf = "RequiredSkills" := eq_of_beq hnf
            have hsv : skillsOK v = true := hs (by simp [jdSynName, hlk, hnf'])
            cases v with
            | dict b =>
                obtain ⟨y, hy⟩ := classifySkills_some
                  (show (flattenSkillBuckets b).all isStrVal = true from hsv)
                show ∃ q, Option.map (setK nd (PyKey.str nf))
                    (classifySkills (flattenSkillBuckets b)) = some q
                rw [hy]
                exact ⟨_, rfl⟩
            | list xs =>
                obtain ⟨y, hy⟩ := classifySkills_some
                  (show xs.all isStrVal = true from hsv)
                show ∃ q, Option.map (setK nd (PyKey.str nf)) (classifySkills xs)
                    = some q
                rw [hy]
                exact ⟨_, rfl⟩
            | str s2 => exact ⟨_, rfl⟩
            | int n => exact ⟨_, rfl⟩
            | float q => exact ⟨_, rfl⟩
            | bool c => exact ⟨_, rfl⟩
            | none => exact ⟨_, rfl⟩
          · rw [if_neg hnf]
            exact ⟨_, rfl⟩
  | int n => simp [isStrKey] at hk
  | null => simp [isStrKey] at hk

theorem updLastMapped_keys {data : PyDict} {ek : String} {v : PyVal}
    {p : PyKey × PyVal} (hp : p ∈ updLastMapped data ek v) :
    ∃ q ∈ data, p.1 = q.1 := by
  induction data with
  | nil => cases hp
  | cons kv t ih =>
      unfold updLastMapped at hp
      by_cases h1 : (t.any (fun kv2 => decide (resumeMapsName kv2.1 = some ek))) = true
      · rw [if_pos h1] at hp
        rcases List.mem_cons.mp hp with hp1 | hp2
        · exact ⟨kv, List.mem_cons_self _ _, by rw [hp1]⟩
        · obtain ⟨q, hq, hpq⟩ := ih hp2
          exact ⟨q, List.mem_cons_of_mem _ hq, hpq⟩
      · rw [if_neg h1] at hp
        by_cases h2 : resumeMapsName kv.1 = some ek
        · rw [if_pos h2] at hp
          rcases List.mem_cons.mp hp with hp1 | hp2
          · exact ⟨kv, List.mem_cons_self _ _, by rw [hp1]⟩
          · exact ⟨p, List.mem_cons_of_mem _ hp2, rfl⟩
        · rw [if_neg h2] at hp
          rcases List.mem_cons.mp hp with hp1 | hp2
          · exact ⟨kv, List.mem_cons_self _ _, by rw [hp1]⟩
          · obtain ⟨q, hq, hpq⟩ := ih hp2
            exact ⟨q, List.mem_cons_of_mem _ hq, hpq⟩

theorem resumeExpStage_some (data nd : PyDict)
    (hok : ∀ ek ∈ expSearchKeys, ∀ xs, getK nd (.str ek) = some (.list xs) →
      ∀ x ∈ xs, entryOK x = true) :
    ∃ res, resumeExpStage data nd = some res := by
  unfold resumeExpStage
  cases hfind : expSearchKeys.find? (fun k => hasKey nd (.str k)) with
  | none => exact ⟨_, rfl⟩
  | some ek =>
      dsimp only
      have hekmem : ek ∈ expSearchKeys := List.mem_of_find?_eq_some hfind
      cases hget : getK nd (.str ek) with
      | none => exact ⟨_, rfl⟩
      | some v =>
          cases v with
          | list exps =>
              obtain ⟨ys, hys⟩ := mapM_some normalizeExpEntry exps
                (fun x hx => normalizeExpEntry_some (hok ek hekmem exps hget x hx))
              exact ⟨_, (opt_bind_congr hys).trans rfl⟩
          | str s => exact ⟨_, rfl⟩
          | int n => exact ⟨_, rfl⟩
          | float q => exact ⟨_, rfl⟩
          | bool c => exact ⟨_, rfl⟩
          | none => exact ⟨_, rfl⟩
          | dict e => exact ⟨_, rfl⟩

theorem resumeExpStage_frame {data nd data' nd' : PyDict}
    (h : resumeExpStage data nd = some (data', nd')) {k : PyKey}
    (hk : ∀ ek ∈ expSearchKeys, k ≠ .str ek) (hkE : k ≠ .str "Experience") :
    getK nd' k = getK nd k := by
  unfold resumeExpStage at h
  cases hfind : expSearchKeys.find? (fun k => hasKey nd (.str k)) with
  | none =>
      rw [hfind] at h
      injection h with hp
      injection hp with h1 h2
      rw [← h2]
  | some ek =>
      rw [hfind] at h
      dsimp only at h
      have hekmem := List.mem_of_find?_eq_some hfind
      cases hget : getK nd (.str ek) with
      | none =>
          rw [hget] at h
          injection h with hp
          injection hp with h1 h2
          rw [← h2]
      | some v =>
          rw [hget] at h
          cases v with
          | list exps =>
              dsimp only at h
              cases hmapM : exps.mapM normalizeExpEntry with
              | none =>
                  rw [hmapM] at h
                  simp at h
              | some ys =>
                  rw [opt_bind_congr hmapM] at h
                  injection h with hp
                  injection hp with h1 h2
                  rw [← h2]
                  by_cases hek : (ek == "Experience") = true
                  · rw [if_pos hek]
                    rw [getK_setK_ne _ _ (hk ek hekmem)]
                  · rw [if_neg hek]
                    rw [getK_setK_ne _ _ hkE, getK_delK_ne _ (hk ek hekmem),
                        getK_setK_ne _ _ (hk ek hekmem)]
          | str s =>
              injection h with hp
              injection hp with h1 h2
              rw [← h2]
          | int n =>
              injection h with hp
              injection hp with h1 h2
              rw [← h2]
          | float q =>
              injection h with hp
              injection hp with h1 h2
              rw [← h2]
          | bool c =>
              injection h with hp
              injection hp with h1 h2
              rw [← h2]
          | none =>
              injection h with hp
              injection hp with h1 h2
              rw [← h2]
          | dict e =>
              injection h with hp
              injection hp with h1 h2
              rw [← h2]

theorem resumeEduStage_some (data nd : PyDict)
    (hok : ∀ ek ∈ eduSearchKeys, ∀ xs, getK nd (.str ek) = some (.list xs) →
      ∀ x ∈ xs, entryOK x = true) :
    ∃ res, resumeEduStage data nd = some res := by
  unfold resumeEduStage
  cases hfind : eduSearchKeys.find? (fun k => hasKey nd (.str k)) with
  | none => exact ⟨_, rfl⟩
  | some ek =>
      dsimp only
      have hekmem : ek ∈ eduSearchKeys := List.mem_of_find?_eq_some hfind
      cases hget : getK nd (.str ek) with
      | none => exact ⟨_, rfl⟩
      | some v =>
          cases v with
          | list edus =>
              obtain ⟨ys, hys⟩ := mapM_some normalizeEduEntry edus
                (fun x hx => normalizeEduEntry_some (hok ek hekmem edus hget x hx))
              exact ⟨_, (opt_bind_congr hys).trans rfl⟩
          | str s => exact ⟨_, rfl⟩
          | int n => exact ⟨_, rfl⟩
          | float q => exact ⟨_, rfl⟩
          | bool c => exact ⟨_, rfl⟩
          | none => exact ⟨_, rfl⟩
          | dict e => exact ⟨_, rfl⟩

theorem fillResumeStep_self {data nd nd' : PyDict} {g : String}
    (h : fillResumeStep data nd g = some nd') : hasKey nd' (.str g) = true := by
  unfold fillResumeStep at h
  by_cases hb : hasKey nd (.str g) = true
  · rw [if_pos hb] at h
    injection h with h1
    rw [← h1]
    exact hb
  · rw [if_neg hb] at h
    cases hr : rescanRaw data g with
    | none =>
        rw [hr] at h
        cases h
    | some r =>
        rw [opt_bind_congr hr] at h
        cases r with
        | some v =>
            injection h with h1
            rw [← h1, hasKey_setK]
            simp
        | none =>
            injection h with h1
            rw [← h1, hasKey_setK]
            simp

theorem fillResumeStep_mono {data nd nd' : PyDict} {g : String} {k : PyKey}
    (h : fillResumeStep data nd g = some nd') (hk : hasKey nd k = true) :
    hasKey nd' k = true := by
  unfold fillResumeStep at h
  by_cases hb : hasKey nd (.str g) = true
  · rw [if_pos hb] at h
    injection h with h1
    rw [← h1]
    exact hk
  · rw [if_neg hb] at h
    cases hr : rescanRaw data g with
    | none =>
        rw [hr] at h
        cases h
    | some r =>
        rw [opt_bind_congr hr] at h
        cases r with
        | some v =>
            injection h with h1
            rw [← h1, hasKey_setK, hk]
            rfl
        | none =>
            injection h with h1
            rw [← h1, hasKey_setK, hk]
            rfl

theorem fillResume_fields_hasKey (data : PyDict) :
    ∀ (fields : List String) (nd nd' : PyDict),
      fields.foldlM (fillResumeStep data) nd = some nd' →
      ∀ f ∈ fields, hasKey nd' (.str f) = true := by
  intro fields
  induction fields with
  | nil =>
      intro nd nd' h f hf
      cases hf
  | cons g t ih =>
      intro nd nd' h f hf
      rw [show (g :: t).foldlM (fillResumeStep data) nd
          = fillResumeStep data nd g >>= fun b => t.foldlM (fillResumeStep data) b
          by simp [List.foldlM]] at h
      cases hs : fillResumeStep data nd g with
      | none =>
          rw [hs] at h
          cases h
      | some b1 =>
          rw [opt_bind_congr hs] at h
          rcases List.mem_cons.mp hf with rfl | hft
          · exact foldlM_invariant _ (fun b => hasKey b (.str f) = true) t b1 nd' h
              (fillResumeStep_self hs)
              (fun b b' a ha hstep hP => fillResumeStep_mono hstep hP)
          · exact ih b1 nd' h f hft

theorem resumeMeta_hasKey {d nd : PyDict} {k : PyKey} (h : hasKey nd k = true) :
    hasKey (resumeMeta d nd) k = true := by
  unfold resumeMeta
  refine foldl_invariant _ (fun b => hasKey b k = true) _ _ h ?_
  intro b a ha hb
  unfold resumeMetaStep
  split
  · exact hb
  · split
    · exact hb
    · rw [hasKey_setK, hb]
      rfl

theorem jdMeta_some {d : PyDict} (hstr : ∀ p ∈ d, isStrKey p.1 = true)
    (nd : PyDict) : ∃ nd', jdMeta d nd = some nd' := by
  unfold jdMeta
  refine foldlM_some _ _ _ ?_
  intro b a ha
  have hk := hstr a ha
  obtain ⟨k, v⟩ := a
  cases k with
  | str s =>
      unfold jdMetaStep
      dsimp only
      repeat' split
      all_goals exact ⟨_, rfl⟩
  | int n => simp [isStrKey] at hk
  | null => simp [isStrKey] at hk

theorem jdMeta_hasKey {d nd nd' : PyDict} (h : jdMeta d nd = some nd')
    {k : PyKey} (hk : hasKey nd k = true) : hasKey nd' k = true := by
  unfold jdMeta at h
  refine foldlM_invariant _ (fun b => hasKey b k = true) _ _ _ h hk ?_
  intro b b' a ha hstep hP
  obtain ⟨k0, v0⟩ := a
  cases k0 with
  | str s =>
      unfold jdMetaStep at hstep
      dsimp only at hstep
      split at hstep
      · injection hstep with h1
        rw [← h1]
        exact hP
      · split at hstep
        · injection hstep with h1
          rw [← h1]
          exact hP
        · injection hstep with h1
          rw [← h1, hasKey_setK, hP]
          rfl
  | int n => cases hstep
  | null => cases hstep

theorem matchCompanyStage_some (nd : PyDict)
    (hok : ∀ xs, getK nd (.str "CompanyAnalysis") = some (.list xs) →
      ∀ x ∈ xs, entryOK x = true) :
    ∃ nd', matchCompanyStage nd = some nd' := by
  unfold matchCompanyStage
  by_cases hc : hasKey nd (.str "CompanyAnalysis") = true
  · rw [if_pos hc]
    cases hg : getK nd (.str "CompanyAnalysis") with
    | none => exact ⟨_, rfl⟩
    | some v =>
        cases v with
        | list xs =>
            dsimp only
            obtain ⟨ys, hys⟩ := mapM_some normalizeCompanyEntry xs
              (fun x hx => normalizeCompanyEntry_some (hok xs hg x hx))
            exact ⟨_, (opt_bind_congr hys).trans rfl⟩
        | str s => exact ⟨_, rfl⟩
        | int n => exact ⟨_, rfl⟩
        | float q => exact ⟨_, rfl⟩
        | bool c => exact ⟨_, rfl⟩
        | none => exact ⟨_, rfl⟩
        | dict e => exact ⟨_, rfl⟩
  · rw [if_neg hc]
    exact ⟨_, rfl⟩

theorem matchEduStage_some (nd : PyDict)
    (hok : ∀ es, getK nd (.str "EducationAssessment") = some (.dict es) →
      ∀ q ∈ es, isStrKey q.1 = true) :
    ∃ nd', matchEduStage nd = some nd' := by
  unfold matchEduStage
  by_cases hc : hasKey nd (.str "EducationAssessment") = true
  · rw [if_pos hc]
    cases hg : getK nd (.str "EducationAssessment") with
    | none => exact ⟨_, rfl⟩
    | some v =>
        cases v with
        | dict es =>
            dsimp only
            obtain ⟨d2, hd2⟩ := foldlM_some eduAssessStep es []
              (fun b q hq => eduAssessStep_some b q.2 (hok es hg q hq))
            rw [hd2]
            exact ⟨_, rfl⟩
        | str s => exact ⟨_, rfl⟩
        | int n => exact ⟨_, rfl⟩
        | float q => exact ⟨_, rfl⟩
        | bool c => exact ⟨_, rfl⟩
        | none => exact ⟨_, rfl⟩
        | list l => exact ⟨_, rfl⟩
  · rw [if_neg hc]
    exact ⟨_, rfl⟩

theorem matchMeta_some {d : PyDict} (hstr : ∀ p ∈ d, isStrKey p.1 = true)
    (nd : PyDict) : ∃ nd', matchMeta d nd = some nd' := by
  unfold matchMeta
  refine foldlM_some _ _ _ ?_
  intro b a ha
  have hk := hstr a ha
  obtain ⟨k, v⟩ := a
  cases k with
  | str s =>
      unfold matchMetaStep
      dsimp only
      repeat' split
      all_goals exact ⟨_, rfl⟩
  | int n => simp [isStrKey] at hk
  | null => simp [isStrKey] at hk

theorem matchMeta_hasKey {d nd nd' : PyDict} (h : matchMeta d nd = some nd')
    {k : PyKey} (hk : hasKey nd k = true) : hasKey nd' k = true := by
  unfold matchMeta at h
  refine foldlM_invariant _ (fun b => hasKey b k = true) _ _ _ h hk ?_
  intro b b' a ha hstep hP
  obtain ⟨k0, v0⟩ := a
  cases k0 with
  | str s =>
      unfold matchMetaStep at hstep
      dsimp only at hstep
      split at hstep
      · injection hstep with h1
        rw [← h1]
        exact hP
      · split at hstep
        · injection hstep with h1
          rw [← h1]
          exact hP
        · split at hstep
          · injection hstep with h1
            rw [← h1]
            exact hP
          · injection hstep with h1
            rw [← h1, hasKey_setK, hP]
            rfl
  | int n => cases hstep
  | null => cases hstep

theorem coerceAIRatingStage_hasKey {nd : PyDict} {k : PyKey}
    (h : hasKey nd k = true) : hasKey (coerceAIRatingStage nd) k = true := by
  unfold coerceAIRatingStage
  split
  · rw [hasKey_setK, h]
    rfl
  · exact h

theorem hasKey_condDel {d : PyDict} {k kk : PyKey} (hne : k ≠ kk)
    (h : hasKey d k = true) :
    hasKey (if hasKey d kk then delK d kk else d) k = true := by
  split
  · rw [hasKey_delK, h]
    simp [hne]
  · exact h

theorem delLegacyStage_hasKey {nd : PyDict} {k : PyKey}
    (hk1 : k ≠ .str "MatchScore") (hk2 : k ≠ .str "OverallRating")
    (h : hasKey nd k = true) : hasKey (delLegacyStage nd) k = true :=
  hasKey_condDel hk2 (hasKey_condDel hk1 h)

theorem sbsStage_hasKey {nd : PyDict} {k : PyKey} (h : hasKey nd k = true) :
    hasKey (sbsStage nd) k = true := by
  unfold sbsStage sbsApply
  split
  · split
    · rw [hasKey_setK, h]
      rfl
    · split
      · rw [hasKey_setK, h]
        rfl
      · exact h
  · exact h

theorem matchCompanyStage_hasKey {nd nd' : PyDict}
    (h : matchCompanyStage nd = some nd') {k : PyKey} (hk : hasKey nd k = true) :
    hasKey nd' k = true := by
  unfold matchCompanyStage at h
  split at h
  · cases hg : getK nd (.str "CompanyAnalysis") with
    | none =>
        rw [hg] at h
        injection h with h1
        rw [← h1]
        exact hk
    | some v =>
        rw [hg] at h
        cases v with
        | list xs =>
            dsimp only at h
            cases hm : xs.mapM normalizeCompanyEntry with
            | none =>
                rw [hm] at h
                cases h
            | some ys =>
                rw [opt_bind_congr hm] at h
                injection h with h1
                rw [← h1, hasKey_setK, hk]
                rfl
        | str s => injection h with h1; rw [← h1]; exact hk
        | int n => injection h with h1; rw [← h1]; exact hk
        | float q => injection h with h1; rw [← h1]; exact hk
        | bool c => injection h with h1; rw [← h1]; exact hk
        | none => injection h with h1; rw [← h1]; exact hk
        | dict e => injection h with h1; rw [← h1]; exact hk
  · injection h with h1
    rw [← h1]
    exact hk

theorem matchEduStage_hasKey {nd nd' : PyDict}
    (h : matchEduStage nd = some nd') {k : PyKey} (hk : hasKey nd k = true) :
    hasKey nd' k = true := by
  unfold matchEduStage at h
  split at h
  · cases hg : getK nd (.str "EducationAssessment") with
    | none =>
        rw [hg] at h
        injection h with h1
        rw [← h1]
        exact hk
    | some v =>
        rw [hg] at h
        cases v with
        | dict es =>
            dsimp only at h
            cases hm : es.foldlM eduAssessStep [] with
            | none =>
                rw [hm] at h
                cases h
            | some d2 =>
                rw [hm] at h
                injection h with h1
                rw [← h1, hasKey_setK, hk]
                rfl
        | str s => injection h with h1; rw [← h1]; exact hk
        | int n => injection h with h1; rw [← h1]; exact hk
        | float q => injection h with h1; rw [← h1]; exact hk
        | bool c => injection h with h1; rw [← h1]; exact hk
        | none => injection h with h1; rw [← h1]; exact hk
        | list l => injection h with h1; rw [← h1]; exact hk
  · injection h with h1
    rw [← h1]
    exact hk

theorem resumeExpStage_data_keys {data nd data' nd' : PyDict}
    (h : resumeExpStage data nd = some (data', nd'))
    {p : PyKey × PyVal} (hp : p ∈ data') : ∃ q ∈ data, p.1 = q.1 := by
  unfold resumeExpStage at h
  cases hfind : expSearchKeys.find? (fun k => hasKey nd (.str k)) with
  | none =>
      rw [hfind] at h
      injection h with hpair
      injection hpair with h1 h2
      exact ⟨p, h1.symm ▸ hp, rfl⟩
  | some ek =>
      rw [hfind] at h
      dsimp only at h
      cases hget : getK nd (.str ek) with
      | none =>
          rw [hget] at h
          injection h with hpair
          injection hpair with h1 h2
          exact ⟨p, h1.symm ▸ hp, rfl⟩
      | some v =>
          rw [hget] at h
          cases v with
          | list exps =>
              dsimp only at h
              cases hm : exps.mapM normalizeExpEntry with
              | none =>
                  rw [hm] at h
                  simp at h
              | some ys =>
                  rw [opt_bind_congr hm] at h
                  injection h with hpair
                  injection hpair with h1 h2
                  exact updLastMapped_keys (h1.symm ▸ hp)
          | str s =>
              injection h with hpair
              injection hpair with h1 h2
              exact ⟨p, h1.symm ▸ hp, rfl⟩
          | int n =>
              injection h with hpair
              injection hpair with h1 h2
              exact ⟨p, h1.symm ▸ hp, rfl⟩
          | float q =>
              injection h with hpair
              injection hpair with h1 h2
              exact ⟨p, h1.symm ▸ hp, rfl⟩
          | bool c =>
              injection h with hpair
              injection hpair with h1 h2
              exact ⟨p, h1.symm ▸ hp, rfl⟩
          | none =>
              injection h with hpair
              injection hpair with h1 h2
              exact ⟨p, h1.symm ▸ hp, rfl⟩
          | dict e =>
              injection h with hpair
              injection hpair with h1 h2
              exact ⟨p, h1.symm ▸ hp, rfl⟩

theorem resumeEduStage_data_keys {data nd data' nd' : PyDict}
    (h : resumeEduStage data nd = some (data', nd'))
    {p : PyKey × PyVal} (hp : p ∈ data') : ∃ q ∈ data, p.1 = q.1 := by
  unfold resumeEduStage at h
  cases hfind : eduSearchKeys.find? (fun k => hasKey nd (.str k)) with
  | none =>
      rw [hfind] at h
      injection h with hpair
      injection hpair with h1 h2
      exact ⟨p, h1.symm ▸ hp, rfl⟩
  | some ek =>
      rw [hfind] at h
      dsimp only at h
      cases hget : getK nd (.str ek) with
      | none =>
          rw [hget] at h
          injection h with hpair
          injection hpair with h1 h2
          exact ⟨p, h1.symm ▸ hp, rfl⟩
      | some v =>
          rw [hget] at h
          cases v with
          | list edus =>
              dsimp only at h
              cases hm : edus.mapM normalizeEduEntry with
              | none =>
                  rw [hm] at h
                  simp at h
              | some ys =>
                  rw [opt_bind_congr hm] at h
                  injection h with hpair
                  injection hpair with h1 h2
                  exact updLastMapped_keys (h1.symm ▸ hp)
          | str s =>
              injection h with hpair
              injection hpair with h1 h2
              exact ⟨p, h1.symm ▸ hp, rfl⟩
          | int n =>
              injection h with hpair
              injection hpair with h1 h2
              exact ⟨p, h1.symm ▸ hp, rfl⟩
          | float q =>
              injection h with hpair
              injection hpair with h1 h2
              exact ⟨p, h1.symm ▸ hp, rfl⟩
          | bool c =>
              injection h with hpair
              injection hpair with h1 h2
              exact ⟨p, h1.symm ▸ hp, rfl⟩
          | none =>
              injection h with hpair
              injection hpair with h1 h2
              exact ⟨p, h1.symm ▸ hp, rfl⟩
          | dict e =>
              injection h with hpair
              injection hpair with h1 h2
              exact ⟨p, h1.symm ▸ hp, rfl⟩

/-- **C1, counterexample.**  Totality fails on ill-typed nested values: a
non-dict element of the experience list makes `exp.items()` raise (app.py
line 390), and a non-string skill item makes `skill.lower()` raise (app.py
line 823), so both calls fail instead of returning a full record. -/
theorem normalizer_totality_counterexample :
    normalize_resume_fields [(.str "Experience", .list [.str "x"])]
      = Option.none ∧
    normalize_jd_fields [(.str "skills", .list [.int 1])] = Option.none :=
  ⟨rfl, rfl⟩

/-- **C1 (amended).**  Under well-typedness of the input — string keys
throughout, entry lists of dicts with string keys under
experience/education-mapped keys (resp. `CompanyAnalysis` /
`EducationAssessment`-landing keys), string skill items under
`RequiredSkills` synonyms — each normalizer returns a record carrying
every standard field of its record type.  (Without these hypotheses the
normalizers can raise; see the counterexample.) -/
theorem normalizer_totality
    {dr : PyDict} (hr : dr.all resumeArgOK = true)
    {dj : PyDict} (hj : dj.all jdArgOK = true)
    {dm : PyDict} (hm : dm.all matchArgOK = true) :
    (∃ out, normalize_resume_fields dr = some out ∧
       ∀ f ∈ resumeStandardFields, hasKey out (.str f) = true) ∧
    (∃ out, normalize_jd_fields dj = some out ∧
       ∀ f ∈ jdStandardFields, hasKey out (.str f) = true) ∧
    (∃ out, normalize_match_analysis dm = some out ∧
       ∀ f ∈ matchStandardFields, hasKey out (.str f) = true) := by
  refine ⟨?_, ?_, ?_⟩
  · have hall : ∀ p ∈ dr, isStrKey p.1 = true ∧
        (((expSearchKeys ++ eduSearchKeys).all
            (fun ek => !(resumeMapsName p.1 == some ek)) = true)
          ∨ entryListOK p.2 = true) := by
      intro p hp
      have h0 := List.all_eq_true.mp hr p hp
      simpa only [resumeArgOK, Bool.and_eq_true, Bool.or_eq_true] using h0
    have hstrR : ∀ p ∈ dr, isStrKey p.1 = true := fun p hp => (hall p hp).1
    have hclause : ∀ p ∈ dr,
        ((expSearchKeys ++ eduSearchKeys).all
          (fun ek => !(resumeMapsName p.1 == some ek)) = true)
        ∨ entryListOK p.2 = true := fun p hp => (hall p hp).2
    obtain ⟨nd, hnd⟩ := resumeMapTop_some hstrR
    have hokBoth : ∀ ek ∈ expSearchKeys ++ eduSearchKeys, ∀ xs,
        getK nd (.str ek) = some (.list xs) → ∀ x ∈ xs, entryOK x = true := by
      intro ek hek xs hget x hx
      obtain ⟨p, hp, s, hs1, hs2, hs3⟩ := resumeMapTop_entries hnd _ (getK_mem hget)
      have h1 : ek = s := by
        injection hs1
      subst h1
      rcases hclause p hp with hAll | hOK
      · exfalso
        have hbad := List.all_eq_true.mp hAll ek hek
        rw [hs2] at hbad
        simp at hbad
      · rw [← hs3] at hOK
        exact List.all_eq_true.mp (show xs.all entryOK = true from hOK) x hx
    obtain ⟨⟨data2, nd2⟩, hexpS⟩ := resumeExpStage_some dr nd
      (fun ek hek => hokBoth ek (List.mem_append_left _ hek))
    have hdisj : ∀ ek ∈ eduSearchKeys, ek ∉ expSearchKeys ∧ ek ≠ "Experience" := by
      decide
    have hokD : ∀ ek ∈ eduSearchKeys, ∀ xs,
        getK nd2 (.str ek) = some (.list xs) → ∀ x ∈ xs, entryOK x = true := by
      intro ek hek xs hget
      have hfr : getK nd2 (.str ek) = getK nd (.str ek) := by
        refine resumeExpStage_frame hexpS ?_ ?_
        · intro ekE hekE he
          injection he with he1
          exact (hdisj ek hek).1 (he1.symm ▸ hekE)
        · intro he
          injection he with he1
          exact (hdisj ek hek).2 he1
      rw [hfr] at hget
      exact hokBoth ek (List.mem_append_right _ hek) xs hget
    obtain ⟨⟨data3, nd3⟩, heduS⟩ := resumeEduStage_some data2 nd2 hokD
    have hstr2 : ∀ p ∈ data2, isStrKey p.1 = true := by
      intro p hp
      obtain ⟨q, hq, hpq⟩ := resumeExpStage_data_keys hexpS hp
      rw [hpq]
      exact hstrR q hq
    have hstr3 : ∀ p ∈ data3, isStrKey p.1 = true := by
      intro p hp
      obtain ⟨q, hq, hpq⟩ := resumeEduStage_data_keys heduS hp
      rw [hpq]
      exact hstr2 q hq
    obtain ⟨nd4, hfill⟩ : ∃ x, fillResume data3 nd3 = some x := fillResume_some hstr3
    have hfull : resumeNormalizeFull dr = some (resumeMeta data3 nd4, data3) := by
      unfold resumeNormalizeFull
      refine (opt_bind_congr hnd).trans ?_
      show resumeExpStage dr nd >>= _ = some (resumeMeta data3 nd4, data3)
      refine (opt_bind_congr hexpS).trans ?_
      show resumeEduStage data2 nd2 >>= _ = some (resumeMeta data3 nd4, data3)
      refine (opt_bind_congr heduS).trans ?_
      show fillResume data3 nd3 >>= _ = some (resumeMeta data3 nd4, data3)
      refine (opt_bind_congr hfill).trans ?_
      rfl
    refine ⟨resumeMeta data3 nd4, ?_, ?_⟩
    · unfold normalize_resume_fields
      rw [hfull]
      rfl
    · intro f hf
      exact resumeMeta_hasKey
        (fillResume_fields_hasKey data3 resumeStandardFields nd3 nd4 hfill f hf)
  · have hallJ : ∀ p ∈ dj, isStrKey p.1 = true ∧
        ((!(jdSynName p.1 == some "RequiredSkills")) = true ∨
          skillsOK p.2 = true) := by
      intro p hp
      have h0 := List.all_eq_true.mp hj p hp
      simpa only [jdArgOK, Bool.and_eq_true, Bool.or_eq_true] using h0
    have hstrJ : ∀ p ∈ dj, isStrKey p.1 = true := fun p hp => (hallJ p hp).1
    obtain ⟨nd1, ht⟩ := foldlM_some jdTopStep dj []
      (fun b a ha => jdTopStep_some b (hstrJ a ha)
        (fun hsyn => by
          rcases (hallJ a ha).2 with hno | hok
          · rw [hsyn] at hno
            simp at hno
          · exact hok))
    obtain ⟨nd2, hm2⟩ := jdMeta_some hstrJ (fillJd nd1)
    refine ⟨nd2, ?_, ?_⟩
    · unfold normalize_jd_fields
      refine (opt_bind_congr ht).trans ?_
      show jdMeta dj (fillJd nd1) = some nd2
      exact hm2
    · intro f hf
      exact jdMeta_hasKey hm2
        (foldl_condSet_hasKey jdStandardFields jdDefault nd1 f hf)
  · have hallM : ∀ p ∈ dm,
        (isStrKey p.1 = true ∧
          ((!(matchMapsName p.1 == some "CompanyAnalysis")) = true ∨
            entryListOK p.2 = true)) ∧
        ((!(matchMapsName p.1 == some "EducationAssessment")) = true ∨
          dictKeysOK p.2 = true) := by
      intro p hp
      have h0 := List.all_eq_true.mp hm p hp
      simpa only [matchArgOK, Bool.and_eq_true, Bool.or_eq_true] using h0
    have hstrM : ∀ p ∈ dm, isStrKey p.1 = true := fun p hp => (hallM p hp).1.1
    obtain ⟨nd1, ht⟩ := foldlM_some matchTopStep dm []
      (fun b a ha => matchTopStep_some b a.2 (hstrM a ha))
    have hokC : ∀ xs, getK nd1 (.str "CompanyAnalysis") = some (.list xs) →
        ∀ x ∈ xs, entryOK x = true := by
      intro xs hget x hx
      obtain ⟨p, hp, s, hs1, hs2, hs3⟩ := matchTop_entries ht _ (getK_mem hget)
        (Or.inl ⟨xs, rfl⟩)
      have h1 : s = "CompanyAnalysis" := by
        injection hs1 with h2
        exact h2.symm
      subst h1
      rcases (hallM p hp).1.2 with hno | hok
      · rw [hs2] at hno
        simp at hno
      · rw [← hs3] at hok
        exact List.all_eq_true.mp (show xs.all entryOK = true from hok) x hx
    obtain ⟨nd2, hcs⟩ := matchCompanyStage_some nd1 hokC
    have hokD : ∀ es, getK nd2 (.str "EducationAssessment") = some (.dict es) →
        ∀ q ∈ es, isStrKey q.1 = true := by
      intro es hget q hq
      rw [matchCompanyStage_frame hcs (by decide)] at hget
      obtain ⟨p, hp, s, hs1, hs2, hs3⟩ := matchTop_entries ht _ (getK_mem hget)
        (Or.inr ⟨es, rfl⟩)
      have h1 : s = "EducationAssessment" := by
        injection hs1 with h2
        exact h2.symm
      subst h1
      rcases (hallM p hp).2 with hno | hok
      · rw [hs2] at hno
        simp at hno
      · rw [← hs3] at hok
        exact List.all_eq_true.mp
          (show es.all (fun r => isStrKey r.1) = true from hok) q hq
    obtain ⟨nd3, hes⟩ := matchEduStage_some nd2 hokD
    obtain ⟨nd5, hmm5⟩ :=
      matchMeta_some hstrM (delLegacyStage (coerceAIRatingStage (fillMatch nd3)))
    refine ⟨sbsStage nd5, ?_, ?_⟩
    · unfold normalize_match_analysis
      refine (opt_bind_congr ht).trans ?_
      show matchCompanyStage nd1 >>= _ = some (sbsStage nd5)
      refine (opt_bind_congr hcs).trans ?_
      show matchEduStage nd2 >>= _ = some (sbsStage nd5)
      refine (opt_bind_congr hes).trans ?_
      show matchMeta dm (delLegacyStage (coerceAIRatingStage (fillMatch nd3))) >>= _
          = some (sbsStage nd5)
      refine (opt_bind_congr hmm5).trans ?_
      rfl
    · intro f hf
      have hfMS : PyKey.str f ≠ .str "MatchScore" := by
        intro he
        injection he with he1
        rw [he1] at hf
        exact absurd hf (by decide)
      have hfOR : PyKey.str f ≠ .str "OverallRating" := by
        intro he
        injection he with he1
        rw [he1] at hf
        exact absurd hf (by decide)
      exact sbsStage_hasKey (matchMeta_hasKey hmm5
        (delLegacyStage_hasKey hfMS hfOR
          (coerceAIRatingStage_hasKey
            (foldl_condSet_hasKey matchStandardFields matchDefault nd3 f hf))))

/-- Witness for `normalizer_totality` at concrete inputs. -/
theorem normalizer_totality_witness :
    (∃ out, normalize_resume_fields
        [(.str "Experience", .list [.dict [(.str "company", .str "X")]])]
        = some out ∧
      ∀ f ∈ resumeStandardFields, hasKey out (.str f) = true) ∧
    (∃ out, normalize_jd_fields [(.str "skills", .list [.str "Python"])]
        = some out ∧
      ∀ f ∈ jdStandardFields, hasKey out (.str f) = true) ∧
    (∃ out, normalize_match_analysis [] = some out ∧
      ∀ f ∈ matchStandardFields, hasKey out (.str f) = true) :=
  @normalizer_totality
    [(.str "Experience", .list [.dict [(.str "company", .str "X")]])] rfl
    [(.str "skills", .list [.str "Python"])] rfl
    [] rfl

/-- The top-level match loop stores nothing under `AIRating` when no input
key is a rating synonym. -/
theorem matchTop_no_airating {d nd1 : PyDict}
    (h : d.foldlM matchTopStep [] = some nd1)
    (hno : ∀ p ∈ d, ∀ s, p.1 = PyKey.str s → matchMapsTo s ≠ some "AIRating") :
    hasKey nd1 (.str "AIRating") = false := by
  refine foldlM_invariant _ (fun b => hasKey b (.str "AIRating") = false)
    _ _ _ h rfl ?_
  intro b b' a ha hstep hP
  obtain ⟨k0, v0⟩ := a
  cases k0 with
  | str field =>
      have hfno : matchMapsTo field ≠ some "AIRating" := hno _ ha field rfl
      unfold matchTopStep at hstep
      dsimp only at hstep
      cases hlk : matchMapsTo field with
      | some nf =>
          rw [hlk] at hstep
          dsimp only at hstep
          have hnf : nf ≠ "AIRating" := by
            intro he
            exact hfno (by rw [hlk, he])
          by_cases hcond : (nf == "AIRating") = true ∧
              hasKey b (.str "AIRating") = true
          · exact absurd (eq_of_beq hcond.1) hnf
          · rw [if_neg hcond] at hstep
            injection hstep with hb'
            rw [← hb', hasKey_setK, hP]
            simp only [Bool.false_or, decide_eq_false_iff_not]
            intro he
            injection he with he1
            exact hnf he1
      | none =>
          rw [hlk] at hstep
          dsimp only at hstep
          by_cases hleg : pyLower field ∈ (["matchscore", "overallrating"] : List String)
          · rw [if_pos hleg] at hstep
            injection hstep with hb'
            rw [← hb']
            exact hP
          · rw [if_neg hleg] at hstep
            injection hstep with hb'
            rw [← hb', hasKey_setK, hP]
            simp only [Bool.false_or, decide_eq_false_iff_not]
            intro he
            injection he with he1
            rw [he1] at hlk
            exact absurd hlk (by decide)
  | int n => cases hstep
  | null => cases hstep

/-- The top-level match loop never stores a key whose lowering is a legacy
rating spelling. -/
theorem matchTop_legacy_false {d nd1 : PyDict}
    (h : d.foldlM matchTopStep [] = some nd1)
    {s : String} (hs : pyLower s ∈ (["matchscore", "overallrating"] : List String)) :
    hasKey nd1 (.str s) = false := by
  refine foldlM_invariant _ (fun b => hasKey b (.str s) = false) _ _ _ h rfl ?_
  intro b b' a ha hstep hP
  obtain ⟨k0, v0⟩ := a
  cases k0 with
  | str field =>
      unfold matchTopStep at hstep
      dsimp only at hstep
      cases hlk : matchMapsTo field with
      | some nf =>
          rw [hlk] at hstep
          dsimp only at hstep
          have hnfne : PyKey.str nf ≠ PyKey.str s := by
            intro he
            injection he with he1
            obtain ⟨p, hpmem, hp2⟩ := matchMapsTo_target_mem hlk
            have hall : ∀ p ∈ matchFieldMappings,
                pyLower p.2 ∉ (["matchscore", "overallrating"] : List String) := by
              decide
            exact hall p hpmem (by rw [hp2, he1]; exact hs)
          by_cases hcond : (nf == "AIRating") = true ∧
              hasKey b (.str "AIRating") = true
          · rw [if_pos hcond] at hstep
            cases hmg : mergeAIRating (getKD b (.str "AIRating") .none) v0 with
            | some merged =>
                rw [hmg] at hstep
                injection hstep with hb'
                rw [← hb', hasKey_setK, hP]
                simp only [Bool.false_or, decide_eq_false_iff_not]
                intro he
                injection he with he1
                rw [← he1] at hs
                exact absurd hs (by decide)
            | none =>
                rw [hmg] at hstep
                injection hstep with hb'
                rw [← hb']
                exact hP
          · rw [if_neg hcond] at hstep
            injection hstep with hb'
            rw [← hb', hasKey_setK, hP]
            simp only [Bool.false_or, decide_eq_false_iff_not]
            exact hnfne
      | none =>
          rw [hlk] at hstep
          dsimp only at hstep
          by_cases hleg : pyLower field ∈ (["matchscore", "overallrating"] : List String)
          · rw [if_pos hleg] at hstep
            injection hstep with hb'
            rw [← hb']
            exact hP
          · rw [if_neg hleg] at hstep
            injection hstep with hb'
            rw [← hb', hasKey_setK, hP]
            simp only [Bool.false_or, decide_eq_false_iff_not]
            intro he
            injection he with he1
            exact hleg (he1.symm ▸ hs)
  | int n => cases hstep
  | null => cases hstep

/-- The default fill introduces no key outside the checklist. -/
theorem foldl_condSet_hasKey_false (fields : List String) (dflt : String → PyVal)
    (nd : PyDict) (s : String) (hne : ∀ f ∈ fields, f ≠ s)
    (habs : hasKey nd (.str s) = false) :
    hasKey (fields.foldl
      (fun nd g => if hasKey nd (.str g) then nd else setK nd (.str g) (dflt g)) nd)
      (.str s) = false := by
  induction fields generalizing nd with
  | nil => exact habs
  | cons g t ih =>
      rw [List.foldl_cons]
      refine ih _ (fun f hf => hne f (List.mem_cons_of_mem _ hf)) ?_
      split
      · exact habs
      · rw [hasKey_setK, habs]
        simp only [Bool.false_or, decide_eq_false_iff_not]
        intro he
        injection he with he1
        exact hne g (List.mem_cons_self _ _) he1

/-- Legacy-key deletion never adds a key. -/
theorem delLegacyStage_hasKey_false {nd : PyDict} {k : PyKey}
    (h : hasKey nd k = false) : hasKey (delLegacyStage nd) k = false := by
  unfold delLegacyStage
  have h1 : ∀ d : PyDict, ∀ kk : PyKey, hasKey d k = false →
      hasKey (if hasKey d kk then delK d kk else d) k = false := by
    intro d kk hd
    split
    · rw [hasKey_delK, hd]
      rfl
    · exact hd
  exact h1 _ _ (h1 _ _ h)

/-- The metadata pass never stores a key whose lowering is a legacy rating
spelling (it skips them explicitly, app.py line 1319). -/
theorem matchMeta_legacy_false {d nd nd' : PyDict} (h : matchMeta d nd = some nd')
    {s : String} (hs : pyLower s ∈ (["matchscore", "overallrating"] : List String))
    (h0 : hasKey nd (.str s) = false) : hasKey nd' (.str s) = false := by
  unfold matchMeta at h
  refine foldlM_invariant _ (fun b => hasKey b (.str s) = false) _ _ _ h h0 ?_
  intro b b' a ha hstep hP
  obtain ⟨k0, v0⟩ := a
  cases k0 with
  | str field =>
      unfold matchMetaStep at hstep
      dsimp only at hstep
      by_cases h1 : (matchFieldMappings.any (fun p => pyLower p.1 == pyLower field)) = true
      · rw [if_pos h1] at hstep
        injection hstep with hh
        rw [← hh]
        exact hP
      · rw [if_neg h1] at hstep
        by_cases h2 : hasKey b (.str field) = true
        · rw [if_pos h2] at hstep
          injection hstep with hh
          rw [← hh]
          exact hP
        · rw [if_neg h2] at hstep
          by_cases h3 : pyLower field ∈ (["matchscore", "overallrating"] : List String)
          · rw [if_pos h3] at hstep
            injection hstep with hh
            rw [← hh]
            exact hP
          · rw [if_neg h3] at hstep
            injection hstep with hh
            rw [← hh, hasKey_setK, hP]
            simp only [Bool.false_or, decide_eq_false_iff_not]
            intro he
            injection he with he1
            exact h3 (he1.symm ▸ hs)
  | int n => cases hstep
  | null => cases hstep

/-- **C10.**  On every match-analysis input none of whose keys is a rating
synonym — in particular any input whose only rating information sits under
a key spelled (case-insensitively) `MatchScore` or `OverallRating`, these
exact spellings not being in the synonym table — the normalizer discards
that value entirely: the output's `AIRating` is the default `0`, and no
key lowering to `matchscore`/`overallrating` exists in the output. -/
theorem legacy_rating_keys_dropped :
    ∀ (d nd : PyDict), normalize_match_analysis d = some nd →
      (∀ p ∈ d, ∀ s, p.1 = PyKey.str s → matchMapsTo s ≠ some "AIRating") →
      getK nd (.str "AIRating") = some (.int 0) ∧
      ∀ s : String, pyLower s ∈ (["matchscore", "overallrating"] : List String) →
        hasKey nd (.str s) = false := by
  intro d nd h hno
  unfold normalize_match_analysis at h
  rcases h1 : d.foldlM matchTopStep [] with _ | nd1
  · rw [h1] at h
    cases h
  rw [h1] at h
  have h' : (matchCompanyStage nd1 >>= fun nd => matchEduStage nd >>=
      fun nd => matchMeta d (delLegacyStage (coerceAIRatingStage (fillMatch nd))) >>=
      fun nd => some (sbsStage nd)) = some nd := h
  rcases h2 : matchCompanyStage nd1 with _ | nd2
  · rw [h2] at h'
    cases h'
  rw [h2] at h'
  have h'' : (matchEduStage nd2 >>=
      fun nd => matchMeta d (delLegacyStage (coerceAIRatingStage (fillMatch nd))) >>=
      fun nd => some (sbsStage nd)) = some nd := h'
  rcases h3 : matchEduStage nd2 with _ | nd3
  · rw [h3] at h''
    cases h''
  rw [h3] at h''
  have h3' : (matchMeta d (delLegacyStage (coerceAIRatingStage (fillMatch nd3))) >>=
      fun nd => some (sbsStage nd)) = some nd := h''
  rcases h4 : matchMeta d (delLegacyStage (coerceAIRatingStage (fillMatch nd3)))
      with _ | nd7
  · rw [h4] at h3'
    cases h3'
  rw [h4] at h3'
  have hfin : nd = sbsStage nd7 := by
    have h5 : some (sbsStage nd7) = some nd := h3'
    injection h5 with hh
    exact hh.symm
  have k1 : hasKey nd1 (.str "AIRating") = false := matchTop_no_airating h1 hno
  have k3 : hasKey nd3 (.str "AIRating") = false := by
    rw [hasKey_eq_isSome, matchEduStage_frame h3 (by decide),
        matchCompanyStage_frame h2 (by decide), ← hasKey_eq_isSome]
    exact k1
  have g4 : getK (fillMatch nd3) (.str "AIRating") = some (.int 0) := by
    have hg := foldl_condSet_getK_absent matchStandardFields matchDefault nd3
      "AIRating" (by decide) k3
    rw [show matchDefault "AIRating" = PyVal.int 0 from rfl] at hg
    exact hg
  have hco : coerceAIRatingStage (fillMatch nd3) = fillMatch nd3 := by
    refine coerceAIRatingStage_intfloat ?_
    unfold getKD
    rw [g4]
    rfl
  have g6 : getK (delLegacyStage (coerceAIRatingStage (fillMatch nd3)))
      (.str "AIRating") = some (.int 0) := by
    rw [hco, delLegacyStage_frame _ (by decide) (by decide)]
    exact g4
  have g7 : getK nd7 (.str "AIRating") = some (.int 0) := matchMeta_presv h4 g6
  constructor
  · rw [hfin, sbsStage_frame _ (by decide)]
    exact g7
  · intro s hs
    have hsCA : PyKey.str s ≠ .str "CompanyAnalysis" := by
      intro he
      injection he with he1
      rw [he1] at hs
      exact absurd hs (by decide)
    have hsEA : PyKey.str s ≠ .str "EducationAssessment" := by
      intro he
      injection he with he1
      rw [he1] at hs
      exact absurd hs (by decide)
    have hsAIR : PyKey.str s ≠ .str "AIRating" := by
      intro he
      injection he with he1
      rw [he1] at hs
      exact absurd hs (by decide)
    have hsSBS : PyKey.str s ≠ .str "ShouldBeShortlisted" := by
      intro he
      injection he with he1
      rw [he1] at hs
      exact absurd hs (by decide)
    have t1 : hasKey nd1 (.str s) = false := matchTop_legacy_false h1 hs
    have t3 : hasKey nd3 (.str s) = false := by
      rw [hasKey_eq_isSome, matchEduStage_frame h3 hsEA,
          matchCompanyStage_frame h2 hsCA, ← hasKey_eq_isSome]
      exact t1
    have hstdne : ∀ f ∈ matchStandardFields, f ≠ s := by
      intro f hf he
      subst he
      fin_cases hf <;> exact absurd hs (by decide)
    have t4 : hasKey (fillMatch nd3) (.str s) = false :=
      foldl_condSet_hasKey_false matchStandardFields matchDefault nd3 s hstdne t3
    have t5 : hasKey (coerceAIRatingStage (fillMatch nd3)) (.str s) = false := by
      rw [hasKey_eq_isSome, coerceAIRatingStage_frame _ hsAIR, ← hasKey_eq_isSome]
      exact t4
    have t6 : hasKey (delLegacyStage (coerceAIRatingStage (fillMatch nd3)))
        (.str s) = false := delLegacyStage_hasKey_false t5
    have t7 : hasKey nd7 (.str s) = false := matchMeta_legacy_false h4 hs t6
    rw [hfin, hasKey_eq_isSome, sbsStage_frame _ hsSBS, ← hasKey_eq_isSome]
    exact t7

/-- Witness for `legacy_rating_keys_dropped` on a multi-field input whose
only rating information is a legacy `MatchScore` key. -/
theorem legacy_rating_keys_dropped_witness :
    ∃ nd, normalize_match_analysis
        [(.str "MatchScore", .int 9), (.str "Suggested role", .str "Dev")]
        = some nd ∧
      getK nd (.str "AIRating") = some (.int 0) ∧
      hasKey nd (.str "MatchScore") = false ∧
      hasKey nd (.str "OverallRating") = false := by
  obtain ⟨nd, hnd⟩ : ∃ nd, normalize_match_analysis
      [(.str "MatchScore", .int 9), (.str "Suggested role", .str "Dev")]
      = some nd := ⟨_, rfl⟩
  have h := legacy_rating_keys_dropped _ nd hnd (by
    intro p hp s hps
    rcases List.mem_cons.mp hp with h1 | h1
    · rw [h1] at hps
      injection hps with h2
      rw [← h2]
      decide
    · rcases List.mem_cons.mp h1 with h2 | h2
      · rw [h2] at hps
        injection hps with h3
        rw [← h3]
        decide
      · cases h2)
  exact ⟨nd, hnd, h.1, h.2 "MatchScore" (by decide),
    h.2 "OverallRating" (by decide)⟩
